import Mathlib

/-!
# P-256 on Cortex-M4: a shallow embedding of `p256-cortex-m4.c`

The C file `src/p256-cortex-m4.c` holds the protocol layer (ECDSA sign and verify, ECDH,
key generation, raw scalar multiplication, SEC1 encodings), the two constant-time ladders,
the signed sliding-window recoder and the outer loop of the safegcd inverter.  The field
arithmetic, the Jacobian group law and the divstep kernels are assembly routines that the C
file only declares; they are modelled here from the specification and every such definition
says so in its doc comment.

Conventions of the embedding:

* a `uint32_t[8]` array is a `U256`: the 256-bit integer it stores (little-endian limbs, as
  the header states); `U256.limb` reads limb `i`, `U256.toBytes` the byte image in memory;
* a byte buffer is a `List Byte`;
* a function writing through pointers takes the previous contents of its output buffers
  and returns the new contents together with its `bool` result.
-/

namespace P256

/-! ## Machine data -/

/-- A byte of memory (`uint8_t`). -/
abbrev Byte := Fin 256

/-- The contents of a `uint32_t[8]` array: a 256-bit integer stored in eight little-endian
32-bit limbs. -/
structure U256 where
  val : Nat
  isLt : val < 2 ^ 256

namespace U256

theorem ext {a b : U256} (h : a.val = b.val) : a = b := by
  cases a; cases b; cases h; rfl

instance : DecidableEq U256 := fun a b =>
  if h : a.val = b.val then isTrue (ext h) else isFalse (fun e => h (e ▸ rfl))

/-- Store an integer into eight limbs (bits above 256 do not fit and are dropped). -/
def ofNat (v : Nat) : U256 := ⟨v % 2 ^ 256, Nat.mod_lt _ (Nat.pos_pow_of_pos 256 (by decide))⟩

/-- The all-zero array, as left by `memset(a, 0, 32)`. -/
def zero : U256 := ofNat 0

instance : Inhabited U256 := ⟨zero⟩

/-- Limb `a[i]` of the array. -/
def limb (a : U256) (i : Nat) : Nat := a.val / 2 ^ (32 * i) % 2 ^ 32

/-- The array with the given limbs, least significant first. -/
def ofLimbs (l : List Nat) : U256 := ofNat (l.foldr (fun w acc => w % 2 ^ 32 + 2 ^ 32 * acc) 0)

/-- Byte `((uint8_t*)a)[i]` of the array on the little-endian target. -/
def byte (a : U256) (i : Nat) : Byte := ⟨a.val / 2 ^ (8 * i) % 256, Nat.mod_lt _ (by decide)⟩

/-- The 32 bytes of the array as they lie in memory. -/
def toBytes (a : U256) : List Byte := (List.range 32).map a.byte

/-- The array whose memory image is the given bytes (the first 32 of them). -/
def ofBytes (l : List Byte) : U256 :=
  ofNat ((l.take 32).foldr (fun w acc => w.val + 256 * acc) 0)

end U256

/-! ## Curve constants -/

/-- Modelled from the spec: the field prime `p = 2^256 − 2^224 + 2^192 + 2^96 − 1` of the
glossary (in the repository it is a constant of the assembly file). -/
def P256_p : Nat := 2 ^ 256 - 2 ^ 224 + 2 ^ 192 + 2 ^ 96 - 1

/-- Modelled from the spec: `P256_order`, the order `n` of the base point of NIST P-256
(declared `extern uint32_t P256_order[9]` in the C file, defined in the assembly file). -/
def P256_order : Nat := 0xFFFFFFFF00000000FFFFFFFFFFFFFFFFBCE6FAADA7179E84F3B9CAC2FC632551

/-- Modelled from the spec: the coefficient `b` of the curve `y² = x³ − 3x + b` of NIST P-256
(a constant of the assembly file). -/
def P256_b : Nat := 0x5AC635D8AA3A93E7B3EBBD55769886BC651D06B0CC53B0F63BCE3C3E27D2604B

/-- The inverse of the Montgomery radix `R = 2^256` modulo `p`. -/
def P256_Rinv : Nat := 0xfffffffe00000003fffffffd0000000200000001fffffffe0000000300000000

/-- The constant `one_montgomery` of the C file: `R mod p`. -/
def one_montgomery : U256 := U256.ofLimbs [1, 0, 0, 0xffffffff, 0xffffffff, 0xffffffff, 0xfffffffe, 0]

/-! ## Field arithmetic modulo `p` (assembly, modelled from §4.1 of the spec) -/

/-- Modelled from the spec: `mul_mont(a,b) → a·b·R⁻¹ mod p`, fully reduced (§4.1); the
assembly routine is not part of the C file. -/
def mul_mont (a b : U256) : U256 := U256.ofNat (a.val * b.val * P256_Rinv % P256_p)

/-- Modelled from the spec: `sqr_mont` (§4.1), Montgomery squaring. -/
def sqr_mont (a : U256) : U256 := mul_mont a a

/-- Modelled from the spec: `add_mod_p` (§4.1), addition modulo `p`. -/
def add_mod_p (a b : U256) : U256 := U256.ofNat ((a.val + b.val) % P256_p)

/-- Modelled from the spec: `sub_mod_p` (§4.1), subtraction modulo `p`. -/
def sub_mod_p (a b : U256) : U256 := U256.ofNat ((a.val + (P256_p - b.val % P256_p)) % P256_p)

/-- Modelled from the spec: `P256_to_montgomery`, `to_mont` of §4.1: `a ↦ a·R mod p`. -/
def P256_to_montgomery (a : U256) : U256 := U256.ofNat (a.val * 2 ^ 256 % P256_p)

/-- Modelled from the spec: `P256_from_montgomery`, `from_mont` of §4.1: `aR ↦ a`. -/
def P256_from_montgomery (aR : U256) : U256 := U256.ofNat (aR.val * P256_Rinv % P256_p)

/-- Modelled from the spec: `P256_check_range_p`, the range check modulo `p` of §4.1
(coordinates in `[0, p)`, §4.8). -/
def P256_check_range_p (a : U256) : Bool := decide (a.val < P256_p)

/-- Modelled from the spec: `P256_negate_mod_p_if` (§4.1): compute `p − a mod p` and select
between `a` and that value by the flag. -/
def P256_negate_mod_p_if (inp : U256) (should_negate : Nat) : U256 :=
  if should_negate % 2 = 1 then U256.ofNat ((P256_p - inp.val % P256_p) % P256_p) else inp

/-! ## Scalar arithmetic modulo `n` (assembly, modelled from §4.2 of the spec) -/

/-- Modelled from the spec: `P256_check_range_n`, `check_range_n` of §4.2: true iff
`1 ≤ a < n`. -/
def P256_check_range_n (a : U256) : Bool := decide (1 ≤ a.val ∧ a.val < P256_order)

/-- Modelled from the spec: `P256_mul_mod_n`, `mul_mod_n` of §4.2: multiplication modulo `n`. -/
def P256_mul_mod_n (a b : U256) : U256 := U256.ofNat (a.val * b.val % P256_order)

/-- Modelled from the spec: `P256_add_mod_n`, `add_mod_n` of §4.2: addition modulo `n`. -/
def P256_add_mod_n (a b : U256) : U256 := U256.ofNat ((a.val + b.val) % P256_order)

/-- Modelled from the spec: `P256_reduce_mod_n_32bytes` (§4.2): folds one subtraction of `n`
when applicable. -/
def P256_reduce_mod_n_32bytes (a : U256) : U256 :=
  if P256_order ≤ a.val then U256.ofNat (a.val - P256_order) else a

/-- Modelled from the spec: `P256_negate_mod_n_if`, `negate_mod_n_if` of §4.2, the analogue
modulo `n` of `negate_mod_p_if`. -/
def P256_negate_mod_n_if (inp : U256) (should_negate : Nat) : U256 :=
  if should_negate % 2 = 1 then U256.ofNat ((P256_order - inp.val % P256_order) % P256_order)
  else inp

/-- Modelled from the spec: Montgomery exponentiation by squaring, the shape of the Fermat
addition chains of §4.4 (`fuel` bounds the bit length of the exponent). -/
def pow_mont (a : U256) : Nat → Nat → U256
  | 0, _ => one_montgomery
  | fuel + 1, e =>
    let s := sqr_mont (pow_mont a fuel (e / 2))
    if e % 2 = 1 then mul_mont s a else s

/-! ## Jacobian group law (assembly, modelled from §4.4 of the spec) -/

/-- A point in Jacobian coordinates, `uint32_t[3][8]`, each coordinate in Montgomery form. -/
structure JacobianPoint where
  x : U256
  y : U256
  z : U256
deriving DecidableEq, Inhabited

/-- A point in affine coordinates, `uint32_t[2][8]`. -/
structure AffinePoint where
  x : U256
  y : U256
deriving DecidableEq, Inhabited

/-- An affine table entry passed where the C code expects `const uint32_t (*)[8]`; there is no
third row, and `P256_add_sub_j` does not read one when `p2_is_affine` is set. -/
def AffinePoint.asJacobian (a : AffinePoint) : JacobianPoint := ⟨a.x, a.y, U256.zero⟩

/-- Modelled from the spec: `P256_double_j`, `double_j(P) → 2P` by the `dbl-2007-bl` formulas
with `a = −3`; `Z = 0` maps to `Z = 0` (§4.4). -/
def P256_double_j (P : JacobianPoint) : JacobianPoint :=
  let xx := sqr_mont P.x
  let yy := sqr_mont P.y
  let yyyy := sqr_mont yy
  let zz := sqr_mont P.z
  let t0 := sub_mod_p (sub_mod_p (sqr_mont (add_mod_p P.x yy)) xx) yyyy
  let s := add_mod_p t0 t0
  let d := sub_mod_p xx (sqr_mont zz)
  let m := add_mod_p (add_mod_p d d) d
  let t := sub_mod_p (sqr_mont m) (add_mod_p s s)
  let y4 := add_mod_p yyyy yyyy
  let y8 := add_mod_p (add_mod_p y4 y4) (add_mod_p y4 y4)
  let y3 := sub_mod_p (mul_mont m (sub_mod_p s t)) y8
  let z3 := sub_mod_p (sub_mod_p (sqr_mont (add_mod_p P.y P.z)) yy) zz
  ⟨t, y3, z3⟩

/-- Modelled from the spec: `P256_add_sub_j`, `add_sub_j(P, Q, is_sub, q_is_affine) → P ± Q`
(§4.4): `Q` has implicit `Z = 1` in Montgomery form when affine, `Q.y` is negated when
subtracting, a point at infinity on either input is recognised by its marker `Z = 0`, and
when both operands are the same point a doubling occurs instead (comment in
`scalarmult_variable_base`). -/
def P256_add_sub_j (point1 point2 : JacobianPoint) (is_sub p2_is_affine : Bool) :
    JacobianPoint :=
  let y2 := if is_sub then P256_negate_mod_p_if point2.y 1 else point2.y
  let z2 := if p2_is_affine then one_montgomery else point2.z
  if point1.z = U256.zero then ⟨point2.x, y2, z2⟩
  else if z2 = U256.zero then point1
  else
    let z1z1 := sqr_mont point1.z
    let z2z2 := sqr_mont z2
    let u1 := mul_mont point1.x z2z2
    let u2 := mul_mont point2.x z1z1
    let s1 := mul_mont (mul_mont point1.y z2) z2z2
    let s2 := mul_mont (mul_mont y2 point1.z) z1z1
    let h := sub_mod_p u2 u1
    let r := sub_mod_p s2 s1
    if h = U256.zero ∧ r = U256.zero then P256_double_j point1
    else
      let hh := sqr_mont h
      let hhh := mul_mont h hh
      let v := mul_mont u1 hh
      let x3 := sub_mod_p (sub_mod_p (sqr_mont r) hhh) (add_mod_p v v)
      let y3 := sub_mod_p (mul_mont r (sub_mod_p v x3)) (mul_mont s1 hhh)
      let z3 := mul_mont (mul_mont point1.z z2) h
      ⟨x3, y3, z3⟩

/-- Modelled from the spec: `P256_jacobian_to_affine`, `jacobian_to_affine(P) → (x, y)` (§4.4):
`z_inv = Z⁻¹ mod p` by Fermat, then `x = X·z_inv²`, `y = Y·z_inv³`. -/
def P256_jacobian_to_affine (jacobian_mont : JacobianPoint) : U256 × U256 :=
  let z_inv := pow_mont jacobian_mont.z 256 (P256_p - 2)
  let z_inv2 := sqr_mont z_inv
  (mul_mont jacobian_mont.x z_inv2, mul_mont jacobian_mont.y (mul_mont z_inv2 z_inv))

/-- Modelled from the spec: `P256_point_is_on_curve`, `point_is_on_curve(x_mont, y_mont)` (§4.4):
true iff `y² ≡ x³ − 3x + b (mod p)`, both sides in Montgomery form. -/
def P256_point_is_on_curve (x_mont y_mont : U256) : Bool :=
  let three := add_mod_p (add_mod_p one_montgomery one_montgomery) one_montgomery
  let rhs := add_mod_p (mul_mont x_mont (sub_mod_p (sqr_mont x_mont) three))
    (P256_to_montgomery (U256.ofNat P256_b))
  decide (sqr_mont y_mont = rhs)

/-- Modelled from the spec: `P256_decompress_point`, `decompress_point(x, y_parity) → y` (§4.4):
`α = x³ − 3x + b`, `y = α^((p+1)/4) mod p`, verify `y² = α`, negate `y` if its lsb disagrees
with `y_parity`; fail if no square root exists.  The spec does not say what the `y` buffer
holds after a failure; the model leaves it as it was. -/
def P256_decompress_point (y x : U256) (y_parity : Nat) : Bool × U256 :=
  let x_mont := P256_to_montgomery x
  let three := add_mod_p (add_mod_p one_montgomery one_montgomery) one_montgomery
  let alpha := add_mod_p (mul_mont x_mont (sub_mod_p (sqr_mont x_mont) three))
    (P256_to_montgomery (U256.ofNat P256_b))
  let root := pow_mont alpha 256 ((P256_p + 1) / 4)
  if sqr_mont root = alpha then
    let y0 := P256_from_montgomery root
    (true, P256_negate_mod_p_if y0 ((y0.limb 0 &&& 1) ^^^ (y_parity &&& 1)))
  else (false, y)

/-! ## The safegcd inverter modulo `n` -/

/-- The `struct FGInteger` of the C file: the value is `signed_value` read as a two's
complement 288-bit integer, negated if `flip_sign` is `-1`. -/
structure FGInteger where
  flip_sign : Int
  signed_value : Nat
deriving DecidableEq, Inhabited

/-- The `struct XYInteger` of the C file: the value is `value`, negated if `flip_sign` is `-1`. -/
structure XYInteger where
  flip_sign : Int
  value : U256
deriving DecidableEq, Inhabited

/-- Limb `signed_value[i]` of an `FGInteger`. -/
def FGInteger.limb (a : FGInteger) (i : Nat) : Nat := a.signed_value / 2 ^ (32 * i) % 2 ^ 32

/-- The integer an `FGInteger` stands for. -/
def FGInteger.toInt (a : FGInteger) : Int :=
  let v : Int := if a.signed_value % 2 ^ 288 < 2 ^ 287 then (a.signed_value % 2 ^ 288 : Nat)
    else ((a.signed_value % 2 ^ 288 : Nat) : Int) - 2 ^ 288
  if a.flip_sign = -1 then -v else v

/-- The integer an `XYInteger` stands for. -/
def XYInteger.toInt (a : XYInteger) : Int :=
  if a.flip_sign = -1 then -(a.value.val : Int) else a.value.val

/-- A `uint32_t` holding a two's complement number, read as that number. -/
def int32_of_u32 (w : Nat) : Int :=
  if w % 2 ^ 32 < 2 ^ 31 then ((w % 2 ^ 32 : Nat) : Int) else ((w % 2 ^ 32 : Nat) : Int) - 2 ^ 32

/-- An `int` converted to `uint32_t`. -/
def u32_of_int (a : Int) : Nat := (a % 2 ^ 32).toNat

/-- An entry of the transition matrix, "element range: [-2^30, 2^31] (negative numbers are
stored in two's complement form)": the word `0x80000000` stands for `2^31`. -/
def matrix_entry (w : Nat) : Int :=
  if w % 2 ^ 32 ≤ 2 ^ 31 then ((w % 2 ^ 32 : Nat) : Int) else ((w % 2 ^ 32 : Nat) : Int) - 2 ^ 32

/-- The registers of the divstep iteration: `delta`, the low words of `f` and `g`, and the
scaled transition matrix `[[u, v], [q, r]]`. -/
structure DivstepState where
  delta : Int
  f : Int
  g : Int
  u : Int
  v : Int
  q : Int
  r : Int

/-- Modelled from the spec: one divstep of the Bernstein–Yang iteration (§4.3, glossary),
`(δ, f, g) ↦ (1 − δ, g, (g − f)/2)` if `δ > 0` and `g` is odd, else
`(1 + δ, f, (g + (g mod 2)·f)/2)`, with the matrix scaled by `2` at each step. -/
def divstep (s : DivstepState) : DivstepState :=
  if 0 < s.delta ∧ s.g % 2 = 1 then
    ⟨1 - s.delta, s.g, (s.g - s.f) / 2, 2 * s.q, 2 * s.r, s.q - s.u, s.r - s.v⟩
  else
    ⟨1 + s.delta, s.f, (s.g + (s.g % 2) * s.f) / 2, 2 * s.u, 2 * s.v,
      s.q + (s.g % 2) * s.u, s.r + (s.g % 2) * s.v⟩

/-- Modelled from the spec: `divsteps2_31(delta, f_lo, g_lo) → (new_delta, matrix[2][2])`
(§4.3): 31 divstep iterations on the low words, returning the new `delta` and the 2×2
transition matrix. -/
def divsteps2_31 (delta : Int) (f g : Nat) : Int × List Nat :=
  let s := (List.range 31).foldl (fun s _ => divstep s)
    ⟨delta, int32_of_u32 f, int32_of_u32 g, 1, 0, 0, 1⟩
  (s.delta, [u32_of_int s.u, u32_of_int s.v, u32_of_int s.q, u32_of_int s.r])

/-- Modelled from the spec: `matrix_mul_fg_9(a, b, fg, res)` (§4.3, step 3): one row of the
matrix applied to the full `(f, g)` pair, the factor `2^31` divided out; the result is stored
as a 288-bit two's complement value with `flip_sign = 0`. -/
def matrix_mul_fg_9 (a b : Nat) (fg0 fg1 : FGInteger) : FGInteger :=
  ⟨0, ((matrix_entry a * fg0.toInt + matrix_entry b * fg1.toInt) / 2 ^ 31 % 2 ^ 288).toNat⟩

/-- Modelled from the spec: `matrix_mul_p256_order(a, b, xy, res)` (§4.3, step 4): one row of
the matrix applied to the `(x, y)` pair modulo `n` with the integrated Montgomery reduction
dividing by `2^32`; the output is canonical, `0 ≤ value < n`, with `flip_sign = 0`. -/
def matrix_mul_p256_order (a b : Nat) (xy0 xy1 : XYInteger) : XYInteger :=
  ⟨0, U256.ofNat (((matrix_entry a * xy0.toInt + matrix_entry b * xy1.toInt)
      * 0xee00bc4e11ff43b1ee00bc4effffffffc19e8bb25cb6d7ab834a4884ede0f036
      % (P256_order : Int)).toNat)⟩

/-- One slot of the `state[2]` array of `P256_mod_n_inv`: `fg[2]` and `xy[2]`. -/
structure InvState where
  fg0 : FGInteger
  fg1 : FGInteger
  xy0 : XYInteger
  xy1 : XYInteger
deriving Inhabited

/-- The body of the loop of `P256_mod_n_inv` for the iteration `i`. -/
def P256_mod_n_inv_step (acc : List InvState × Int) (i : Nat) : List InvState × Int :=
  let state := acc.1
  let cur := state.getD (i % 2) default
  let negate_f := u32_of_int cur.fg0.flip_sign
  let negate_g := u32_of_int cur.fg1.flip_sign
  let res := divsteps2_31 acc.2
    (((cur.fg0.limb 0 ^^^ negate_f) + 2 ^ 32 - negate_f) % 2 ^ 32)
    (((cur.fg1.limb 0 ^^^ negate_g) + 2 ^ 32 - negate_g) % 2 ^ 32)
  let matrix := res.2
  let next : InvState :=
    ⟨matrix_mul_fg_9 (matrix.getD 0 0) (matrix.getD 1 0) cur.fg0 cur.fg1,
     matrix_mul_fg_9 (matrix.getD 2 0) (matrix.getD 3 0) cur.fg0 cur.fg1,
     matrix_mul_p256_order (matrix.getD 0 0) (matrix.getD 1 0) cur.xy0 cur.xy1,
     matrix_mul_p256_order (matrix.getD 2 0) (matrix.getD 3 0) cur.xy0 cur.xy1⟩
  (state.set ((i + 1) % 2) next, res.1)

/-- The function `P256_mod_n_inv` of the C file. -/
def P256_mod_n_inv (inp : U256) : U256 :=
  let state0 : InvState :=
    ⟨⟨0, P256_order⟩, ⟨0, inp.val⟩, ⟨0, U256.zero⟩, ⟨0, U256.ofNat (1 <<< 24)⟩⟩
  let fin := (List.range 24).foldl P256_mod_n_inv_step ([state0, default], 1)
  let s := fin.1.getD 0 default
  P256_negate_mod_n_if s.xy0.value
    ((u32_of_int s.xy0.flip_sign ^^^ u32_of_int s.fg0.flip_sign ^^^ s.fg0.limb 8) &&& 1)

/-! ## Helpers of the C file -/

/-- The function `hash_to_z` of the C file: takes the leftmost 256 bits in `hash` (treated as
big endian) and converts to the little endian integer `z`.  The byte `((uint8_t*)z)[i]` is
element `i` of the list that is packed into `z`. -/
def hash_to_z (hash : List Byte) (hashlen : Nat) : U256 :=
  let hashlen := if hashlen > 32 then 32 else hashlen
  U256.ofBytes ((List.range 32).map fun i =>
    if i < hashlen then hash.getD (hashlen - 1 - i) 0 else 0)

/-- The function `abs_int` of the C file (constant-time absolute value of an `int8_t`, on
`uint32_t` words). -/
def abs_int (a : Int) : Nat :=
  let a_u := u32_of_int a
  let mask := a_u >>> 31
  let mask := mask ||| (mask <<< 1) % 2 ^ 32
  let mask := mask ||| (mask <<< 2) % 2 ^ 32
  let result := u32_of_int (-a) &&& mask
  result ||| (a_u &&& (mask ^^^ 0xf))

/-- The macro `get_bit(arr, i)` of the C file. -/
def get_bit (arr : U256) (i : Nat) : Nat := (arr.limb (i / 32) >>> (i % 32)) &&& 1

/-- A value stored into an `int8_t`. -/
def int8_of_int (a : Int) : Int := (a + 128) % 256 - 128

/-- The body of the recoding loop of `scalarmult_variable_base` for the index `i`: extract 4
bits; if even, subtract `2^4` from `e[i - 1]` and add 1 to `e[i]`. -/
def scalarmult_variable_base_recode_step (scalar2 : U256) (e : List Int) (i : Nat) : List Int :=
  let e := e.set i (((scalar2.limb (i / 8) >>> ((i % 8) * 4)) &&& 0xf : Nat) : Int)
  let e := e.set (i - 1)
    (int8_of_int (e.getD (i - 1) 0 - ((((e.getD i 0).toNat &&& 1) ^^^ 1) <<< 4 : Nat)))
  e.set i (((e.getD i 0).toNat ||| 1 : Nat) : Int)

/-- The recoding loop of `scalarmult_variable_base`: rewrites the scalar as
`e[0] + 2^4*e[1] + ... + 2^252*e[63]`. -/
def scalarmult_variable_base_recode (scalar2 : U256) : List Int :=
  (List.range' 1 63).foldl (scalarmult_variable_base_recode_step scalar2)
    ((List.replicate 64 (0 : Int)).set 0 ((scalar2.limb 0 &&& 0xf : Nat) : Int))

/-- The body of the loop that fills `table[i]` for `i = 1..7`: copy `table[7]` (which holds
`2P`) and add `table[i - 1]`. -/
def odd_multiples_table_step (table : List JacobianPoint) (i : Nat) : List JacobianPoint :=
  let table := table.set i (table.getD 7 default)
  table.set i (P256_add_sub_j (table.getD i default) (table.getD (i - 1) default) false false)

/-- The table `P, 3P, 5P, ... 15P` built by `scalarmult_variable_base` (and by `p256_verify`):
`table[7]` first receives `2P`, then each `table[i]` is `2P + table[i - 1]`. -/
def odd_multiples_table (x_mont y_mont : U256) : List JacobianPoint :=
  let table := (List.replicate 8 (default : JacobianPoint)).set 0 ⟨x_mont, y_mont, one_montgomery⟩
  let table := table.set 7 (P256_double_j (table.getD 0 default))
  (List.range' 1 7).foldl odd_multiples_table_step table

/-- The body of the main loop of `scalarmult_variable_base` for the index `i`. -/
def scalarmult_variable_base_step (table : List JacobianPoint) (e : List Int)
    (current_point : JacobianPoint) (i : Nat) : JacobianPoint :=
  let current_point := (List.range 4).foldl (fun cp _ => P256_double_j cp) current_point
  let selected_point := table.getD (abs_int (e.getD i 0) >>> 1) default
  let selected_point : JacobianPoint :=
    { selected_point with
      y := P256_negate_mod_p_if selected_point.y ((e.getD i 0 % 256).toNat >>> 7) }
  P256_add_sub_j current_point selected_point false false

/-- The function `scalarmult_variable_base` of the C file: calculates `scalar*P`; returns
`(output_mont_x, output_mont_y)`. -/
def scalarmult_variable_base (input_mont_x input_mont_y scalar : U256) : U256 × U256 :=
  let even := (scalar.limb 0 &&& 1) ^^^ 1
  let scalar2 := P256_negate_mod_n_if scalar even
  let e := scalarmult_variable_base_recode scalar2
  let table := odd_multiples_table input_mont_x input_mont_y
  let current_point := table.getD ((e.getD 63 0).toNat >>> 1) default
  let current_point := ((List.range 63).reverse).foldl
    (scalarmult_variable_base_step table e) current_point
  let out := P256_jacobian_to_affine current_point
  (out.1, P256_negate_mod_p_if out.2 even)

/-- The table `p256_basepoint_precomp` of the C file: `1G, 3G, 5G, ..., 15G` in affine
coordinates in Montgomery form. -/
def p256_basepoint_precomp : List AffinePoint := [
  ⟨U256.ofLimbs [0x18a9143c, 0x79e730d4, 0x5fedb601, 0x75ba95fc, 0x77622510, 0x79fb732b, 0xa53755c6, 0x18905f76],
   U256.ofLimbs [0xce95560a, 0xddf25357, 0xba19e45c, 0x8b4ab8e4, 0xdd21f325, 0xd2e88688, 0x25885d85, 0x8571ff18]⟩,
  ⟨U256.ofLimbs [0x4eebc127, 0xffac3f90, 0x87d81fb, 0xb027f84a, 0x87cbbc98, 0x66ad77dd, 0xb6ff747e, 0x26936a3f],
   U256.ofLimbs [0xc983a7eb, 0xb04c5c1f, 0x861fe1a, 0x583e47ad, 0x1a2ee98e, 0x78820831, 0xe587cc07, 0xd5f06a29]⟩,
  ⟨U256.ofLimbs [0xc45c61f5, 0xbe1b8aae, 0x94b9537d, 0x90ec649a, 0xd076c20c, 0x941cb5aa, 0x890523c8, 0xc9079605],
   U256.ofLimbs [0xe7ba4f10, 0xeb309b4a, 0xe5eb882b, 0x73c568ef, 0x7e7a1f68, 0x3540a987, 0x2dd1e916, 0x73a076bb]⟩,
  ⟨U256.ofLimbs [0xa0173b4f, 0x746354e, 0xd23c00f7, 0x2bd20213, 0xc23bb08, 0xf43eaab5, 0xc3123e03, 0x13ba5119],
   U256.ofLimbs [0x3f5b9d4d, 0x2847d030, 0x5da67bdd, 0x6742f2f2, 0x77c94195, 0xef933bdc, 0x6e240867, 0xeaedd915]⟩,
  ⟨U256.ofLimbs [0x264e20e8, 0x75c96e8f, 0x59a7a841, 0xabe6bfed, 0x44c8eb00, 0x2cc09c04, 0xf0c4e16b, 0xe05b3080],
   U256.ofLimbs [0xa45f3314, 0x1eb7777a, 0xce5d45e3, 0x56af7bed, 0x88b12f1a, 0x2b6e019a, 0xfd835f9b, 0x86659cd]⟩,
  ⟨U256.ofLimbs [0x6245e404, 0xea7d260a, 0x6e7fdfe0, 0x9de40795, 0x8dac1ab5, 0x1ff3a415, 0x649c9073, 0x3e7090f1],
   U256.ofLimbs [0x2b944e88, 0x1a768561, 0xe57f61c8, 0x250f939e, 0x1ead643d, 0xc0daa89, 0xe125b88e, 0x68930023]⟩,
  ⟨U256.ofLimbs [0x4b2ed709, 0xccc42563, 0x856fd30d, 0xe356769, 0x559e9811, 0xbcbcd43f, 0x5395b759, 0x738477ac],
   U256.ofLimbs [0xc00ee17f, 0x35752b90, 0x742ed2e3, 0x68748390, 0xbd1f5bc1, 0x7cd06422, 0xc9e7b797, 0xfbc08769]⟩,
  ⟨U256.ofLimbs [0xbc60055b, 0x72bcd8b7, 0x56e27e4b, 0x3cc23ee, 0xe4819370, 0xee337424, 0xad3da09, 0xe2aa0e43],
   U256.ofLimbs [0x6383c45d, 0x40b8524f, 0x42a41b25, 0xd7663554, 0x778a4797, 0x64efa6de, 0x7079adf4, 0x2042170a]⟩]

/-- The table `p256_basepoint_precomp2` of the C file: two tables of 8 points each in affine
coordinates in Montgomery form; the first holds `(2^192 ± 2^128 ± 2^64 ± 1)G`, the second the
same points multiplied by `2^32`. -/
def p256_basepoint_precomp2 : List (List AffinePoint) := [[
  ⟨U256.ofLimbs [0x670844e0, 0x52d8a7c9, 0xef68a29d, 0xe33bdc, 0x4bdb7361, 0xf3d2848, 0x91c5304d, 0x5222c821],
   U256.ofLimbs [0xdf73fc25, 0xea6d2944, 0x255c81b, 0xa04c0f55, 0xefe488a8, 0x29acdc97, 0x80a560de, 0xbe2e158f]⟩,
  ⟨U256.ofLimbs [0x2b13e673, 0xfc8511ee, 0xd103ed24, 0xffc58dee, 0xea7e99b8, 0x1022523a, 0x4afc8a17, 0x8f43ea39],
   U256.ofLimbs [0xc5f33d0b, 0x8f4e2dbc, 0xd0aa1681, 0x3bc099fa, 0x79ff9df1, 0xffbb7b41, 0xd58b57c4, 0x180de09d]⟩,
  ⟨U256.ofLimbs [0x8bd1cda5, 0x56430752, 0x8e05eda5, 0x1807577f, 0x956896e9, 0x99c699b, 0xf1f0efb5, 0x83d6093d],
   U256.ofLimbs [0xed97061c, 0xef5af17e, 0x30d4c3c, 0x35b977b8, 0x49229439, 0x81fa75a2, 0xa0b6d35d, 0xf5a22070]⟩,
  ⟨U256.ofLimbs [0x74f81cf1, 0x814c5365, 0x120065b, 0xe30baff7, 0x15132621, 0x80ae1256, 0x36a80788, 0x16d2b8cb],
   U256.ofLimbs [0xecc50bca, 0x33d14697, 0x17aedd21, 0x19a9dfb0, 0xedc3f766, 0x523fbcc7, 0xb2cf5afd, 0x9c4de6dd]⟩,
  ⟨U256.ofLimbs [0xcf0d9f6d, 0x5305a9e6, 0x81a9b021, 0x5839172f, 0x75c687cf, 0xcca7a4dd, 0x844be22f, 0x36d59b3e],
   U256.ofLimbs [0x111a53e9, 0xcace7e62, 0xf063f3a1, 0x91c843d4, 0xda812da, 0xbf77e5f0, 0x437f3176, 0xe64af9c]⟩,
  ⟨U256.ofLimbs [0xcf07517d, 0xdbd568bb, 0xba6830b9, 0x2f1afba2, 0xe6c4c2a6, 0x15b6807c, 0xe4966aef, 0x91c7eabc],
   U256.ofLimbs [0xd6b2b6e6, 0x716dea1b, 0x19f85b4b, 0x248c43d1, 0x4a315e2a, 0x16dcfd60, 0xc72b3d0b, 0x15fdd303]⟩,
  ⟨U256.ofLimbs [0x42b7dfd5, 0xe40bf9f4, 0x2d934f2a, 0x673689f3, 0x30a6f50b, 0x8314beb4, 0x976ec64e, 0xd17af2bc],
   U256.ofLimbs [0x1ee7ddf1, 0x39f66c4f, 0x68ea373c, 0x7f68e18b, 0x53d0b186, 0x5166c1f2, 0x7be58f14, 0x95dda601]⟩,
  ⟨U256.ofLimbs [0x42913074, 0xd5ae356, 0x48a542b1, 0x55491b27, 0xb310732a, 0x469ca665, 0x5f1a4cc1, 0x29591d52],
   U256.ofLimbs [0xb84f983f, 0xe76f5b6b, 0x9f5f84e1, 0xbe7eef41, 0x80baa189, 0x1200d496, 0x18ef332c, 0x6376551f]⟩],
 [
  ⟨U256.ofLimbs [0x7c4e54f5, 0xb9e5cbc0, 0xe1410e34, 0xc53a1a17, 0xec454425, 0x3e199130, 0x1700902e, 0xb029c97e],
   U256.ofLimbs [0x786423b6, 0x2de66e11, 0xb41a95be, 0x262dc914, 0x451b683, 0x51766abd, 0x85bb6fb1, 0x55ad5f34]⟩,
  ⟨U256.ofLimbs [0x9066cb79, 0x74f4f1c, 0x30c8b94e, 0x1ab31bd6, 0xd74275b3, 0x6d3f012f, 0x9ddcce40, 0xa214d0b1],
   U256.ofLimbs [0xd165050a, 0x24aedf74, 0xe0e5dc3e, 0x95f17ece, 0xd9224456, 0x6ada9cda, 0x2dd60eea, 0x1fadb2d1]⟩,
  ⟨U256.ofLimbs [0xe20cfb9b, 0xa3d83091, 0xba76e0cb, 0xae79c975, 0xc8858a6e, 0xa5f2a588, 0x874a3168, 0xe897a5f4],
   U256.ofLimbs [0x7d48f096, 0xf6c1ef40, 0xc35b132c, 0x1f9c516b, 0x53c479fd, 0xe1040f91, 0x9df06743, 0x60e881f]⟩,
  ⟨U256.ofLimbs [0x52a90e51, 0x9e0ad72, 0x38c50a96, 0xb7e66ea3, 0x7d997770, 0xab32ad05, 0x445671cb, 0xceaffe2],
   U256.ofLimbs [0x5d37cc99, 0xdfbe753c, 0xe0fea2d5, 0x95d068cc, 0x4dd77cb6, 0x1e37cdda, 0x55530688, 0x88c5a4bb]⟩,
  ⟨U256.ofLimbs [0xc7744f1, 0x3413f033, 0xbc816702, 0x23c05c89, 0x1192b5ac, 0x2322ee9a, 0x373180bb, 0xc1636a0],
   U256.ofLimbs [0xbdde0207, 0xfe2f3d4, 0xc23578d8, 0xe1a093a, 0xc888ead, 0x6e5f0d1, 0x52a2b660, 0x9ca285a5]⟩,
  ⟨U256.ofLimbs [0xce923964, 0xdae76995, 0xa34c7993, 0xcc96493a, 0xea73d9e7, 0xd19b5144, 0x311e6e34, 0x4a5c263],
   U256.ofLimbs [0xd9a2a443, 0x7db5b32b, 0x2cfd960c, 0x3754bd33, 0xa430f15, 0xc5bcc98, 0xd9a94574, 0x5651201f]⟩,
  ⟨U256.ofLimbs [0xfc0418fe, 0xebdd8921, 0x34e20036, 0x37015b39, 0xdf03a353, 0xcf4fcd8f, 0xf12cab16, 0xdc2de6e1],
   U256.ofLimbs [0xd071df14, 0x9c17cc1a, 0x63415530, 0xd7c5e6a3, 0x68f3fb1e, 0xb5301660, 0x18269301, 0xb5f70bc9]⟩,
  ⟨U256.ofLimbs [0x79ec1a0f, 0x2d8daefd, 0xceb39c97, 0x3bbcd6fd, 0x58f61a95, 0xf5575ffc, 0xadf7b420, 0xdbd986c4],
   U256.ofLimbs [0x15f39eb7, 0x81aa8814, 0xb98d976c, 0x6ee2fcf5, 0xcf2f717d, 0x5465475d, 0x6860bbd0, 0x8e24d3c4]⟩]]

/-- A table entry `precomp[t][mask]`, read as the Jacobian operand of `P256_add_sub_j`. -/
def precomp_entry (t mask : Nat) : JacobianPoint :=
  ((p256_basepoint_precomp2.getD t []).getD mask default).asJacobian

/-- The body of the main loop of `scalarmult_fixed_base` for the index `i`. -/
def scalarmult_fixed_base_step (scalar2 : U256) (current_point : JacobianPoint) (i : Nat) :
    JacobianPoint :=
  let mask := get_bit scalar2 (i + 32 + 1) ||| (get_bit scalar2 (i + 64 + 32 + 1) <<< 1)
    ||| (get_bit scalar2 (i + 2 * 64 + 32 + 1) <<< 2)
  let current_point :=
    if i = 31 then
      { precomp_entry 1 mask with z := one_montgomery }
    else
      let current_point := P256_double_j current_point
      let sign := (get_bit scalar2 (i + 3 * 64 + 32 + 1) + 2 ^ 32 - 1) % 2 ^ 32
      let mask := (mask ^^^ sign) &&& 7
      let selected_point := precomp_entry 1 mask
      let selected_point : JacobianPoint :=
        { selected_point with y := P256_negate_mod_p_if selected_point.y (sign &&& 1) }
      P256_add_sub_j current_point selected_point false true
  let mask := get_bit scalar2 (i + 1) ||| (get_bit scalar2 (i + 64 + 1) <<< 1)
    ||| (get_bit scalar2 (i + 2 * 64 + 1) <<< 2)
  let sign := (get_bit scalar2 (i + 3 * 64 + 1) + 2 ^ 32 - 1) % 2 ^ 32
  let mask := (mask ^^^ sign) &&& 7
  let selected_point := precomp_entry 0 mask
  let selected_point : JacobianPoint :=
    { selected_point with y := P256_negate_mod_p_if selected_point.y (sign &&& 1) }
  P256_add_sub_j current_point selected_point false true

/-- The function `scalarmult_fixed_base` of the C file (the variant built when
`include_fast_p256_basemult` is set, the default): calculates `scalar*G`; returns
`(output_mont_x, output_mont_y)`. -/
def scalarmult_fixed_base (scalar : U256) : U256 × U256 :=
  let even := (scalar.limb 0 &&& 1) ^^^ 1
  let scalar2 := P256_negate_mod_n_if scalar even
  let current_point := ((List.range 32).reverse).foldl
    (scalarmult_fixed_base_step scalar2) default
  let out := P256_jacobian_to_affine current_point
  (out.1, P256_negate_mod_p_if out.2 even)

/-- The function `p256_convert_endianness` of the C file, for `output` and `input` pointing to
separate buffers: returns the new contents of `output`. -/
def p256_convert_endianness (output input : List Byte) (byte_len : Nat) : List Byte :=
  (List.range (byte_len / 2)).foldl (fun output i =>
      let t := input.getD (byte_len - 1 - i) 0
      let output := output.set (byte_len - 1 - i) (input.getD i 0)
      output.set i t)
    output

/-! ## ECDSA signing -/

/-- The `struct SignPrecomp` of the header. -/
structure SignPrecomp where
  r : U256
  k_inv : U256
deriving DecidableEq, Inhabited

/-- The `uint32_t` obtained by or-ing the eight limbs of an array (the loops computing `r_sum`
and `s_sum`). -/
def limbs_or (a : U256) : Nat := (List.range 8).foldl (fun sum i => sum ||| a.limb i) 0

/-- The function `p256_sign_step1` of the C file; returns the `bool` and the new contents of
`*result`. -/
def p256_sign_step1 (result : SignPrecomp) (k : U256) : Bool × SignPrecomp :=
  if !P256_check_range_n k then
    (false, ⟨U256.zero, U256.zero⟩)
  else
    let point_res := scalarmult_fixed_base k
    let result : SignPrecomp := { result with k_inv := P256_mod_n_inv k }
    let result : SignPrecomp := { result with r := P256_from_montgomery point_res.1 }
    let result : SignPrecomp := { result with r := P256_reduce_mod_n_32bytes result.r }
    let r_sum := limbs_or result.r
    if r_sum = 0 then
      (false, ⟨U256.zero, U256.zero⟩)
    else
      (true, result)

/-- The result of `p256_sign_step2`: the `bool` and the contents of `r`, `s` and
`*sign_precomp` when it returns. -/
structure SignStep2Result where
  ret : Bool
  r : U256
  s : U256
  sign_precomp : SignPrecomp
deriving DecidableEq

/-- The function `p256_sign_step2` of the C file (`r`, `s` and `sign_precomp` are separate
buffers). -/
def p256_sign_step2 (r s : U256) (hash : List Byte) (hashlen_in_bytes : Nat)
    (private_key : U256) (sign_precomp : SignPrecomp) : SignStep2Result :=
  if !P256_check_range_n sign_precomp.k_inv || !P256_check_range_n sign_precomp.r then
    ⟨false, U256.zero, U256.zero, sign_precomp⟩
  else
    let z := hash_to_z hash hashlen_in_bytes
    let r := z
    let s := P256_mul_mod_n sign_precomp.r private_key
    let s := P256_add_mod_n z s
    let s := P256_mul_mod_n sign_precomp.k_inv s
    let r := sign_precomp.r
    let s_sum := limbs_or s
    if s_sum = 0 then
      ⟨false, U256.zero, U256.zero, sign_precomp⟩
    else
      ⟨true, r, s, ⟨U256.zero, U256.zero⟩⟩

/-- The function `p256_sign` of the C file; returns the `bool` and the contents of `r` and `s`. -/
def p256_sign (r s : U256) (hash : List Byte) (hashlen_in_bytes : Nat)
    (private_key k : U256) : Bool × U256 × U256 :=
  let t := p256_sign_step1 default k
  if !t.1 then
    (false, U256.zero, U256.zero)
  else
    let res := p256_sign_step2 r s hash hashlen_in_bytes private_key t.2
    (res.ret, res.r, res.s)

/-! ## Key generation, scalar multiplication, ECDH -/

/-- The function `p256_scalarmult_base` of the C file; returns the `bool` and the contents of
`result_x` and `result_y`. -/
def p256_scalarmult_base (result_x result_y scalar : U256) : Bool × U256 × U256 :=
  if !P256_check_range_n scalar then
    (false, result_x, result_y)
  else
    let res := scalarmult_fixed_base scalar
    let result_x := res.1
    let result_y := res.2
    let result_x := P256_from_montgomery result_x
    let result_y := P256_from_montgomery result_y
    (true, result_x, result_y)

/-- The function `p256_keygen` of the C file. -/
def p256_keygen (public_key_x public_key_y private_key : U256) : Bool × U256 × U256 :=
  p256_scalarmult_base public_key_x public_key_y private_key

/-- The function `p256_scalarmult_generic_no_scalar_check` of the C file; returns the `bool`
and the contents of `output_mont_x` and `output_mont_y`. -/
def p256_scalarmult_generic_no_scalar_check (output_mont_x output_mont_y scalar in_x in_y : U256) :
    Bool × U256 × U256 :=
  if !P256_check_range_p in_x || !P256_check_range_p in_y then
    (false, output_mont_x, output_mont_y)
  else
    let output_mont_x := P256_to_montgomery in_x
    let output_mont_y := P256_to_montgomery in_y
    if !P256_point_is_on_curve output_mont_x output_mont_y then
      (false, output_mont_x, output_mont_y)
    else
      let res := scalarmult_variable_base output_mont_x output_mont_y scalar
      (true, res.1, res.2)

/-- The function `p256_scalarmult_generic` of the C file; returns the `bool` and the contents
of `result_x` and `result_y`. -/
def p256_scalarmult_generic (result_x result_y scalar in_x in_y : U256) : Bool × U256 × U256 :=
  if !P256_check_range_n scalar then
    (false, result_x, result_y)
  else
    let res := p256_scalarmult_generic_no_scalar_check result_x result_y scalar in_x in_y
    if !res.1 then
      (false, res.2.1, res.2.2)
    else
      let result_x := P256_from_montgomery res.2.1
      let result_y := P256_from_montgomery res.2.2
      (true, result_x, result_y)

/-- The function `p256_ecdh_calc_shared_secret` of the C file; returns the `bool` and the
contents of the 32-byte buffer `shared_secret`. -/
def p256_ecdh_calc_shared_secret (shared_secret : List Byte)
    (private_key others_public_key_x others_public_key_y : U256) : Bool × List Byte :=
  let res := p256_scalarmult_generic_no_scalar_check default default private_key
    others_public_key_x others_public_key_y
  if !res.1 then
    (false, shared_secret)
  else
    let result_x := P256_from_montgomery res.2.1
    (true, p256_convert_endianness shared_secret result_x.toBytes 32)

/-! ## Point decoding -/

/-- The function `p256_octet_string_to_point` of the C file (built with both
`include_p256_decode_point` and `include_p256_decompress_point`, the default); returns the
`bool` and the contents of `x` and `y`. -/
def p256_octet_string_to_point (x y : U256) (input : List Byte) (input_len_in_bytes : Nat) :
    Bool × U256 × U256 :=
  if input_len_in_bytes < 33 then (false, x, y)
  else
    let x := U256.ofBytes (p256_convert_endianness x.toBytes (input.drop 1) 32)
    if !P256_check_range_p x then
      (false, x, y)
    else
      let tag := (input.getD 0 0).val
      if (tag = 4 ∨ tag >>> 1 = 3) ∧ input_len_in_bytes = 65 then
        let y := U256.ofBytes (p256_convert_endianness y.toBytes (input.drop 33) 32)
        if !P256_check_range_p y then
          (false, x, y)
        else if tag >>> 1 = 3 ∧ tag &&& 1 ≠ y.limb 0 &&& 1 then
          (false, x, y)
        else
          let x_mont := P256_to_montgomery x
          let y_mont := P256_to_montgomery y
          (P256_point_is_on_curve x_mont y_mont, x, y)
      else if tag >>> 1 = 1 ∧ input_len_in_bytes = 33 then
        let res := P256_decompress_point y x (tag &&& 1)
        (res.1, x, res.2)
      else
        (false, x, y)

/-! ## Point encoding -/

/-- The function `p256_convert_endianness` of the C file when `output` and `input` point to the
same buffer `buf`: every read sees the bytes written so far.  Returns the new contents. -/
def p256_convert_endianness_in_place (buf : List Byte) (byte_len : Nat) : List Byte :=
  (List.range (byte_len / 2)).foldl (fun buf i =>
      let t := buf.getD (byte_len - 1 - i) 0
      let buf := buf.set (byte_len - 1 - i) (buf.getD i 0)
      buf.set i t)
    buf

/-- The function `p256_point_to_octet_string_uncompressed` of the C file; returns the contents
of the buffer `out` (`out + 1` and `out + 33` are the buffer from that offset on). -/
def p256_point_to_octet_string_uncompressed (out : List Byte) (x y : U256) : List Byte :=
  let out := out.set 0 4
  let out := out.take 1 ++ p256_convert_endianness (out.drop 1) x.toBytes 32
  out.take 33 ++ p256_convert_endianness (out.drop 33) y.toBytes 32

/-- The function `p256_point_to_octet_string_compressed` of the C file; returns the contents
of the buffer `out`. -/
def p256_point_to_octet_string_compressed (out : List Byte) (x y : U256) : List Byte :=
  let out := out.set 0 (Fin.ofNat (2 + (y.limb 0 &&& 1)))
  out.take 1 ++ p256_convert_endianness (out.drop 1) x.toBytes 32

/-- The function `p256_point_to_octet_string_hybrid` of the C file; returns the contents of
the buffer `out`. -/
def p256_point_to_octet_string_hybrid (out : List Byte) (x y : U256) : List Byte :=
  let out := out.set 0 (Fin.ofNat (6 + (y.limb 0 &&& 1)))
  let out := out.take 1 ++ p256_convert_endianness (out.drop 1) x.toBytes 32
  out.take 33 ++ p256_convert_endianness (out.drop 33) y.toBytes 32

/-! ## ECDSA verification -/

/-- The carry loop `for (;;)` of `slide_257` entered at the digit `r[i + b]`: clear digits
until a zero digit is met, which becomes 1.  Returns the digits and `b` as they are after the
`break`; `none` stands for an access outside `r[0..256]` or for a loop that has not ended
within `fuel` rounds. -/
def slide_257_carry : Nat → List Int → Nat → Nat → Option (List Int × Nat)
  | 0, _, _, _ => none
  | fuel + 1, r, i, b =>
    if 256 < i + b then none
    else
      let r := r.set (i + b) 0
      let b := b + 1
      if 256 < i + b then none
      else if r.getD (i + b) 0 = 0 then
        let r := r.set (i + b) 1
        let b := b - 1
        some (r, b)
      else slide_257_carry fuel r i b

/-- The loop `for (int b = 1; b <= 4 && i + b < 256; b++)` of `slide_257` for the digit
`r[i]`, entered with the given `b` (`r[i + b] << b` is written `r[i + b] * 2 ^ b`; a store
into the `signed char` array goes through `int8_of_int`).  `none` stands for an access
outside `r[0..256]` or for a loop that has not ended within `fuel` rounds. -/
def slide_257_inner : Nat → List Int → Nat → Nat → Option (List Int)
  | 0, _, _, _ => none
  | fuel + 1, r, i, b =>
    if b ≤ 4 ∧ i + b < 256 then
      if r.getD (i + b) 0 ≠ 0 then
        if r.getD i 0 + r.getD (i + b) 0 * 2 ^ b ≤ 15 then
          let r := r.set i (int8_of_int (r.getD i 0 + r.getD (i + b) 0 * 2 ^ b))
          let r := r.set (i + b) 0
          slide_257_inner fuel r i (b + 1)
        else if r.getD i 0 - r.getD (i + b) 0 * 2 ^ b ≥ -15 then
          let r := r.set i (int8_of_int (r.getD i 0 - r.getD (i + b) 0 * 2 ^ b))
          match slide_257_carry 257 r i b with
          | none => none
          | some rb => slide_257_inner fuel rb.1 i (rb.2 + 1)
        else some r
      else slide_257_inner fuel r i (b + 1)
    else some r

/-- The body of the second loop of `slide_257` for the index `i`. -/
def slide_257_step (r : Option (List Int)) (i : Nat) : Option (List Int) :=
  match r with
  | none => none
  | some r => if r.getD i 0 ≠ 0 then slide_257_inner 5 r i 1 else some r

/-- The function `slide_257` of the C file: creates a representation of `a` (a little endian
integer of 32 bytes) as `r[0] + 2*r[1] + 2^2*r[2] + ...` where each `r[i]` is
`-15, -13, ..., 13, 15` or `0`.  Returns the 257 digits; `none` stands for an access outside
the array or a loop that does not end. -/
def slide_257 (a : List Byte) : Option (List Int) :=
  let r := (List.range 256).map fun i =>
    ((1 &&& ((a.getD (i >>> 3) 0).val >>> (i &&& 7)) : Nat) : Int)
  let r := r ++ [0]
  (List.range 256).foldl slide_257_step (some r)

/-- Modelled from the spec: `P256_verify_last_step(r, cp)` (§4.7): the final check of the
verification, `cp` decodes to an affine `x'` with `x' ≡ r (mod n)`; a point at infinity
(`Z = 0`) decodes to no affine point. -/
def P256_verify_last_step (r : U256) (jacobian_point : JacobianPoint) : Bool :=
  if jacobian_point.z = U256.zero then false
  else
    decide ((P256_from_montgomery (P256_jacobian_to_affine jacobian_point).1).val % P256_order
      = r.val % P256_order)

/-- The body of the main loop of `p256_verify` for the index `i`. -/
def p256_verify_step (pk_table : List JacobianPoint) (slide_bp slide_pk : List Int)
    (cp : JacobianPoint) (i : Nat) : JacobianPoint :=
  let cp := P256_double_j cp
  let cp :=
    if slide_bp.getD i 0 > 0 then
      P256_add_sub_j cp
        (p256_basepoint_precomp.getD ((slide_bp.getD i 0).toNat / 2) default).asJacobian
        false true
    else if slide_bp.getD i 0 < 0 then
      P256_add_sub_j cp
        (p256_basepoint_precomp.getD ((-slide_bp.getD i 0).toNat / 2) default).asJacobian
        true true
    else cp
  if slide_pk.getD i 0 > 0 then
    P256_add_sub_j cp (pk_table.getD ((slide_pk.getD i 0).toNat / 2) default) false false
  else if slide_pk.getD i 0 < 0 then
    P256_add_sub_j cp (pk_table.getD ((-slide_pk.getD i 0).toNat / 2) default) true false
  else cp

/-- The function `p256_verify` of the C file (default configuration: `include_p256_sign` is
set, so the inverse is `P256_mod_n_inv`).  `slide_257` never yields `none`
(`slide_257_total`), so the last case of the `match` does not occur. -/
def p256_verify (public_key_x public_key_y : U256) (hash : List Byte)
    (hashlen_in_bytes : Nat) (r s : U256) : Bool :=
  if !P256_check_range_n r || !P256_check_range_n s then false
  else if !P256_check_range_p public_key_x || !P256_check_range_p public_key_y then false
  else
    let pk0_x := P256_to_montgomery public_key_x
    let pk0_y := P256_to_montgomery public_key_y
    if !P256_point_is_on_curve pk0_x pk0_y then false
    else
      let pk_table := odd_multiples_table pk0_x pk0_y
      let z := hash_to_z hash hashlen_in_bytes
      let w := P256_mod_n_inv s
      let u1 := P256_mul_mod_n z w
      let u2 := P256_mul_mod_n r w
      match slide_257 u1.toBytes, slide_257 u2.toBytes with
      | some slide_bp, some slide_pk =>
        let cp := ((List.range 257).reverse).foldl
          (p256_verify_step pk_table slide_bp slide_pk) ⟨U256.zero, U256.zero, U256.zero⟩
        P256_verify_last_step r cp
      | _, _ => false

/-! ## The sequence of operations executed

The ladders and the inverter once more, each call of a helper recorded in a list next to the
data, where the call is made: the control flow is that of the functions above.  A call of
`P256_add_sub_j` is recorded with the case of the routine that handled its operands. -/

/-- The two operands of the addition in the main loop of `scalarmult_variable_base` at the
index `i`: `current_point` after the four doublings and `selected_point` with the sign of
the digit applied. -/
def scalarmult_variable_base_operands (table : List JacobianPoint) (e : List Int)
    (current_point : JacobianPoint) (i : Nat) : JacobianPoint × JacobianPoint :=
  let current_point := (List.range 4).foldl (fun cp _ => P256_double_j cp) current_point
  let selected_point := table.getD (abs_int (e.getD i 0) >>> 1) default
  let selected_point : JacobianPoint :=
    { selected_point with
      y := P256_negate_mod_p_if selected_point.y ((e.getD i 0 % 256).toNat >>> 7) }
  (current_point, selected_point)

/-- The value of `current_point` in `scalarmult_variable_base` after `t` rounds of the main
loop (the rounds `i = 62, 61, ..., 63 - t`). -/
def scalarmult_variable_base_state (table : List JacobianPoint) (e : List Int) :
    Nat → JacobianPoint
  | 0 => table.getD ((e.getD 63 0).toNat >>> 1) default
  | t + 1 => scalarmult_variable_base_step table e
      (scalarmult_variable_base_state table e t) (62 - t)

/-- The operands of the addition made in the round `i` of the main loop of
`scalarmult_variable_base`, for the input point `(input_mont_x, input_mont_y)` and the odd
scalar `scalar2`. -/
def scalarmult_variable_base_addition (input_mont_x input_mont_y scalar2 : U256) (i : Nat) :
    JacobianPoint × JacobianPoint :=
  let e := scalarmult_variable_base_recode scalar2
  let table := odd_multiples_table input_mont_x input_mont_y
  scalarmult_variable_base_operands table e (scalarmult_variable_base_state table e (62 - i)) i

/-! ## Accesses to arrays, recorded -/

/-- The carry loop `for (;;)` of `slide_257` as in `slide_257_carry`, without the checks of the
index, together with the indices of `r` that it reads or writes, in this order;
`none` stands for a loop that has not ended within `fuel` rounds. -/
def slide_257_carry_idx : Nat → List Int → Nat → Nat → Option (List Int × Nat × List Nat)
  | 0, _, _, _ => none
  | fuel + 1, r, i, b =>
    let idx := [i + b]
    let r := r.set (i + b) 0
    let b := b + 1
    let idx := idx ++ [i + b]
    if r.getD (i + b) 0 = 0 then
      let idx := idx ++ [i + b]
      let r := r.set (i + b) 1
      let b := b - 1
      some (r, b, idx)
    else
      match slide_257_carry_idx fuel r i b with
      | none => none
      | some rbt => some (rbt.1, rbt.2.1, idx ++ rbt.2.2)

/-- The loop on `b` of `slide_257` as in `slide_257_inner`, together with the indices of `r`
that it reads or writes, in this order. -/
def slide_257_inner_idx : Nat → List Int → Nat → Nat → Option (List Int × List Nat)
  | 0, _, _, _ => none
  | fuel + 1, r, i, b =>
    if b ≤ 4 ∧ i + b < 256 then
      let idx := [i + b]
      if r.getD (i + b) 0 ≠ 0 then
        let idx := idx ++ [i, i + b]
        if r.getD i 0 + r.getD (i + b) 0 * 2 ^ b ≤ 15 then
          let idx := idx ++ [i, i + b, i + b]
          let r := r.set i (int8_of_int (r.getD i 0 + r.getD (i + b) 0 * 2 ^ b))
          let r := r.set (i + b) 0
          match slide_257_inner_idx fuel r i (b + 1) with
          | none => none
          | some rt => some (rt.1, idx ++ rt.2)
        else
          let idx := idx ++ [i, i + b]
          if r.getD i 0 - r.getD (i + b) 0 * 2 ^ b ≥ -15 then
            let idx := idx ++ [i, i + b]
            let r := r.set i (int8_of_int (r.getD i 0 - r.getD (i + b) 0 * 2 ^ b))
            match slide_257_carry_idx 257 r i b with
            | none => none
            | some rbt =>
              match slide_257_inner_idx fuel rbt.1 i (rbt.2.1 + 1) with
              | none => none
              | some rt => some (rt.1, idx ++ rbt.2.2 ++ rt.2)
          else some (r, idx)
      else
        match slide_257_inner_idx fuel r i (b + 1) with
        | none => none
        | some rt => some (rt.1, idx ++ rt.2)
    else some (r, [])

/-- The body of the second loop of `slide_257` for the index `i`, with the recorded indices. -/
def slide_257_step_idx (acc : Option (List Int × List Nat)) (i : Nat) :
    Option (List Int × List Nat) :=
  match acc with
  | none => none
  | some rt =>
    if rt.1.getD i 0 ≠ 0 then
      match slide_257_inner_idx 5 rt.1 i 1 with
      | none => none
      | some rt2 => some (rt2.1, rt.2 ++ [i] ++ rt2.2)
    else some (rt.1, rt.2 ++ [i])

/-- The function `slide_257` of the C file together with the indices of `r` that it reads or
writes, in this order (the first loop writes `r[0..255]`, then `r[256]` is written). -/
def slide_257_idx (a : List Byte) : Option (List Int × List Nat) :=
  let r := (List.range 256).map fun i =>
    ((1 &&& ((a.getD (i >>> 3) 0).val >>> (i &&& 7)) : Nat) : Int)
  let r := r ++ [0]
  (List.range 256).foldl slide_257_step_idx (some (r, List.range 256 ++ [256]))

/-- The body of the main loop of `scalarmult_fixed_base` for the index `i`, together with the
bit positions passed to `get_bit` and the indices used for the tables `precomp[1]` and
`precomp[0]`, in the order of evaluation. -/
def scalarmult_fixed_base_step_idx (scalar2 : U256) (current_point : JacobianPoint) (i : Nat) :
    JacobianPoint × List Nat × List Nat :=
  let bits := [i + 32 + 1, i + 64 + 32 + 1, i + 2 * 64 + 32 + 1]
  let mask := get_bit scalar2 (i + 32 + 1) ||| (get_bit scalar2 (i + 64 + 32 + 1) <<< 1)
    ||| (get_bit scalar2 (i + 2 * 64 + 32 + 1) <<< 2)
  let acc : JacobianPoint × List Nat × List Nat :=
    if i = 31 then
      ({ precomp_entry 1 mask with z := one_montgomery }, bits, [mask])
    else
      let current_point := P256_double_j current_point
      let bits := bits ++ [i + 3 * 64 + 32 + 1]
      let sign := (get_bit scalar2 (i + 3 * 64 + 32 + 1) + 2 ^ 32 - 1) % 2 ^ 32
      let mask := (mask ^^^ sign) &&& 7
      let selected_point := precomp_entry 1 mask
      let selected_point : JacobianPoint :=
        { selected_point with y := P256_negate_mod_p_if selected_point.y (sign &&& 1) }
      (P256_add_sub_j current_point selected_point false true, bits, [mask])
  let bits := acc.2.1 ++ [i + 1, i + 64 + 1, i + 2 * 64 + 1]
  let mask := get_bit scalar2 (i + 1) ||| (get_bit scalar2 (i + 64 + 1) <<< 1)
    ||| (get_bit scalar2 (i + 2 * 64 + 1) <<< 2)
  let bits := bits ++ [i + 3 * 64 + 1]
  let sign := (get_bit scalar2 (i + 3 * 64 + 1) + 2 ^ 32 - 1) % 2 ^ 32
  let mask := (mask ^^^ sign) &&& 7
  let selected_point := precomp_entry 0 mask
  let selected_point : JacobianPoint :=
    { selected_point with y := P256_negate_mod_p_if selected_point.y (sign &&& 1) }
  (P256_add_sub_j acc.1 selected_point false true, bits, acc.2.2 ++ [mask])

/-! ## Mathematical reference objects used by the proofs -/

/-- Modular exponentiation by squaring on naturals (`fuel` bounds the bit length of the
exponent); used to check primality certificates. -/
def powModNat (a m : Nat) : Nat → Nat → Nat
  | 0, _ => 1 % m
  | fuel + 1, e =>
    let s := powModNat a m fuel (e / 2) * powModNat a m fuel (e / 2) % m
    if e % 2 = 1 then s * a % m else s

/-- The curve `y² = x³ − 3x + b` over the prime field, as a Weierstrass curve. -/
def P256_curve : WeierstrassCurve (ZMod P256_p) := ⟨0, 0, 0, -3, (P256_b : ZMod P256_p)⟩

/-- The field element a Montgomery-form array stands for: `a·R⁻¹ mod p`. -/
def toF (a : U256) : ZMod P256_p := (a.val : ZMod P256_p) * (P256_Rinv : ZMod P256_p)

/-- The three coordinates of a Jacobian point as field elements. -/
def jval (J : JacobianPoint) : Fin 3 → ZMod P256_p := ![toF J.x, toF J.y, toF J.z]

/-- All three coordinates of a Jacobian point are reduced modulo `p`. -/
def JacobianPoint.Reduced (J : JacobianPoint) : Prop :=
  J.x.val < P256_p ∧ J.y.val < P256_p ∧ J.z.val < P256_p

/-- The base point `G` in affine Montgomery form: entry 0 of `p256_basepoint_precomp`. -/
def G_mont : AffinePoint := p256_basepoint_precomp.getD 0 default

/-- The `x` coordinate of the base point as the API takes it (not in Montgomery form). -/
def G_x : U256 := P256_from_montgomery G_mont.x

/-- The `y` coordinate of the base point as the API takes it (not in Montgomery form). -/
def G_y : U256 := P256_from_montgomery G_mont.y

/-- The base point `G` as the Jacobian point `(G.x, G.y, 1)`. -/
def G_jac : JacobianPoint := ⟨G_mont.x, G_mont.y, one_montgomery⟩

/-- Double-and-add scalar multiplication with the modelled group law, most significant bit
first (`fuel` bounds the bit length of the scalar); used to check the precomputed tables. -/
def smulJ (P : JacobianPoint) : Nat → Nat → JacobianPoint
  | 0, _ => ⟨U256.zero, U256.zero, U256.zero⟩
  | fuel + 1, k =>
    let d := P256_double_j (smulJ P fuel (k / 2))
    if k % 2 = 1 then P256_add_sub_j d P false false else d

/-- The Jacobian point `J` and the affine Montgomery pair `a` are the same projective point:
`J.z ≠ 0`, `J.x = a.x·J.z²` and `J.y = a.y·J.z³`. -/
def sameAffine (J : JacobianPoint) (a : AffinePoint) : Bool :=
  decide (J.z ≠ U256.zero) && decide (J.x = mul_mont a.x (sqr_mont J.z)) &&
    decide (J.y = mul_mont a.y (mul_mont (sqr_mont J.z) J.z))

/-- The value `e[0] + 16·e[1] + 16²·e[2] + ...` of a list of signed digits. -/
def digitSum : List Int → Int
  | [] => 0
  | a :: l => a + 16 * digitSum l

/-- The scalar `2^192 ± 2^128 ± 2^64 ± 1` that entry `mask` of the first table of
`p256_basepoint_precomp2` stands for: bit `i` of `mask` set means sign `+` for `2^(64·i)`. -/
def precomp_scalar (mask : Nat) : Int :=
  2 ^ 192 + (2 * (mask / 4 % 2 : Nat) - 1) * 2 ^ 128 + (2 * (mask / 2 % 2 : Nat) - 1) * 2 ^ 64
    + (2 * (mask % 2 : Nat) - 1)

/-- The check that entry `mask` of table `t` of `p256_basepoint_precomp2` is the multiple
`2^(32·t) · precomp_scalar mask` of the base point, run with the modelled group law. -/
def precomp_entry_ok (t mask : Nat) : Bool :=
  let a := (p256_basepoint_precomp2.getD t []).getD mask default
  decide (a.x.val < P256_p) && decide (a.y.val < P256_p) &&
    sameAffine (smulJ G_jac 256 (2 ^ (32 * t) * precomp_scalar mask).toNat) a

/-- The sign `s[j] ∈ {−1, +1}` of the signed-bit form of an odd scalar `S`:
`s[j] = +1` iff bit `j + 1` of `S` is set. -/
def fb_sign (S j : Nat) : Int := 2 * (S / 2 ^ (j + 1) % 2 : Nat) - 1

/-- The multiple of `G` added by the lower half-round of iteration `i` of
`scalarmult_fixed_base`. -/
def fb_low (S i : Nat) : Int :=
  fb_sign S (i + 192) * 2 ^ 192 + fb_sign S (i + 128) * 2 ^ 128 + fb_sign S (i + 64) * 2 ^ 64
    + fb_sign S i

/-- The multiple of `G` added by the upper half-round of iteration `i` of
`scalarmult_fixed_base`. -/
def fb_up (S i : Nat) : Int :=
  2 ^ 32 * (fb_sign S (i + 224) * 2 ^ 192 + fb_sign S (i + 160) * 2 ^ 128
    + fb_sign S (i + 96) * 2 ^ 64 + fb_sign S (i + 32))

/-- The contribution of the 32-bit chunk `c` of the scalar to the accumulator of
`scalarmult_fixed_base` once the iterations `31, ..., i` are done. -/
def fb_chunk (S c i : Nat) : Int :=
  2 * (S / 2 ^ (32 * c + i + 1) % 2 ^ (32 - i) : Nat) - 2 ^ (32 - i) + 1

/-- The multiple of `G` held by the accumulator of `scalarmult_fixed_base` once the
iterations `31, ..., i` are done. -/
def fb_acc (S i : Nat) : Int :=
  fb_chunk S 0 i + 2 ^ 32 * fb_chunk S 1 i + 2 ^ 64 * fb_chunk S 2 i + 2 ^ 96 * fb_chunk S 3 i
    + 2 ^ 128 * fb_chunk S 4 i + 2 ^ 160 * fb_chunk S 5 i + 2 ^ 192 * fb_chunk S 6 i
    + 2 ^ 224 * fb_chunk S 7 i + 2 ^ (256 - i)

/-- The last branch of `P256_add_sub_j` (both operands finite and not the same point), named
so that the proofs can refer to it. -/
def add_j_formula (point1 point2 : JacobianPoint) : JacobianPoint :=
  let z1z1 := sqr_mont point1.z
  let z2z2 := sqr_mont point2.z
  let u1 := mul_mont point1.x z2z2
  let u2 := mul_mont point2.x z1z1
  let s1 := mul_mont (mul_mont point1.y point2.z) z2z2
  let s2 := mul_mont (mul_mont point2.y point1.z) z1z1
  let h := sub_mod_p u2 u1
  let r := sub_mod_p s2 s1
  let hh := sqr_mont h
  let hhh := mul_mont h hh
  let v := mul_mont u1 hh
  let x3 := sub_mod_p (sub_mod_p (sqr_mont r) hhh) (add_mod_p v v)
  let y3 := sub_mod_p (mul_mont r (sub_mod_p v x3)) (mul_mont s1 hhh)
  let z3 := mul_mont (mul_mont point1.z point2.z) h
  ⟨x3, y3, z3⟩

/-- The Jacobian point `J` (Montgomery form, reduced coordinates) stands for the point `P` of
the curve group: `P` is the point at infinity when `J.z = 0` and the affine point
`(X/Z², Y/Z³)` otherwise. -/
def JRep [Fact (Nat.Prime P256_p)] (J : JacobianPoint) (P : P256_curve.toAffine.Point) : Prop :=
  J.Reduced ∧ (toF J.z ≠ 0 → P256_curve.toJacobian.Nonsingular (jval J)) ∧
    WeierstrassCurve.Jacobian.Point.toAffine P256_curve (jval J) = P

/-- The affine pair `(x, y)` (Montgomery form, reduced coordinates) stands for the finite
point `P` of the curve group. -/
def ARep [Fact (Nat.Prime P256_p)] (x y : U256) (P : P256_curve.toAffine.Point) : Prop :=
  x.val < P256_p ∧ y.val < P256_p ∧
    ∃ h : P256_curve.toAffine.Nonsingular (toF x) (toF y), P = .some h

/-- The canonical pair `(x, y)` (plain values below `p`, not in Montgomery form) is the pair of
affine coordinates of the finite point `P` of the curve group. -/
def IsAffine [Fact (Nat.Prime P256_p)] (x y : U256) (P : P256_curve.toAffine.Point) : Prop :=
  x.val < P256_p ∧ y.val < P256_p ∧
    ∃ h : P256_curve.toAffine.Nonsingular (x.val : ZMod P256_p) (y.val : ZMod P256_p),
      P = .some h

/-- The curve equation `y² = x³ − 3x + b (mod p)` for plain (non-Montgomery) values. -/
def on_curve (x y : U256) : Prop :=
  (y.val : ZMod P256_p) ^ 2 =
    (x.val : ZMod P256_p) ^ 3 - 3 * (x.val : ZMod P256_p) + (P256_b : ZMod P256_p)

/-- The big-endian integer value of a byte string (the first byte is the most significant). -/
def be_value (l : List Byte) : Nat := l.foldl (fun acc b => 256 * acc + b.val) 0

/-- The 32-byte big-endian encoding of a 256-bit value. -/
def be_encode (a : U256) : List Byte := (List.range 32).map fun i => a.byte (31 - i)

/-- The array whose big-endian encoding is the first 32 bytes of a byte string. -/
def be_decode (l : List Byte) : U256 := U256.ofNat (be_value (l.take 32))

/-- The product of two residues `a0 + a1·x + a2·x²` modulo `x³ − 3x + b` with coefficients
modulo `p`. -/
def cubic_mul (a c : Nat × Nat × Nat) : Nat × Nat × Nat :=
  let d0 := a.1 * c.1
  let d1 := a.1 * c.2.1 + a.2.1 * c.1
  let d2 := a.1 * c.2.2 + a.2.1 * c.2.1 + a.2.2 * c.1
  let d3 := a.2.1 * c.2.2 + a.2.2 * c.2.1
  let d4 := a.2.2 * c.2.2
  ((d0 + d3 * (P256_p - P256_b)) % P256_p, (d1 + 3 * d3 + d4 * (P256_p - P256_b)) % P256_p,
    (d2 + 3 * d4) % P256_p)

/-- The residue of `x^e` modulo `x³ − 3x + b` (`fuel` bounds the bit length of `e`). -/
def cubic_pow_x : Nat → Nat → Nat × Nat × Nat
  | 0, _ => (1, 0, 0)
  | fuel + 1, e =>
    let h := cubic_pow_x fuel (e / 2)
    let s := cubic_mul h h
    if e % 2 = 1 then cubic_mul s (0, 1, 0) else s

/-- The value of a residue `a0 + a1·x + a2·x²` at `x = r`. -/
def cubic_eval (a : Nat × Nat × Nat) (r : ZMod P256_p) : ZMod P256_p :=
  (a.1 : ZMod P256_p) + (a.2.1 : ZMod P256_p) * r + (a.2.2 : ZMod P256_p) * r ^ 2

/-- The code of a curve point for counting: the `x` coordinate and whether `y` lies in the
lower half of the residues. -/
def point_code [Fact (Nat.Prime P256_p)] :
    P256_curve.toAffine.Point → Option (ZMod P256_p × Bool)
  | .zero => none
  | @WeierstrassCurve.Affine.Point.some _ _ _ x y _ => some (x, decide (y.val ≤ P256_p / 2))

/-- The value `r[0] + 2·r[1] + 2²·r[2] + ...` of a list of signed digits. -/
def slideSum : List Int → Int
  | [] => 0
  | a :: l => a + 2 * slideSum l

/-- The signed bit `s[j]` of the fixed-base ladder for the odd scalar `S`: `+1` if bit `j + 1`
of `S` is set and `-1` otherwise for `j < 255`, and `s[255] = +1`. -/
def signed_bit (S j : Nat) : Int :=
  if j = 255 then 1 else if S / 2 ^ (j + 1) % 2 = 1 then 1 else -1

/-- The sum `s[0] + 2·s[1] + ... + 2^(k-1)·s[k-1]` of the first `k` signed bits. -/
def signed_bit_sum (S : Nat) : Nat → Int
  | 0 => 0
  | k + 1 => signed_bit_sum S k + signed_bit S k * 2 ^ k

/-- An addition of Jacobian points is exceptional when the points its operands stand for are
equal or opposite, or one of them is the point at infinity. -/
def ExceptionalAdd [Fact (Nat.Prime P256_p)] (J1 J2 : JacobianPoint) : Prop :=
  WeierstrassCurve.Jacobian.Point.toAffine P256_curve (jval J1) =
      WeierstrassCurve.Jacobian.Point.toAffine P256_curve (jval J2) ∨
    WeierstrassCurve.Jacobian.Point.toAffine P256_curve (jval J1) =
      -WeierstrassCurve.Jacobian.Point.toAffine P256_curve (jval J2) ∨
    WeierstrassCurve.Jacobian.Point.toAffine P256_curve (jval J1) = 0 ∨
    WeierstrassCurve.Jacobian.Point.toAffine P256_curve (jval J2) = 0

/-- The check that entry `i` of `p256_basepoint_precomp` is the multiple `(2i + 1)·G` of the
base point, run with the modelled group law. -/
def basepoint_precomp_ok (i : Nat) : Bool :=
  let a := p256_basepoint_precomp.getD i default
  decide (a.x.val < P256_p) && decide (a.y.val < P256_p) &&
    sameAffine (smulJ G_jac 256 (2 * i + 1)) a

end P256

/-! # Proofs -/

namespace P256

/-! ## Arrays -/

theorem U256.val_zero : U256.zero.val = 0 := rfl

theorem U256.limb_of_zero (i : Nat) : U256.zero.limb i = 0 := by
  simp [U256.limb, U256.val_zero]

theorem U256.val_ofNat (v : Nat) : (U256.ofNat v).val = v % 2 ^ 256 := rfl

theorem U256.val_ofNat_of_lt {v : Nat} (h : v < 2 ^ 256) : (U256.ofNat v).val = v := by
  rw [U256.val_ofNat, Nat.mod_eq_of_lt h]

theorem U256.eq_iff_val {a b : U256} : a = b ↔ a.val = b.val :=
  ⟨fun h => h ▸ rfl, U256.ext⟩

theorem U256.eq_zero_iff {a : U256} : a = U256.zero ↔ a.val = 0 := by
  rw [U256.eq_iff_val, U256.val_zero]

theorem P256_p_lt : P256_p < 2 ^ 256 := by decide!

theorem P256_p_pos : 0 < P256_p := by decide!

theorem P256_order_lt_p : P256_order < P256_p := by decide!

theorem P256_order_pos : 0 < P256_order := by decide!

theorem U256.val_ofNat_mod_p (v : Nat) : (U256.ofNat (v % P256_p)).val = v % P256_p :=
  U256.val_ofNat_of_lt (lt_trans (Nat.mod_lt _ P256_p_pos) P256_p_lt)

theorem U256.val_ofNat_mod_n (v : Nat) : (U256.ofNat (v % P256_order)).val = v % P256_order :=
  U256.val_ofNat_of_lt
    (lt_trans (Nat.mod_lt _ P256_order_pos) (lt_trans P256_order_lt_p P256_p_lt))

/-! ## Primality of `p` and `n` (Lucas certificates) -/

theorem powModNat_eq (a m : Nat) : ∀ (fuel e : Nat), e < 2 ^ fuel →
    powModNat a m fuel e = a ^ e % m
  | 0, e, h => by
    have he : e = 0 := by simpa using h
    subst he
    simp [powModNat]
  | fuel + 1, e, h => by
    have h2 : e / 2 < 2 ^ fuel := by
      rw [Nat.div_lt_iff_lt_mul (by norm_num)]
      rw [pow_succ] at h
      exact h
    have ih := powModNat_eq a m fuel (e / 2) h2
    simp only [powModNat, ih]
    have hsq : a ^ (e / 2) % m * (a ^ (e / 2) % m) % m = a ^ (2 * (e / 2)) % m := by
      rw [← Nat.mul_mod, ← pow_add, two_mul]
    rw [hsq]
    by_cases hodd : e % 2 = 1
    · rw [if_pos hodd]
      conv_rhs => rw [← Nat.div_add_mod e 2, hodd, pow_succ]
      rw [Nat.mul_mod, Nat.mod_mod, ← Nat.mul_mod]
    · rw [if_neg hodd]
      have : e % 2 = 0 := by omega
      conv_rhs => rw [← Nat.div_add_mod e 2, this, add_zero]

theorem lucas_list (p a : Nat) (l : List Nat) (hp : 1 < p) (hb : p < 2 ^ 256)
    (hprod : l.prod = p - 1)
    (h1 : powModNat a p 256 (p - 1) = 1)
    (hl : ∀ q ∈ l, q.Prime ∧ powModNat a p 256 ((p - 1) / q) ≠ 1) : p.Prime := by
  have hpos : 0 < p := by omega
  have cast_pow : ∀ e, e < 2 ^ 256 →
      ((powModNat a p 256 e : Nat) : ZMod p) = (a : ZMod p) ^ e := by
    intro e he
    rw [powModNat_eq a p 256 e he]
    simp
  apply lucas_primality p (a : ZMod p)
  · rw [← cast_pow (p - 1) (by omega), h1]
    simp
  · intro q hq hdvd
    rw [← hprod] at hdvd
    obtain ⟨r, hr, hqr⟩ := (Prime.dvd_prod_iff hq.prime).mp hdvd
    have hrp := (hl r hr).1
    have hqeq : q = r := (Nat.prime_dvd_prime_iff_eq hq hrp).mp hqr
    subst hqeq
    have hne := (hl q hr).2
    have hlt : (p - 1) / q < 2 ^ 256 := lt_of_le_of_lt (Nat.div_le_self _ _) (by omega)
    rw [← cast_pow _ hlt]
    intro h
    apply hne
    have hmod : powModNat a p 256 ((p - 1) / q) < p := by
      rw [powModNat_eq a p 256 _ hlt]
      exact Nat.mod_lt _ hpos
    haveI : NeZero p := ⟨by omega⟩
    haveI : Fact (1 < p) := ⟨hp⟩
    have h2 := congrArg ZMod.val h
    rw [ZMod.val_natCast, Nat.mod_eq_of_lt hmod, ZMod.val_one] at h2
    exact h2

theorem prime_66417393611 : Nat.Prime 66417393611 := by
  apply lucas_list 66417393611 6 [2, 5, 53, 173, 197, 3677]
    (by norm_num) (by norm_num) (by norm_num) (by decide!)
  intro q hq
  simp only [List.mem_cons, List.mem_singleton, List.not_mem_nil, or_false] at hq
  rcases hq with rfl | rfl | rfl | rfl | rfl | rfl
  · exact ⟨by norm_num, by decide!⟩
  · exact ⟨by norm_num, by decide!⟩
  · exact ⟨by norm_num, by decide!⟩
  · exact ⟨by norm_num, by decide!⟩
  · exact ⟨by norm_num, by decide!⟩
  · exact ⟨by norm_num, by decide!⟩

theorem prime_11290956913871 : Nat.Prime 11290956913871 := by
  apply lucas_list 11290956913871 13 [2, 5, 17, 66417393611]
    (by norm_num) (by norm_num) (by norm_num) (by decide!)
  intro q hq
  simp only [List.mem_cons, List.mem_singleton, List.not_mem_nil, or_false] at hq
  rcases hq with rfl | rfl | rfl | rfl
  · exact ⟨by norm_num, by decide!⟩
  · exact ⟨by norm_num, by decide!⟩
  · exact ⟨by norm_num, by decide!⟩
  · exact ⟨prime_66417393611, by decide!⟩

theorem prime_46076956964474543 : Nat.Prime 46076956964474543 := by
  apply lucas_list 46076956964474543 5 [2, 23, 18169, 78283, 704251]
    (by norm_num) (by norm_num) (by norm_num) (by decide!)
  intro q hq
  simp only [List.mem_cons, List.mem_singleton, List.not_mem_nil, or_false] at hq
  rcases hq with rfl | rfl | rfl | rfl | rfl
  · exact ⟨by norm_num, by decide!⟩
  · exact ⟨by norm_num, by decide!⟩
  · exact ⟨by norm_num, by decide!⟩
  · exact ⟨by norm_num, by decide!⟩
  · exact ⟨by norm_num, by decide!⟩

theorem prime_204061199 : Nat.Prime 204061199 := by
  apply lucas_list 204061199 11 [2, 11, 23, 107, 3769]
    (by norm_num) (by norm_num) (by norm_num) (by decide!)
  intro q hq
  simp only [List.mem_cons, List.mem_singleton, List.not_mem_nil, or_false] at hq
  rcases hq with rfl | rfl | rfl | rfl | rfl
  · exact ⟨by norm_num, by decide!⟩
  · exact ⟨by norm_num, by decide!⟩
  · exact ⟨by norm_num, by decide!⟩
  · exact ⟨by norm_num, by decide!⟩
  · exact ⟨by norm_num, by decide!⟩

theorem prime_34282281433 : Nat.Prime 34282281433 := by
  apply lucas_list 34282281433 17 [2, 2, 2, 3, 7, 204061199]
    (by norm_num) (by norm_num) (by norm_num) (by decide!)
  intro q hq
  simp only [List.mem_cons, List.mem_singleton, List.not_mem_nil, or_false] at hq
  rcases hq with rfl | rfl | rfl | rfl | rfl | rfl
  · exact ⟨by norm_num, by decide!⟩
  · exact ⟨by norm_num, by decide!⟩
  · exact ⟨by norm_num, by decide!⟩
  · exact ⟨by norm_num, by decide!⟩
  · exact ⟨by norm_num, by decide!⟩
  · exact ⟨prime_204061199, by decide!⟩

theorem prime_774023187263532362759620327192479577272145303 : Nat.Prime 774023187263532362759620327192479577272145303 := by
  apply lucas_list 774023187263532362759620327192479577272145303 3 [2, 3, 3, 2411, 34282281433, 11290956913871, 46076956964474543]
    (by norm_num) (by norm_num) (by norm_num) (by decide!)
  intro q hq
  simp only [List.mem_cons, List.mem_singleton, List.not_mem_nil, or_false] at hq
  rcases hq with rfl | rfl | rfl | rfl | rfl | rfl | rfl
  · exact ⟨by norm_num, by decide!⟩
  · exact ⟨by norm_num, by decide!⟩
  · exact ⟨by norm_num, by decide!⟩
  · exact ⟨by norm_num, by decide!⟩
  · exact ⟨prime_34282281433, by decide!⟩
  · exact ⟨prime_11290956913871, by decide!⟩
  · exact ⟨prime_46076956964474543, by decide!⟩

theorem prime_835945042244614951780389953367877943453916927241 : Nat.Prime 835945042244614951780389953367877943453916927241 := by
  apply lucas_list 835945042244614951780389953367877943453916927241 11 [2, 2, 2, 3, 3, 3, 5, 774023187263532362759620327192479577272145303]
    (by norm_num) (by norm_num) (by norm_num) (by decide!)
  intro q hq
  simp only [List.mem_cons, List.mem_singleton, List.not_mem_nil, or_false] at hq
  rcases hq with rfl | rfl | rfl | rfl | rfl | rfl | rfl | rfl
  · exact ⟨by norm_num, by decide!⟩
  · exact ⟨by norm_num, by decide!⟩
  · exact ⟨by norm_num, by decide!⟩
  · exact ⟨by norm_num, by decide!⟩
  · exact ⟨by norm_num, by decide!⟩
  · exact ⟨by norm_num, by decide!⟩
  · exact ⟨by norm_num, by decide!⟩
  · exact ⟨prime_774023187263532362759620327192479577272145303, by decide!⟩

theorem prime_115792089210356248762697446949407573530086143415290314195533631308867097853951 : Nat.Prime 115792089210356248762697446949407573530086143415290314195533631308867097853951 := by
  apply lucas_list 115792089210356248762697446949407573530086143415290314195533631308867097853951 6 [2, 3, 5, 5, 17, 257, 641, 1531, 65537, 490463, 6700417, 835945042244614951780389953367877943453916927241]
    (by norm_num) (by norm_num) (by norm_num) (by decide!)
  intro q hq
  simp only [List.mem_cons, List.mem_singleton, List.not_mem_nil, or_false] at hq
  rcases hq with rfl | rfl | rfl | rfl | rfl | rfl | rfl | rfl | rfl | rfl | rfl | rfl
  · exact ⟨by norm_num, by decide!⟩
  · exact ⟨by norm_num, by decide!⟩
  · exact ⟨by norm_num, by decide!⟩
  · exact ⟨by norm_num, by decide!⟩
  · exact ⟨by norm_num, by decide!⟩
  · exact ⟨by norm_num, by decide!⟩
  · exact ⟨by norm_num, by decide!⟩
  · exact ⟨by norm_num, by decide!⟩
  · exact ⟨by norm_num, by decide!⟩
  · exact ⟨by norm_num, by decide!⟩
  · exact ⟨by norm_num, by decide!⟩
  · exact ⟨prime_835945042244614951780389953367877943453916927241, by decide!⟩

theorem prime_1002328039319 : Nat.Prime 1002328039319 := by
  apply lucas_list 1002328039319 19 [2, 126241, 3969899]
    (by norm_num) (by norm_num) (by norm_num) (by decide!)
  intro q hq
  simp only [List.mem_cons, List.mem_singleton, List.not_mem_nil, or_false] at hq
  rcases hq with rfl | rfl | rfl
  · exact ⟨by norm_num, by decide!⟩
  · exact ⟨by norm_num, by decide!⟩
  · exact ⟨by norm_num, by decide!⟩

theorem prime_191039911 : Nat.Prime 191039911 := by
  apply lucas_list 191039911 3 [2, 3, 5, 41, 155317]
    (by norm_num) (by norm_num) (by norm_num) (by decide!)
  intro q hq
  simp only [List.mem_cons, List.mem_singleton, List.not_mem_nil, or_false] at hq
  rcases hq with rfl | rfl | rfl | rfl | rfl
  · exact ⟨by norm_num, by decide!⟩
  · exact ⟨by norm_num, by decide!⟩
  · exact ⟨by norm_num, by decide!⟩
  · exact ⟨by norm_num, by decide!⟩
  · exact ⟨by norm_num, by decide!⟩

theorem prime_208150935158385979 : Nat.Prime 208150935158385979 := by
  apply lucas_list 208150935158385979 2 [2, 3, 11, 43, 127, 3023, 191039911]
    (by norm_num) (by norm_num) (by norm_num) (by decide!)
  intro q hq
  simp only [List.mem_cons, List.mem_singleton, List.not_mem_nil, or_false] at hq
  rcases hq with rfl | rfl | rfl | rfl | rfl | rfl | rfl
  · exact ⟨by norm_num, by decide!⟩
  · exact ⟨by norm_num, by decide!⟩
  · exact ⟨by norm_num, by decide!⟩
  · exact ⟨by norm_num, by decide!⟩
  · exact ⟨by norm_num, by decide!⟩
  · exact ⟨by norm_num, by decide!⟩
  · exact ⟨prime_191039911, by decide!⟩

theorem prime_2624747550333869278416773953 : Nat.Prime 2624747550333869278416773953 := by
  apply lucas_list 2624747550333869278416773953 7 [2, 2, 2, 2, 2, 2, 3, 3, 1297, 16879, 208150935158385979]
    (by norm_num) (by norm_num) (by norm_num) (by decide!)
  intro q hq
  simp only [List.mem_cons, List.mem_singleton, List.not_mem_nil, or_false] at hq
  rcases hq with rfl | rfl | rfl | rfl | rfl | rfl | rfl | rfl | rfl | rfl | rfl
  · exact ⟨by norm_num, by decide!⟩
  · exact ⟨by norm_num, by decide!⟩
  · exact ⟨by norm_num, by decide!⟩
  · exact ⟨by norm_num, by decide!⟩
  · exact ⟨by norm_num, by decide!⟩
  · exact ⟨by norm_num, by decide!⟩
  · exact ⟨by norm_num, by decide!⟩
  · exact ⟨by norm_num, by decide!⟩
  · exact ⟨by norm_num, by decide!⟩
  · exact ⟨by norm_num, by decide!⟩
  · exact ⟨prime_208150935158385979, by decide!⟩

theorem prime_311245691 : Nat.Prime 311245691 := by
  apply lucas_list 311245691 2 [2, 5, 7, 17, 29, 29, 311]
    (by norm_num) (by norm_num) (by norm_num) (by decide!)
  intro q hq
  simp only [List.mem_cons, List.mem_singleton, List.not_mem_nil, or_false] at hq
  rcases hq with rfl | rfl | rfl | rfl | rfl | rfl | rfl
  · exact ⟨by norm_num, by decide!⟩
  · exact ⟨by norm_num, by decide!⟩
  · exact ⟨by norm_num, by decide!⟩
  · exact ⟨by norm_num, by decide!⟩
  · exact ⟨by norm_num, by decide!⟩
  · exact ⟨by norm_num, by decide!⟩
  · exact ⟨by norm_num, by decide!⟩

theorem prime_622491383 : Nat.Prime 622491383 := by
  apply lucas_list 622491383 5 [2, 311245691]
    (by norm_num) (by norm_num) (by norm_num) (by decide!)
  intro q hq
  simp only [List.mem_cons, List.mem_singleton, List.not_mem_nil, or_false] at hq
  rcases hq with rfl | rfl
  · exact ⟨by norm_num, by decide!⟩
  · exact ⟨prime_311245691, by decide!⟩

theorem prime_187019741 : Nat.Prime 187019741 := by
  apply lucas_list 187019741 2 [2, 2, 5, 9350987]
    (by norm_num) (by norm_num) (by norm_num) (by decide!)
  intro q hq
  simp only [List.mem_cons, List.mem_singleton, List.not_mem_nil, or_false] at hq
  rcases hq with rfl | rfl | rfl | rfl
  · exact ⟨by norm_num, by decide!⟩
  · exact ⟨by norm_num, by decide!⟩
  · exact ⟨by norm_num, by decide!⟩
  · exact ⟨by norm_num, by decide!⟩

theorem prime_115792089210356248762697446949407573529996955224135760342422259061068512044369 : Nat.Prime 115792089210356248762697446949407573529996955224135760342422259061068512044369 := by
  apply lucas_list 115792089210356248762697446949407573529996955224135760342422259061068512044369 7 [2, 2, 2, 2, 3, 71, 131, 373, 3407, 17449, 38189, 187019741, 622491383, 1002328039319, 2624747550333869278416773953]
    (by norm_num) (by norm_num) (by norm_num) (by decide!)
  intro q hq
  simp only [List.mem_cons, List.mem_singleton, List.not_mem_nil, or_false] at hq
  rcases hq with rfl | rfl | rfl | rfl | rfl | rfl | rfl | rfl | rfl | rfl | rfl | rfl | rfl | rfl | rfl
  · exact ⟨by norm_num, by decide!⟩
  · exact ⟨by norm_num, by decide!⟩
  · exact ⟨by norm_num, by decide!⟩
  · exact ⟨by norm_num, by decide!⟩
  · exact ⟨by norm_num, by decide!⟩
  · exact ⟨by norm_num, by decide!⟩
  · exact ⟨by norm_num, by decide!⟩
  · exact ⟨by norm_num, by decide!⟩
  · exact ⟨by norm_num, by decide!⟩
  · exact ⟨by norm_num, by decide!⟩
  · exact ⟨by norm_num, by decide!⟩
  · exact ⟨prime_187019741, by decide!⟩
  · exact ⟨prime_622491383, by decide!⟩
  · exact ⟨prime_1002328039319, by decide!⟩
  · exact ⟨prime_2624747550333869278416773953, by decide!⟩

theorem P256_p_prime : Nat.Prime P256_p := by
  have h : P256_p = 115792089210356248762697446949407573530086143415290314195533631308867097853951 := by norm_num [P256_p]
  rw [h]; exact prime_115792089210356248762697446949407573530086143415290314195533631308867097853951

theorem P256_order_prime : Nat.Prime P256_order := by
  have h : P256_order = 115792089210356248762697446949407573529996955224135760342422259061068512044369 := by norm_num [P256_order]
  rw [h]; exact prime_115792089210356248762697446949407573529996955224135760342422259061068512044369

instance P256_p_fact : Fact (Nat.Prime P256_p) := ⟨P256_p_prime⟩

/-! ## Montgomery arithmetic as field arithmetic -/

theorem Rinv_mul_R : P256_Rinv * 2 ^ 256 % P256_p = 1 := by decide!

theorem Rinv_mul_R_cast :
    (P256_Rinv : ZMod P256_p) * ((2 ^ 256 : Nat) : ZMod P256_p) = 1 := by
  have h := congrArg (Nat.cast : Nat → ZMod P256_p) Rinv_mul_R
  rw [ZMod.natCast_mod, Nat.cast_mul, Nat.cast_one] at h
  exact h

theorem Rinv_ne_zero : (P256_Rinv : ZMod P256_p) ≠ 0 := by
  intro h
  have := Rinv_mul_R_cast
  rw [h, zero_mul] at this
  exact zero_ne_one this

theorem toF_mul_mont (a b : U256) : toF (mul_mont a b) = toF a * toF b := by
  unfold toF mul_mont
  rw [U256.val_ofNat_mod_p, ZMod.natCast_mod]
  push_cast
  ring

theorem toF_sqr_mont (a : U256) : toF (sqr_mont a) = toF a ^ 2 := by
  unfold sqr_mont
  rw [toF_mul_mont, sq]

theorem toF_add_mod_p (a b : U256) : toF (add_mod_p a b) = toF a + toF b := by
  unfold toF add_mod_p
  rw [U256.val_ofNat_mod_p, ZMod.natCast_mod]
  push_cast
  ring

theorem natCast_p_sub_mod (v : Nat) :
    ((P256_p - v % P256_p : Nat) : ZMod P256_p) = -(v : ZMod P256_p) := by
  rw [Nat.cast_sub (le_of_lt (Nat.mod_lt _ P256_p_pos)), ZMod.natCast_self, ZMod.natCast_mod]
  ring

theorem toF_sub_mod_p (a b : U256) : toF (sub_mod_p a b) = toF a - toF b := by
  unfold toF sub_mod_p
  rw [U256.val_ofNat_mod_p, ZMod.natCast_mod, Nat.cast_add, natCast_p_sub_mod]
  ring

theorem toF_negate_mod_p_one (a : U256) : toF (P256_negate_mod_p_if a 1) = -toF a := by
  unfold toF P256_negate_mod_p_if
  rw [if_pos (by norm_num), U256.val_ofNat_mod_p, ZMod.natCast_mod, natCast_p_sub_mod]
  ring

theorem toF_one_montgomery : toF one_montgomery = 1 := by
  have h : one_montgomery.val = 2 ^ 256 % P256_p := by decide!
  unfold toF
  rw [h, ZMod.natCast_mod, mul_comm]
  exact Rinv_mul_R_cast

theorem toF_zero : toF U256.zero = 0 := by
  unfold toF
  rw [U256.val_zero]
  simp

theorem toF_to_montgomery (a : U256) : toF (P256_to_montgomery a) = (a.val : ZMod P256_p) := by
  unfold toF P256_to_montgomery
  rw [U256.val_ofNat_mod_p, ZMod.natCast_mod, Nat.cast_mul, mul_assoc,
    mul_comm ((2 ^ 256 : Nat) : ZMod P256_p), Rinv_mul_R_cast, mul_one]

theorem val_from_montgomery (a : U256) : (P256_from_montgomery a).val = (toF a).val := by
  unfold toF P256_from_montgomery
  rw [U256.val_ofNat_mod_p, ← Nat.cast_mul, ZMod.val_natCast]

theorem toF_eq_zero_iff {a : U256} (h : a.val < P256_p) : toF a = 0 ↔ a = U256.zero := by
  unfold toF
  rw [mul_eq_zero, or_iff_left Rinv_ne_zero, U256.eq_zero_iff,
    ZMod.natCast_zmod_eq_zero_iff_dvd]
  constructor
  · intro hd
    exact Nat.eq_zero_of_dvd_of_lt hd h
  · intro h0
    rw [h0]
    exact dvd_zero _

theorem toF_injective {a b : U256} (ha : a.val < P256_p) (hb : b.val < P256_p)
    (h : toF a = toF b) : a = b := by
  unfold toF at h
  have h2 := mul_right_cancel₀ Rinv_ne_zero h
  have h3 := congrArg ZMod.val h2
  rw [ZMod.val_natCast, ZMod.val_natCast, Nat.mod_eq_of_lt ha, Nat.mod_eq_of_lt hb] at h3
  exact U256.ext h3

theorem mul_mont_lt (a b : U256) : (mul_mont a b).val < P256_p := by
  unfold mul_mont
  rw [U256.val_ofNat_mod_p]
  exact Nat.mod_lt _ P256_p_pos

theorem sqr_mont_lt (a : U256) : (sqr_mont a).val < P256_p := mul_mont_lt a a

theorem add_mod_p_lt (a b : U256) : (add_mod_p a b).val < P256_p := by
  unfold add_mod_p
  rw [U256.val_ofNat_mod_p]
  exact Nat.mod_lt _ P256_p_pos

theorem sub_mod_p_lt (a b : U256) : (sub_mod_p a b).val < P256_p := by
  unfold sub_mod_p
  rw [U256.val_ofNat_mod_p]
  exact Nat.mod_lt _ P256_p_pos

theorem to_montgomery_lt (a : U256) : (P256_to_montgomery a).val < P256_p := by
  unfold P256_to_montgomery
  rw [U256.val_ofNat_mod_p]
  exact Nat.mod_lt _ P256_p_pos

theorem from_montgomery_lt (a : U256) : (P256_from_montgomery a).val < P256_p := by
  unfold P256_from_montgomery
  rw [U256.val_ofNat_mod_p]
  exact Nat.mod_lt _ P256_p_pos

theorem negate_mod_p_if_lt (a : U256) (f : Nat) (h : a.val < P256_p) :
    (P256_negate_mod_p_if a f).val < P256_p := by
  unfold P256_negate_mod_p_if
  split_ifs
  · rw [U256.val_ofNat_mod_p]
    exact Nat.mod_lt _ P256_p_pos
  · exact h

theorem one_montgomery_lt : one_montgomery.val < P256_p := by decide!

theorem one_montgomery_ne_zero : one_montgomery ≠ U256.zero := by decide!

end P256

namespace P256

open WeierstrassCurve

/-! ## The modelled Jacobian formulas compute the group law -/

theorem curve_a₁ : P256_curve.a₁ = 0 := rfl

theorem curve_a₂ : P256_curve.a₂ = 0 := rfl

theorem curve_a₃ : P256_curve.a₃ = 0 := rfl

theorem curve_a₄ : P256_curve.a₄ = -3 := rfl

theorem curve_a₆ : P256_curve.a₆ = (P256_b : ZMod P256_p) := rfl

theorem jval_x (J : JacobianPoint) : jval J 0 = toF J.x := rfl

theorem jval_y (J : JacobianPoint) : jval J 1 = toF J.y := rfl

theorem jval_z (J : JacobianPoint) : jval J 2 = toF J.z := rfl

theorem curve_negY (P : Fin 3 → ZMod P256_p) : P256_curve.toJacobian.negY P = -P 1 := by
  simp [Jacobian.negY, curve_a₁, curve_a₃]

theorem double_j_reduced (J : JacobianPoint) : (P256_double_j J).Reduced :=
  ⟨sub_mod_p_lt _ _, sub_mod_p_lt _ _, sub_mod_p_lt _ _⟩

theorem jval_double_j (J : JacobianPoint) :
    jval (P256_double_j J) = P256_curve.toJacobian.dblXYZ (jval J) := by
  have hU : P256_curve.toJacobian.dblU (jval J) =
      -(3 * toF J.x ^ 2 - 3 * toF J.z ^ 4) := by
    rw [Jacobian.dblU_eq, curve_a₁, curve_a₂, curve_a₄, jval_x, jval_z]
    ring
  have hX : P256_curve.toJacobian.dblX (jval J) =
      (3 * toF J.x ^ 2 - 3 * toF J.z ^ 4) ^ 2 - 8 * toF J.x * toF J.y ^ 2 := by
    rw [Jacobian.dblX, hU, curve_negY, curve_a₁, curve_a₂, jval_x, jval_y]
    ring
  have hZ : P256_curve.toJacobian.dblZ (jval J) = 2 * toF J.y * toF J.z := by
    rw [Jacobian.dblZ, curve_negY, jval_y, jval_z]
    ring
  have hY : P256_curve.toJacobian.dblY (jval J) =
      (3 * toF J.x ^ 2 - 3 * toF J.z ^ 4) *
        (4 * toF J.x * toF J.y ^ 2 -
          ((3 * toF J.x ^ 2 - 3 * toF J.z ^ 4) ^ 2 - 8 * toF J.x * toF J.y ^ 2)) -
      8 * toF J.y ^ 4 := by
    rw [Jacobian.dblY, curve_negY]
    simp only [Matrix.cons_val_one, Matrix.head_cons]
    rw [Jacobian.negDblY, hX, hU, curve_negY, jval_x, jval_y]
    ring
  funext i
  fin_cases i
  · show toF (P256_double_j J).x = P256_curve.toJacobian.dblX (jval J)
    rw [hX]
    simp only [P256_double_j, toF_sub_mod_p, toF_add_mod_p, toF_sqr_mont, toF_mul_mont]
    ring
  · show toF (P256_double_j J).y = P256_curve.toJacobian.dblY (jval J)
    rw [hY]
    simp only [P256_double_j, toF_sub_mod_p, toF_add_mod_p, toF_sqr_mont, toF_mul_mont]
    ring
  · show toF (P256_double_j J).z = P256_curve.toJacobian.dblZ (jval J)
    rw [hZ]
    simp only [P256_double_j, toF_sub_mod_p, toF_add_mod_p, toF_sqr_mont, toF_mul_mont]
    ring

theorem JRep_double {J : JacobianPoint} {P : P256_curve.toAffine.Point} (h : JRep J P) :
    JRep (P256_double_j J) (P + P) := by
  obtain ⟨_, hns, hP⟩ := h
  refine ⟨double_j_reduced J, ?_, ?_⟩
  · intro hz
    have hz2 : jval (P256_double_j J) 2 ≠ 0 := hz
    rw [jval_double_j] at hz2 ⊢
    by_cases hJz : toF J.z = 0
    · exfalso
      apply hz2
      exact Jacobian.dblZ_of_Z_eq_zero hJz
    · rw [← Jacobian.add_self]
      exact Jacobian.nonsingular_add (hns hJz) (hns hJz)
  · rw [jval_double_j]
    by_cases hJz : toF J.z = 0
    · have h0 : P = 0 := by
        rw [← hP]
        exact Jacobian.Point.toAffine_of_Z_eq_zero hJz
      rw [h0, add_zero]
      exact Jacobian.Point.toAffine_of_Z_eq_zero (Jacobian.dblZ_of_Z_eq_zero hJz)
    · rw [← Jacobian.add_self, Jacobian.Point.toAffine_add (hns hJz) (hns hJz), hP]

end P256

namespace P256

open WeierstrassCurve

open scoped WeierstrassCurve.Jacobian

theorem add_sub_j_operand (p1 p2 : JacobianPoint) (is_sub aff : Bool) :
    P256_add_sub_j p1 p2 is_sub aff =
      P256_add_sub_j p1 ⟨p2.x, if is_sub then P256_negate_mod_p_if p2.y 1 else p2.y,
        if aff then one_montgomery else p2.z⟩ false false := by
  unfold P256_add_sub_j
  simp only [Bool.false_eq_true, if_false]

theorem JRep_zero_of_z {J : JacobianPoint} {P : P256_curve.toAffine.Point} (h : JRep J P)
    (hz : J.z = U256.zero) : P = 0 := by
  rw [← h.2.2]
  apply Jacobian.Point.toAffine_of_Z_eq_zero
  show toF J.z = 0
  rw [hz, toF_zero]

theorem JRep_toF_z_ne {J : JacobianPoint} {P : P256_curve.toAffine.Point} (h : JRep J P)
    (hz : J.z ≠ U256.zero) : toF J.z ≠ 0 := by
  intro h0
  exact hz ((toF_eq_zero_iff h.1.2.2).mp h0)

theorem add_generic_jval (J1 J2 : JacobianPoint)
    (hP : P256_curve.toJacobian.Equation (jval J1))
    (hQ : P256_curve.toJacobian.Equation (jval J2))
    (x3 y3 z3 : ZMod P256_p)
    (hx : x3 = (toF J2.y * toF J1.z * toF J1.z ^ 2 - toF J1.y * toF J2.z * toF J2.z ^ 2) ^ 2 -
      (toF J2.x * toF J1.z ^ 2 - toF J1.x * toF J2.z ^ 2) *
        (toF J2.x * toF J1.z ^ 2 - toF J1.x * toF J2.z ^ 2) ^ 2 -
      (toF J1.x * toF J2.z ^ 2 * (toF J2.x * toF J1.z ^ 2 - toF J1.x * toF J2.z ^ 2) ^ 2 +
        toF J1.x * toF J2.z ^ 2 * (toF J2.x * toF J1.z ^ 2 - toF J1.x * toF J2.z ^ 2) ^ 2))
    (hy : y3 = (toF J2.y * toF J1.z * toF J1.z ^ 2 - toF J1.y * toF J2.z * toF J2.z ^ 2) *
        (toF J1.x * toF J2.z ^ 2 * (toF J2.x * toF J1.z ^ 2 - toF J1.x * toF J2.z ^ 2) ^ 2 - x3) -
      toF J1.y * toF J2.z * toF J2.z ^ 2 *
        ((toF J2.x * toF J1.z ^ 2 - toF J1.x * toF J2.z ^ 2) *
          (toF J2.x * toF J1.z ^ 2 - toF J1.x * toF J2.z ^ 2) ^ 2))
    (hz : z3 = toF J1.z * toF J2.z * (toF J2.x * toF J1.z ^ 2 - toF J1.x * toF J2.z ^ 2)) :
    ![x3, y3, z3] =
      (-(toF J1.z * toF J2.z)) • P256_curve.toJacobian.addXYZ (jval J1) (jval J2) := by
  have hX := Jacobian.addX_eq' hP hQ
  simp only [curve_a₁, curve_a₂, Jacobian.addZ, jval_x, jval_y, jval_z] at hX
  have hX2 : P256_curve.toJacobian.addX (jval J1) (jval J2) * (jval J1 2 * jval J2 2) ^ 2 =
      x3 := by
    rw [hx, jval_z, jval_z]
    linear_combination hX
  have hY := @Jacobian.negAddY_eq' _ P256_curve _ (jval J1) (jval J2)
  rw [hX2] at hY
  simp only [Jacobian.addZ, jval_x, jval_y, jval_z] at hY hX2
  have hAY : P256_curve.toJacobian.addY (jval J1) (jval J2) =
      -P256_curve.toJacobian.negAddY (jval J1) (jval J2) := by
    rw [Jacobian.addY, curve_negY]
    rfl
  rw [Jacobian.smul_fin3, Jacobian.addXYZ]
  simp only [Matrix.cons_val_zero, Matrix.cons_val_one, Matrix.head_cons, Matrix.cons_val_two,
    Matrix.tail_cons]
  rw [hAY]
  have e1 : x3 = (-(toF J1.z * toF J2.z)) ^ 2 *
      P256_curve.toJacobian.addX (jval J1) (jval J2) := by
    linear_combination -hX2
  have e2 : y3 = (-(toF J1.z * toF J2.z)) ^ 3 *
      -P256_curve.toJacobian.negAddY (jval J1) (jval J2) := by
    rw [hy]
    linear_combination -hY
  have e3 : z3 = -(toF J1.z * toF J2.z) * Jacobian.addZ (jval J1) (jval J2) := by
    rw [hz, Jacobian.addZ, jval_x, jval_z, jval_x, jval_z]
    ring
  rw [← e1, ← e2, ← e3]

theorem jval_add_j_formula (J1 J2 : JacobianPoint)
    (hP : P256_curve.toJacobian.Equation (jval J1))
    (hQ : P256_curve.toJacobian.Equation (jval J2)) :
    jval (add_j_formula J1 J2) =
      (-(toF J1.z * toF J2.z)) • P256_curve.toJacobian.addXYZ (jval J1) (jval J2) := by
  rw [← add_generic_jval J1 J2 hP hQ _ _ _ rfl rfl rfl]
  funext i
  fin_cases i
  · show toF (add_j_formula J1 J2).x = _
    simp only [add_j_formula, toF_sub_mod_p, toF_add_mod_p, toF_sqr_mont, toF_mul_mont]
    rfl
  · show toF (add_j_formula J1 J2).y = _
    simp only [add_j_formula, toF_sub_mod_p, toF_add_mod_p, toF_sqr_mont, toF_mul_mont]
    rfl
  · show toF (add_j_formula J1 J2).z = _
    simp only [add_j_formula, toF_sub_mod_p, toF_add_mod_p, toF_sqr_mont, toF_mul_mont]
    rfl

theorem JRep_add {J1 J2 : JacobianPoint} {P1 P2 : P256_curve.toAffine.Point}
    (h1 : JRep J1 P1) (h2 : JRep J2 P2) :
    JRep (P256_add_sub_j J1 J2 false false) (P1 + P2) := by
  unfold P256_add_sub_j
  simp only [Bool.false_eq_true, if_false]
  by_cases hz1 : J1.z = U256.zero
  · rw [if_pos hz1, JRep_zero_of_z h1 hz1, zero_add]
    exact h2
  rw [if_neg hz1]
  by_cases hz2 : J2.z = U256.zero
  · rw [if_pos hz2, JRep_zero_of_z h2 hz2, add_zero]
    exact h1
  rw [if_neg hz2]
  have hF1 : jval J1 2 ≠ 0 := JRep_toF_z_ne h1 hz1
  have hF2 : jval J2 2 ≠ 0 := JRep_toF_z_ne h2 hz2
  have hN1 := h1.2.1 hF1
  have hN2 := h2.2.1 hF2
  have hA1 := h1.2.2
  have hA2 := h2.2.2
  have hh : toF (sub_mod_p (mul_mont J2.x (sqr_mont J1.z)) (mul_mont J1.x (sqr_mont J2.z))) =
      -(jval J1 0 * jval J2 2 ^ 2 - jval J2 0 * jval J1 2 ^ 2) := by
    simp only [toF_sub_mod_p, toF_mul_mont, toF_sqr_mont, jval_x, jval_z]
    ring
  have hr : toF (sub_mod_p (mul_mont (mul_mont J2.y J1.z) (sqr_mont J1.z))
      (mul_mont (mul_mont J1.y J2.z) (sqr_mont J2.z))) =
      -(jval J1 1 * jval J2 2 ^ 3 - jval J2 1 * jval J1 2 ^ 3) := by
    simp only [toF_sub_mod_p, toF_mul_mont, toF_sqr_mont, jval_y, jval_z]
    ring
  by_cases hc : sub_mod_p (mul_mont J2.x (sqr_mont J1.z)) (mul_mont J1.x (sqr_mont J2.z)) =
      U256.zero ∧ sub_mod_p (mul_mont (mul_mont J2.y J1.z) (sqr_mont J1.z))
        (mul_mont (mul_mont J1.y J2.z) (sqr_mont J2.z)) = U256.zero
  · rw [if_pos hc]
    have ex : jval J1 0 * jval J2 2 ^ 2 = jval J2 0 * jval J1 2 ^ 2 := by
      have := hh
      rw [hc.1, toF_zero] at this
      exact sub_eq_zero.mp (neg_eq_zero.mp this.symm)
    have ey : jval J1 1 * jval J2 2 ^ 3 = jval J2 1 * jval J1 2 ^ 3 := by
      have := hr
      rw [hc.2, toF_zero] at this
      exact sub_eq_zero.mp (neg_eq_zero.mp this.symm)
    have heq : P1 = P2 := by
      rw [← hA1, ← hA2]
      exact Jacobian.Point.toAffine_of_equiv (Jacobian.equiv_of_X_eq_of_Y_eq hF1 hF2 ex ey)
    rw [← heq]
    exact JRep_double h1
  rw [if_neg hc]
  show JRep (add_j_formula J1 J2) (P1 + P2)
  have hjv := jval_add_j_formula J1 J2 hN1.1 hN2.1
  have hu : IsUnit (-(toF J1.z * toF J2.z)) := (neg_ne_zero.mpr (mul_ne_zero hF1 hF2)).isUnit
  refine ⟨⟨sub_mod_p_lt _ _, sub_mod_p_lt _ _, mul_mont_lt _ _⟩, ?_, ?_⟩
  · intro hz3
    have hz4 : jval (add_j_formula J1 J2) 2 ≠ 0 := hz3
    rw [hjv] at hz4 ⊢
    have hx : jval J1 0 * jval J2 2 ^ 2 ≠ jval J2 0 * jval J1 2 ^ 2 := by
      intro hx
      apply hz4
      rw [(Jacobian.smul_fin3_ext _ _).2.2]
      have : (P256_curve.toJacobian.addXYZ (jval J1) (jval J2)) 2 =
          Jacobian.addZ (jval J1) (jval J2) := rfl
      rw [this, Jacobian.addZ_of_X_eq hx, mul_zero]
    rw [Jacobian.nonsingular_smul _ hu, ← Jacobian.add_of_not_equiv (Jacobian.not_equiv_of_X_ne hx)]
    exact Jacobian.nonsingular_add hN1 hN2
  · rw [hjv, Jacobian.Point.toAffine_smul _ hu, ← hA1, ← hA2,
      ← Jacobian.Point.toAffine_add hN1 hN2]
    by_cases hx : jval J1 0 * jval J2 2 ^ 2 = jval J2 0 * jval J1 2 ^ 2
    · have hy : jval J1 1 * jval J2 2 ^ 3 ≠ jval J2 1 * jval J1 2 ^ 3 := by
        intro hy
        apply hc
        constructor
        · rw [← toF_eq_zero_iff (sub_mod_p_lt _ _), hh, hx, sub_self, neg_zero]
        · rw [← toF_eq_zero_iff (sub_mod_p_lt _ _), hr, hy, sub_self, neg_zero]
      rw [Jacobian.add_of_Y_ne hN1.1 hN2.1 hF1 hF2 hx hy,
        Jacobian.Point.toAffine_smul _ (Jacobian.isUnit_addU_of_Y_ne hF1 hF2 hy),
        Jacobian.Point.toAffine_zero]
      apply Jacobian.Point.toAffine_of_Z_eq_zero
      show Jacobian.addZ (jval J1) (jval J2) = 0
      exact Jacobian.addZ_of_X_eq hx
    · rw [Jacobian.add_of_not_equiv (Jacobian.not_equiv_of_X_ne hx)]

end P256

namespace P256

open WeierstrassCurve

open scoped WeierstrassCurve.Jacobian

/-! ## Negation, affine operands, conversion to affine -/

theorem jval_nonsingular_iff {J : JacobianPoint} (hz : toF J.z ≠ 0) :
    P256_curve.toJacobian.Nonsingular (jval J) ↔
      P256_curve.toAffine.Nonsingular (toF J.x / toF J.z ^ 2) (toF J.y / toF J.z ^ 3) :=
  Jacobian.nonsingular_of_Z_ne_zero (P := jval J) hz

theorem JRep_of_ARep {x y : U256} {P : P256_curve.toAffine.Point} (h : ARep x y P) :
    JRep ⟨x, y, one_montgomery⟩ P := by
  obtain ⟨hx, hy, hns, hP⟩ := h
  have hz : toF (⟨x, y, one_montgomery⟩ : JacobianPoint).z ≠ 0 := by
    show toF one_montgomery ≠ 0
    rw [toF_one_montgomery]
    exact one_ne_zero
  have hN : P256_curve.toJacobian.Nonsingular (jval ⟨x, y, one_montgomery⟩) := by
    rw [jval_nonsingular_iff hz]
    show P256_curve.toAffine.Nonsingular (toF x / toF one_montgomery ^ 2)
      (toF y / toF one_montgomery ^ 3)
    rw [toF_one_montgomery, one_pow, one_pow, div_one, div_one]
    exact hns
  refine ⟨⟨hx, hy, one_montgomery_lt⟩, fun _ => hN, ?_⟩
  rw [Jacobian.Point.toAffine_of_Z_ne_zero hN hz, hP]
  congr 1
  · show toF x / toF one_montgomery ^ 2 = toF x
    rw [toF_one_montgomery, one_pow, div_one]
  · show toF y / toF one_montgomery ^ 3 = toF y
    rw [toF_one_montgomery, one_pow, div_one]

theorem JRep_neg {J : JacobianPoint} {P : P256_curve.toAffine.Point} (h : JRep J P) :
    JRep ⟨J.x, P256_negate_mod_p_if J.y 1, J.z⟩ (-P) := by
  obtain ⟨hred, hns, hP⟩ := h
  have hj : jval ⟨J.x, P256_negate_mod_p_if J.y 1, J.z⟩ = P256_curve.toJacobian.neg (jval J) := by
    rw [Jacobian.neg, curve_negY]
    funext i
    fin_cases i
    · rfl
    · show toF (P256_negate_mod_p_if J.y 1) = -toF J.y
      exact toF_negate_mod_p_one J.y
    · rfl
  refine ⟨⟨hred.1, negate_mod_p_if_lt _ _ hred.2.1, hred.2.2⟩, ?_, ?_⟩
  · intro hz
    rw [hj]
    exact Jacobian.nonsingular_neg (hns hz)
  · rw [hj]
    by_cases hz : toF J.z = 0
    · have h0 : P = 0 := by
        rw [← hP]
        exact Jacobian.Point.toAffine_of_Z_eq_zero hz
      rw [h0, neg_zero]
      exact Jacobian.Point.toAffine_of_Z_eq_zero hz
    · rw [Jacobian.Point.toAffine_neg (hns hz), hP]

theorem JRep_negate_if {J : JacobianPoint} {P : P256_curve.toAffine.Point} (h : JRep J P)
    (f : Nat) :
    JRep ⟨J.x, P256_negate_mod_p_if J.y f, J.z⟩ (if f % 2 = 1 then -P else P) := by
  by_cases hf : f % 2 = 1
  · rw [if_pos hf]
    have e : P256_negate_mod_p_if J.y f = P256_negate_mod_p_if J.y 1 := by
      unfold P256_negate_mod_p_if
      rw [if_pos hf, if_pos (by norm_num)]
    rw [e]
    exact JRep_neg h
  · rw [if_neg hf]
    have e : P256_negate_mod_p_if J.y f = J.y := by
      unfold P256_negate_mod_p_if
      rw [if_neg hf]
    rw [e]
    exact h

theorem JRep_add_sub {J1 J2 : JacobianPoint} {P1 P2 : P256_curve.toAffine.Point}
    (h1 : JRep J1 P1) (h2 : JRep J2 P2) (is_sub : Bool) :
    JRep (P256_add_sub_j J1 J2 is_sub false) (if is_sub then P1 - P2 else P1 + P2) := by
  rw [add_sub_j_operand]
  cases is_sub
  · simp only [Bool.false_eq_true, if_false]
    exact JRep_add h1 h2
  · simp only [if_true]
    rw [sub_eq_add_neg]
    exact JRep_add h1 (JRep_neg h2)

theorem JRep_add_sub_affine {J1 : JacobianPoint} {a : JacobianPoint}
    {P1 P2 : P256_curve.toAffine.Point}
    (h1 : JRep J1 P1) (h2 : ARep a.x a.y P2) (is_sub : Bool) :
    JRep (P256_add_sub_j J1 a is_sub true) (if is_sub then P1 - P2 else P1 + P2) := by
  rw [add_sub_j_operand]
  have h3 := JRep_of_ARep h2
  cases is_sub
  · simp only [Bool.false_eq_true, if_false, if_true]
    exact JRep_add h1 h3
  · simp only [if_true]
    rw [sub_eq_add_neg]
    exact JRep_add h1 (JRep_neg h3)

theorem ARep_neg {x y : U256} {P : P256_curve.toAffine.Point} (h : ARep x y P) :
    ARep x (P256_negate_mod_p_if y 1) (-P) := by
  obtain ⟨hx, hy, hns, hP⟩ := h
  refine ⟨hx, negate_mod_p_if_lt _ _ hy, ?_⟩
  have e : toF (P256_negate_mod_p_if y 1) = P256_curve.toAffine.negY (toF x) (toF y) := by
    rw [toF_negate_mod_p_one, Affine.negY]
    show -toF y = -toF y - P256_curve.a₁ * toF x - P256_curve.a₃
    rw [curve_a₁, curve_a₃]
    ring
  rw [e]
  exact ⟨Affine.nonsingular_neg hns, by rw [hP, Affine.Point.neg_some]⟩

theorem ARep_negate_if {x y : U256} {P : P256_curve.toAffine.Point} (h : ARep x y P)
    (f : Nat) :
    ARep x (P256_negate_mod_p_if y f) (if f % 2 = 1 then -P else P) := by
  by_cases hf : f % 2 = 1
  · rw [if_pos hf]
    have e : P256_negate_mod_p_if y f = P256_negate_mod_p_if y 1 := by
      unfold P256_negate_mod_p_if
      rw [if_pos hf, if_pos (by norm_num)]
    rw [e]
    exact ARep_neg h
  · rw [if_neg hf]
    have e : P256_negate_mod_p_if y f = y := by
      unfold P256_negate_mod_p_if
      rw [if_neg hf]
    rw [e]
    exact h

theorem toF_pow_mont (a : U256) : ∀ (fuel e : Nat), e < 2 ^ fuel →
    toF (pow_mont a fuel e) = toF a ^ e
  | 0, e, h => by
    have he : e = 0 := by simpa using h
    subst he
    simp [pow_mont, toF_one_montgomery]
  | fuel + 1, e, h => by
    have h2 : e / 2 < 2 ^ fuel := by
      rw [Nat.div_lt_iff_lt_mul (by norm_num)]
      rw [pow_succ] at h
      exact h
    have ih := toF_pow_mont a fuel (e / 2) h2
    simp only [pow_mont]
    by_cases hodd : e % 2 = 1
    · rw [if_pos hodd, toF_mul_mont, toF_sqr_mont, ih]
      conv_rhs => rw [← Nat.div_add_mod e 2, hodd]
      ring
    · rw [if_neg hodd, toF_sqr_mont, ih]
      have : e % 2 = 0 := by omega
      conv_rhs => rw [← Nat.div_add_mod e 2, this]
      ring

theorem pow_mont_lt (a : U256) (fuel e : Nat) : (pow_mont a (fuel + 1) e).val < P256_p := by
  simp only [pow_mont]
  split_ifs
  · exact mul_mont_lt _ _
  · exact sqr_mont_lt _

theorem toF_inv_mont (z : U256) : toF (pow_mont z 256 (P256_p - 2)) = (toF z)⁻¹ := by
  rw [toF_pow_mont z 256 (P256_p - 2) (lt_of_le_of_lt (Nat.sub_le _ _) P256_p_lt)]
  by_cases hz : toF z = 0
  · rw [hz, inv_zero]
    exact zero_pow (by decide!)
  · have h1 : toF z ^ (P256_p - 1) = 1 := ZMod.pow_card_sub_one_eq_one hz
    have h2 : P256_p - 1 = (P256_p - 2) + 1 := by decide!
    rw [h2, pow_succ] at h1
    exact eq_inv_of_mul_eq_one_left h1

theorem ARep_jacobian_to_affine {J : JacobianPoint} {P : P256_curve.toAffine.Point}
    (h : JRep J P) (hP0 : P ≠ 0) :
    ARep (P256_jacobian_to_affine J).1 (P256_jacobian_to_affine J).2 P := by
  obtain ⟨_, hns, hP⟩ := h
  have hz : toF J.z ≠ 0 := by
    intro hz
    apply hP0
    rw [← hP]
    exact Jacobian.Point.toAffine_of_Z_eq_zero hz
  have hN := hns hz
  have hx : toF (P256_jacobian_to_affine J).1 = toF J.x / toF J.z ^ 2 := by
    simp only [P256_jacobian_to_affine, toF_mul_mont, toF_sqr_mont, toF_inv_mont]
    field_simp
  have hy : toF (P256_jacobian_to_affine J).2 = toF J.y / toF J.z ^ 3 := by
    simp only [P256_jacobian_to_affine, toF_mul_mont, toF_sqr_mont, toF_inv_mont]
    rw [div_eq_mul_inv, inv_pow]
    ring
  refine ⟨mul_mont_lt _ _, mul_mont_lt _ _, ?_⟩
  rw [hx, hy]
  refine ⟨(jval_nonsingular_iff hz).mp hN, ?_⟩
  rw [← hP, Jacobian.Point.toAffine_of_Z_ne_zero hN hz]

/-! ## The on-curve test -/

theorem curve_Δ_ne_zero : P256_curve.Δ ≠ 0 := by
  have h : P256_curve.Δ = ((16 * 108 + 16 * 27 * (P256_p - P256_b * P256_b % P256_p) : Nat) :
      ZMod P256_p) := by
    rw [Nat.cast_add, Nat.cast_mul, Nat.cast_mul, Nat.cast_mul, natCast_p_sub_mod]
    simp only [WeierstrassCurve.Δ, WeierstrassCurve.b₂, WeierstrassCurve.b₄,
      WeierstrassCurve.b₆, WeierstrassCurve.b₈, curve_a₁, curve_a₂, curve_a₃, curve_a₄, curve_a₆]
    push_cast
    ring
  rw [h, Ne, ZMod.natCast_zmod_eq_zero_iff_dvd]
  decide!

theorem on_curve_iff (x y : U256) :
    P256_point_is_on_curve x y = true ↔ P256_curve.toAffine.Equation (toF x) (toF y) := by
  unfold P256_point_is_on_curve
  simp only [decide_eq_true_eq]
  rw [Affine.equation_iff]
  have hb : toF (P256_to_montgomery (U256.ofNat P256_b)) = (P256_b : ZMod P256_p) := by
    rw [toF_to_montgomery, U256.val_ofNat_of_lt (by decide!)]
  constructor
  · intro h
    have h2 := congrArg toF h
    simp only [toF_sqr_mont, toF_add_mod_p, toF_mul_mont, toF_sub_mod_p, toF_one_montgomery,
      hb] at h2
    show toF y ^ 2 + P256_curve.a₁ * toF x * toF y + P256_curve.a₃ * toF y =
      toF x ^ 3 + P256_curve.a₂ * toF x ^ 2 + P256_curve.a₄ * toF x + P256_curve.a₆
    rw [curve_a₁, curve_a₂, curve_a₃, curve_a₄, curve_a₆]
    linear_combination h2
  · intro h
    apply toF_injective (sqr_mont_lt _) (add_mod_p_lt _ _)
    simp only [toF_sqr_mont, toF_add_mod_p, toF_mul_mont, toF_sub_mod_p, toF_one_montgomery,
      hb]
    have h3 : toF y ^ 2 + P256_curve.a₁ * toF x * toF y + P256_curve.a₃ * toF y =
      toF x ^ 3 + P256_curve.a₂ * toF x ^ 2 + P256_curve.a₄ * toF x + P256_curve.a₆ := h
    rw [curve_a₁, curve_a₂, curve_a₃, curve_a₄, curve_a₆] at h3
    linear_combination h3

theorem ARep_of_on_curve {x y : U256} (hx : x.val < P256_p) (hy : y.val < P256_p)
    (h : P256_point_is_on_curve x y = true) :
    ∃ P : P256_curve.toAffine.Point, ARep x y P ∧ P ≠ 0 := by
  have hns := Affine.nonsingular_of_Δ_ne_zero _ ((on_curve_iff x y).mp h) curve_Δ_ne_zero
  exact ⟨.some hns, ⟨hx, hy, hns, rfl⟩, Affine.Point.some_ne_zero hns⟩

theorem on_curve_of_ARep {x y : U256} {P : P256_curve.toAffine.Point} (h : ARep x y P) :
    P256_point_is_on_curve x y = true := by
  obtain ⟨_, _, hns, _⟩ := h
  exact (on_curve_iff x y).mpr hns.1

theorem ARep_ne_zero {x y : U256} {P : P256_curve.toAffine.Point} (h : ARep x y P) :
    P ≠ 0 := by
  obtain ⟨_, _, hns, hP⟩ := h
  rw [hP]
  exact Affine.Point.some_ne_zero hns

theorem ARep_unique {x y x2 y2 : U256} {P : P256_curve.toAffine.Point}
    (h : ARep x y P) (h2 : ARep x2 y2 P) : x = x2 ∧ y = y2 := by
  obtain ⟨hx, hy, hns, hP⟩ := h
  obtain ⟨hx2, hy2, hns2, hP2⟩ := h2
  rw [hP] at hP2
  injection hP2 with e1 e2
  exact ⟨toF_injective hx hx2 e1, toF_injective hy hy2 e2⟩

end P256

namespace P256

open WeierstrassCurve

/-! ## The base point and its order -/

theorem JRep_infinity : JRep ⟨U256.zero, U256.zero, U256.zero⟩ 0 := by
  refine ⟨⟨P256_p_pos, P256_p_pos, P256_p_pos⟩, ?_, ?_⟩
  · intro h
    exact absurd toF_zero h
  · exact Jacobian.Point.toAffine_of_Z_eq_zero toF_zero

theorem JRep_smulJ {J : JacobianPoint} {P : P256_curve.toAffine.Point} (h : JRep J P) :
    ∀ (fuel k : Nat), k < 2 ^ fuel → JRep (smulJ J fuel k) (k • P)
  | 0, k, hk => by
    have he : k = 0 := by simpa using hk
    subst he
    rw [zero_nsmul]
    exact JRep_infinity
  | fuel + 1, k, hk => by
    have h2 : k / 2 < 2 ^ fuel := by
      rw [Nat.div_lt_iff_lt_mul (by norm_num)]
      rw [pow_succ] at hk
      exact hk
    have ih := JRep_double (JRep_smulJ h fuel (k / 2) h2)
    simp only [smulJ]
    by_cases hodd : k % 2 = 1
    · rw [if_pos hodd]
      have e : k • P = ((k / 2) • P + (k / 2) • P) + P := by
        conv_lhs => rw [← Nat.div_add_mod k 2, hodd]
        rw [add_nsmul, one_nsmul, two_mul, add_nsmul]
      rw [e]
      exact JRep_add ih h
    · rw [if_neg hodd]
      have h0 : k % 2 = 0 := by omega
      have e : k • P = (k / 2) • P + (k / 2) • P := by
        conv_lhs => rw [← Nat.div_add_mod k 2, h0]
        rw [add_zero, two_mul, add_nsmul]
      rw [e]
      exact ih

theorem G_mont_on_curve : P256_point_is_on_curve G_mont.x G_mont.y = true := by decide!

theorem G_mont_x_lt : G_mont.x.val < P256_p := by decide!

theorem G_mont_y_lt : G_mont.y.val < P256_p := by decide!

theorem G_exists : ∃ G : P256_curve.toAffine.Point, ARep G_mont.x G_mont.y G :=
  (ARep_of_on_curve G_mont_x_lt G_mont_y_lt G_mont_on_curve).imp fun _ h => h.1

theorem smulJ_order_G : (smulJ G_jac 256 P256_order).z = U256.zero := by decide!

theorem order_smul_G {G : P256_curve.toAffine.Point} (hG : ARep G_mont.x G_mont.y G) :
    P256_order • G = 0 :=
  JRep_zero_of_z (JRep_smulJ (JRep_of_ARep hG) 256 P256_order (by decide!)) smulJ_order_G

theorem addOrderOf_G {G : P256_curve.toAffine.Point} (hG : ARep G_mont.x G_mont.y G) :
    addOrderOf G = P256_order :=
  haveI : Fact (Nat.Prime P256_order) := ⟨P256_order_prime⟩
  addOrderOf_eq_prime (order_smul_G hG) (ARep_ne_zero hG)

theorem smul_G_eq_zero_iff {G : P256_curve.toAffine.Point} (hG : ARep G_mont.x G_mont.y G)
    (k : Nat) : k • G = 0 ↔ P256_order ∣ k := by
  rw [← addOrderOf_G hG]
  exact addOrderOf_dvd_iff_nsmul_eq_zero.symm

end P256

namespace P256

open WeierstrassCurve

/-! ## The variable-base ladder -/

theorem digitSum_set (l : List Int) : ∀ (i : Nat) (v : Int), i < l.length →
    digitSum (l.set i v) = digitSum l + (v - l.getD i 0) * 16 ^ i := by
  induction l with
  | nil => intro i v h; simp at h
  | cons a l ih =>
    intro i v h
    cases i with
    | zero =>
      simp only [List.set_cons_zero, digitSum, List.getD_cons_zero, pow_zero]
      ring
    | succ i =>
      have h2 : i < l.length := by simpa using h
      simp only [List.set_cons_succ, digitSum, ih i v h2, List.getD_cons_succ]
      ring

theorem digitSum_replicate_zero (n : Nat) : digitSum (List.replicate n 0) = 0 := by
  induction n with
  | zero => rfl
  | succ n ih => simp [List.replicate_succ, digitSum, ih]

theorem digitSum_drop (l : List Int) (m : Nat) (h : m < l.length) :
    digitSum (l.drop m) = l.getD m 0 + 16 * digitSum (l.drop (m + 1)) := by
  rw [List.drop_eq_getElem_cons h, digitSum, List.getD_eq_getElem l 0 h]

theorem digitSum_drop_length (l : List Int) : digitSum (l.drop l.length) = 0 := by
  rw [List.drop_length]
  rfl

theorem mod_pow_div_pow_mod (w a b c : Nat) (h : b + c ≤ a) :
    w % 2 ^ a / 2 ^ b % 2 ^ c = w / 2 ^ b % 2 ^ c := by
  have ha : 2 ^ a = 2 ^ b * 2 ^ (a - b) := by
    rw [← pow_add]
    congr 1
    omega
  rw [ha, Nat.mod_mul_right_div_self]
  apply Nat.mod_mod_of_dvd
  exact pow_dvd_pow 2 (by omega)

/-- The 4-bit window `i` of the scalar, as the recoding loop extracts it. -/
theorem nibble_eq (s : U256) (i : Nat) :
    (s.limb (i / 8) >>> ((i % 8) * 4)) &&& 0xf = s.val / 16 ^ i % 16 := by
  unfold U256.limb
  rw [Nat.shiftRight_eq_div_pow, show (0xf : Nat) = 2 ^ 4 - 1 by norm_num,
    Nat.and_pow_two_sub_one_eq_mod]
  have h16 : (16 : Nat) ^ i = 2 ^ (32 * (i / 8)) * 2 ^ (i % 8 * 4) := by
    rw [← pow_add, show (16 : Nat) = 2 ^ 4 by norm_num, ← pow_mul]
    congr 1
    omega
  rw [h16, ← Nat.div_div_eq_div_mul]
  exact mod_pow_div_pow_mod _ 32 (i % 8 * 4) 4 (by omega)

theorem getD_set_eq {α : Type} (l : List α) (i : Nat) (v d : α) (h : i < l.length) :
    (l.set i v).getD i d = v := by
  simp [List.getD_eq_getElem?_getD, List.getElem?_set, h]

theorem getD_set_ne {α : Type} (l : List α) (i j : Nat) (v d : α) (h : i ≠ j) :
    (l.set i v).getD j d = l.getD j d := by
  simp [List.getD_eq_getElem?_getD, List.getElem?_set, h]

theorem nib_facts : ∀ d, d < 16 →
    ((d &&& 1) ^^^ 1) <<< 4 = 16 * (1 - d % 2) ∧ d ||| 1 = d + (1 - d % 2) := by
  decide

theorem int8_of_int_eq (v : Int) (h1 : -128 ≤ v) (h2 : v < 128) : int8_of_int v = v := by
  unfold int8_of_int
  omega

theorem limb0_and_f (s : U256) : s.limb 0 &&& 0xf = s.val % 16 := by
  have := nibble_eq s 0
  simpa using this

/-- One pass of the recoding loop, in closed form. -/
theorem recode_step_eq (s : U256) (e : List Int) (i : Nat) (hi : 1 ≤ i) (hlen : i < e.length)
    (t : Int) (ht : e.getD (i - 1) 0 = t) (ht1 : 1 ≤ t) (ht2 : t ≤ 15) :
    scalarmult_variable_base_recode_step s e i =
      ((e.set i ((s.val / 16 ^ i % 16 : Nat) : Int)).set (i - 1)
        (t - 16 * (1 - (s.val / 16 ^ i % 16 % 2 : Nat)))).set i
        ((s.val / 16 ^ i % 16 + (1 - s.val / 16 ^ i % 16 % 2) : Nat) : Int) := by
  have hd : s.val / 16 ^ i % 16 < 16 := Nat.mod_lt _ (by norm_num)
  obtain ⟨f1, f2⟩ := nib_facts _ hd
  have hne : i ≠ i - 1 := by omega
  unfold scalarmult_variable_base_recode_step
  simp only [nibble_eq]
  rw [getD_set_ne _ _ _ _ _ hne, ht, getD_set_eq _ _ _ _ hlen, Int.toNat_ofNat, f1,
    getD_set_ne _ _ _ _ _ (Ne.symm hne), getD_set_eq _ _ _ _ hlen, Int.toNat_ofNat, f2]
  have hb : s.val / 16 ^ i % 16 % 2 ≤ 1 := by omega
  rw [int8_of_int_eq]
  · push_cast [Nat.cast_sub hb]
    rfl
  · push_cast
    omega
  · push_cast
    omega

theorem getD_replicate_zero : ∀ (n j : Nat), (List.replicate n (0 : Int)).getD j 0 = 0
  | 0, _ => rfl
  | _ + 1, 0 => rfl
  | n + 1, j + 1 => by
    rw [List.replicate_succ, List.getD_cons_succ]
    exact getD_replicate_zero n j

/-- The invariant of the recoding loop after the indices `1..k` have been processed. -/
theorem recode_fold (s : U256) (hodd : s.val % 2 = 1) : ∀ k, k ≤ 63 →
    ∃ e : List Int,
      (List.range' 1 k).foldl (scalarmult_variable_base_recode_step s)
        ((List.replicate 64 (0 : Int)).set 0 ((s.limb 0 &&& 0xf : Nat) : Int)) = e ∧
      e.length = 64 ∧ (∀ j, k < j → e.getD j 0 = 0) ∧
      (∀ j, j < k → e.getD j 0 % 2 = 1 ∧ -15 ≤ e.getD j 0 ∧ e.getD j 0 ≤ 15) ∧
      (e.getD k 0 % 2 = 1 ∧ 1 ≤ e.getD k 0 ∧ e.getD k 0 ≤ 15) ∧
      digitSum e = ((s.val % 16 ^ (k + 1) : Nat) : Int) := by
  intro k
  induction k with
  | zero =>
    intro _
    refine ⟨(List.replicate 64 (0 : Int)).set 0 ((s.limb 0 &&& 0xf : Nat) : Int), rfl,
      ?_, ?_, ?_, ?_, ?_⟩
    · simp
    · intro j hj
      rw [getD_set_ne _ _ _ _ _ (by omega)]
      exact getD_replicate_zero 64 j
    · intro j hj
      omega
    · rw [getD_set_eq _ _ _ _ (by simp), limb0_and_f]
      omega
    · rw [digitSum_set _ _ _ (by simp), digitSum_replicate_zero, limb0_and_f,
        getD_replicate_zero]
      simp
  | succ k ih =>
    intro hk
    obtain ⟨e, he, hlen, hz, hlow, ⟨ht0, ht1, ht2⟩, hsum⟩ := ih (by omega)
    have hi : k + 1 < e.length := by omega
    have hkl : k < e.length := by omega
    have hstep := recode_step_eq s e (k + 1) (by omega) hi (e.getD k 0) rfl ht1 ht2
    rw [Nat.add_sub_cancel] at hstep
    have hd : s.val / 16 ^ (k + 1) % 16 < 16 := Nat.mod_lt _ (by norm_num)
    have hb : s.val / 16 ^ (k + 1) % 16 % 2 ≤ 1 := by omega
    refine ⟨scalarmult_variable_base_recode_step s e (k + 1), ?_, ?_, ?_, ?_, ?_, ?_⟩
    · rw [List.range'_concat, List.foldl_append, he]
      show scalarmult_variable_base_recode_step s e (1 + 1 * k) = _
      rw [show 1 + 1 * k = k + 1 by ring]
    · rw [hstep]
      simp [hlen]
    · intro j hj
      rw [hstep, getD_set_ne _ _ _ _ _ (by omega), getD_set_ne _ _ _ _ _ (by omega),
        getD_set_ne _ _ _ _ _ (by omega)]
      exact hz j (by omega)
    · intro j hj
      rw [hstep, getD_set_ne _ _ _ _ _ (by omega)]
      by_cases hjk : j = k
      · subst hjk
        rw [getD_set_eq _ _ _ _ (by simp [hlen]; omega)]
        push_cast
        omega
      · rw [getD_set_ne _ _ _ _ _ (Ne.symm hjk), getD_set_ne _ _ _ _ _ (by omega)]
        exact hlow j (by omega)
    · rw [hstep, getD_set_eq _ _ _ _ (by simp [hlen]; omega)]
      push_cast [Nat.cast_sub hb]
      omega
    · rw [hstep, digitSum_set _ _ _ (by simp [hlen]; omega),
        digitSum_set _ _ _ (by simp [hlen]; omega),
        digitSum_set _ _ _ hi, getD_set_ne _ _ _ _ _ (by omega : k ≠ k + 1),
        getD_set_eq _ _ _ _ hi, getD_set_ne _ _ _ _ _ (by omega : k + 1 ≠ k),
        hz (k + 1) (by omega), hsum, Nat.mod_pow_succ (b := 16) (k := k + 1)]
      push_cast [Nat.cast_sub hb]
      ring

/-- The recoding of an odd scalar: 64 odd digits in `[-15, 15]`, the last one positive,
whose value is the scalar. -/
theorem recode_spec (s : U256) (hodd : s.val % 2 = 1) :
    (scalarmult_variable_base_recode s).length = 64 ∧
    (∀ j, j < 64 → (scalarmult_variable_base_recode s).getD j 0 % 2 = 1 ∧
      -15 ≤ (scalarmult_variable_base_recode s).getD j 0 ∧
      (scalarmult_variable_base_recode s).getD j 0 ≤ 15) ∧
    1 ≤ (scalarmult_variable_base_recode s).getD 63 0 ∧
    digitSum (scalarmult_variable_base_recode s) = (s.val : Int) := by
  obtain ⟨e, he, hlen, _, hlow, ⟨ht0, ht1, ht2⟩, hsum⟩ := recode_fold s hodd 63 (le_refl _)
  have hdef : scalarmult_variable_base_recode s = e := he
  rw [hdef]
  refine ⟨hlen, ?_, ht1, ?_⟩
  · intro j hj
    by_cases h63 : j = 63
    · subst h63
      exact ⟨ht0, by omega, ht2⟩
    · exact hlow j (by omega)
  · rw [hsum]
    have h : s.val % 16 ^ (63 + 1) = s.val := by
      apply Nat.mod_eq_of_lt
      have := s.isLt
      norm_num at this ⊢
      exact this
    rw [h]

end P256

namespace P256

open WeierstrassCurve

theorem abs_int_facts : ∀ m : Fin 16,
    abs_int (2 * (m.val : Int) - 15) >>> 1 < 8 ∧
    ((if ((2 * (m.val : Int) - 15) % 256).toNat >>> 7 % 2 = 1
        then -((2 * (abs_int (2 * (m.val : Int) - 15) >>> 1) + 1 : Nat) : Int)
        else ((2 * (abs_int (2 * (m.val : Int) - 15) >>> 1) + 1 : Nat) : Int)) =
      2 * (m.val : Int) - 15) := by
  decide

theorem abs_int_digit (e : Int) (hodd : e % 2 = 1) (h1 : -15 ≤ e) (h2 : e ≤ 15) :
    abs_int e >>> 1 < 8 ∧
    ((if (e % 256).toNat >>> 7 % 2 = 1 then -((2 * (abs_int e >>> 1) + 1 : Nat) : Int)
        else ((2 * (abs_int e >>> 1) + 1 : Nat) : Int)) = e) := by
  have hm : ((e + 15) / 2).toNat < 16 := by omega
  have he : e = 2 * ((⟨((e + 15) / 2).toNat, hm⟩ : Fin 16).val : Int) - 15 := by
    simp only
    omega
  have := abs_int_facts ⟨((e + 15) / 2).toNat, hm⟩
  rw [← he] at this
  exact this

theorem limb0_and_one (k : U256) : k.limb 0 &&& 1 = k.val % 2 := by
  unfold U256.limb
  rw [Nat.and_one_is_mod]
  simp only [Nat.mul_zero, pow_zero, Nat.div_one]
  exact Nat.mod_mod_of_dvd _ (by norm_num)

theorem P256_order_odd : P256_order % 2 = 1 := by decide!

/-- The odd-making step shared by both constant-time ladders. -/
theorem odd_scalar (k : U256) (h1 : 1 ≤ k.val) (h2 : k.val < P256_order) :
    (P256_negate_mod_n_if k ((k.limb 0 &&& 1) ^^^ 1)).val % 2 = 1 ∧
    1 ≤ (P256_negate_mod_n_if k ((k.limb 0 &&& 1) ^^^ 1)).val ∧
    (P256_negate_mod_n_if k ((k.limb 0 &&& 1) ^^^ 1)).val < P256_order ∧
    ((((k.limb 0 &&& 1) ^^^ 1) % 2 = 1 ∧
        (P256_negate_mod_n_if k ((k.limb 0 &&& 1) ^^^ 1)).val = P256_order - k.val) ∨
      (¬ ((k.limb 0 &&& 1) ^^^ 1) % 2 = 1 ∧
        (P256_negate_mod_n_if k ((k.limb 0 &&& 1) ^^^ 1)).val = k.val)) := by
  rw [limb0_and_one]
  have hn := P256_order_odd
  have hcases : k.val % 2 = 0 ∨ k.val % 2 = 1 := by omega
  rcases hcases with h | h
  · rw [h]
    have hv : (P256_negate_mod_n_if k (0 ^^^ 1)).val = P256_order - k.val := by
      unfold P256_negate_mod_n_if
      rw [if_pos (by decide), U256.val_ofNat_mod_n, Nat.mod_eq_of_lt h2,
        Nat.mod_eq_of_lt (by omega)]
    rw [hv]
    refine ⟨by omega, by omega, by omega, Or.inl ⟨by decide, rfl⟩⟩
  · rw [h]
    have hv : (P256_negate_mod_n_if k (1 ^^^ 1)).val = k.val := by
      unfold P256_negate_mod_n_if
      rw [if_neg (by decide)]
    rw [hv]
    exact ⟨h, h1, h2, Or.inr ⟨by decide, rfl⟩⟩

/-- The invariant of the loop that builds the table of odd multiples. -/
theorem odd_table_fold {x y : U256} {P : P256_curve.toAffine.Point} (h : ARep x y P) :
    ∀ m, m ≤ 7 → ∃ t : List JacobianPoint,
      (List.range' 1 m).foldl odd_multiples_table_step
        (((List.replicate 8 (default : JacobianPoint)).set 0 ⟨x, y, one_montgomery⟩).set 7
          (P256_double_j ⟨x, y, one_montgomery⟩)) = t ∧
      t.length = 8 ∧ (∀ j, j ≤ m → JRep (t.getD j default) ((2 * j + 1) • P)) ∧
      (m < 7 → JRep (t.getD 7 default) (2 • P)) := by
  have h0 := JRep_of_ARep h
  have h2 : JRep (P256_double_j ⟨x, y, one_montgomery⟩) (2 • P) := by
    rw [two_nsmul]
    exact JRep_double h0
  intro m
  induction m with
  | zero =>
    intro _
    refine ⟨((List.replicate 8 (default : JacobianPoint)).set 0 ⟨x, y, one_montgomery⟩).set 7
      (P256_double_j ⟨x, y, one_montgomery⟩), rfl, by simp, ?_, ?_⟩
    · intro j hj
      have hj0 : j = 0 := by omega
      subst hj0
      rw [getD_set_ne _ _ _ _ _ (by omega), getD_set_eq _ _ _ _ (by simp)]
      simpa using h0
    · intro _
      rw [getD_set_eq _ _ _ _ (by simp)]
      exact h2
  | succ m ih =>
    intro hm
    obtain ⟨t, ht, hlen, hlow, h7⟩ := ih (by omega)
    refine ⟨odd_multiples_table_step t (m + 1), ?_, ?_, ?_, ?_⟩
    · rw [List.range'_concat, List.foldl_append, ht]
      show odd_multiples_table_step t (1 + 1 * m) = _
      rw [show 1 + 1 * m = m + 1 by ring]
    · simp [odd_multiples_table_step, hlen]
    · intro j hj
      unfold odd_multiples_table_step
      simp only [Nat.add_sub_cancel]
      by_cases hjm : j = m + 1
      · subst hjm
        rw [getD_set_eq _ _ _ _ (by simp [hlen]; omega), getD_set_eq _ _ _ _ (by omega),
          getD_set_ne _ _ _ _ _ (by omega)]
        have e : (2 * (m + 1) + 1) • P = 2 • P + (2 * m + 1) • P := by
          rw [← add_nsmul]
          congr 1
          ring
        rw [e]
        exact JRep_add (h7 (by omega)) (hlow m (le_refl _))
      · rw [getD_set_ne _ _ _ _ _ (Ne.symm hjm), getD_set_ne _ _ _ _ _ (Ne.symm hjm)]
        exact hlow j (by omega)
    · intro hm7
      unfold odd_multiples_table_step
      rw [getD_set_ne _ _ _ _ _ (by omega), getD_set_ne _ _ _ _ _ (by omega)]
      exact h7 (by omega)

theorem odd_table_spec {x y : U256} {P : P256_curve.toAffine.Point} (h : ARep x y P) :
    ∀ j, j < 8 → JRep ((odd_multiples_table x y).getD j default) ((2 * j + 1) • P) := by
  obtain ⟨t, ht, _, hlow, _⟩ := odd_table_fold h 7 (le_refl _)
  have hdef : odd_multiples_table x y = t := by
    rw [← ht]
    unfold odd_multiples_table
    simp only
    rw [getD_set_eq _ _ _ _ (by simp)]
  intro j hj
  rw [hdef]
  exact hlow j (by omega)

end P256

namespace P256

open WeierstrassCurve

theorem four_doublings (cp : JacobianPoint) :
    (List.range 4).foldl (fun cp _ => P256_double_j cp) cp =
      P256_double_j (P256_double_j (P256_double_j (P256_double_j cp))) := rfl

/-- The table entry selected for a digit, with the sign of the digit applied. -/
theorem JRep_selected {table : List JacobianPoint} {P : P256_curve.toAffine.Point}
    (htab : ∀ j, j < 8 → JRep (table.getD j default) ((2 * j + 1) • P))
    (e : Int) (hodd : e % 2 = 1) (h1 : -15 ≤ e) (h2 : e ≤ 15) :
    JRep ⟨(table.getD (abs_int e >>> 1) default).x,
        P256_negate_mod_p_if (table.getD (abs_int e >>> 1) default).y ((e % 256).toNat >>> 7),
        (table.getD (abs_int e >>> 1) default).z⟩ (e • P) := by
  obtain ⟨hj, he⟩ := abs_int_digit e hodd h1 h2
  have h := JRep_negate_if (htab _ hj) ((e % 256).toNat >>> 7)
  have e2 : (if (e % 256).toNat >>> 7 % 2 = 1 then -((2 * (abs_int e >>> 1) + 1) • P)
      else (2 * (abs_int e >>> 1) + 1) • P) = e • P := by
    conv_rhs => rw [← he]
    split_ifs
    · rw [neg_zsmul, natCast_zsmul]
    · rw [natCast_zsmul]
  rw [e2] at h
  exact h

theorem JRep_variable_base_step {table : List JacobianPoint} {P Q : P256_curve.toAffine.Point}
    (htab : ∀ j, j < 8 → JRep (table.getD j default) ((2 * j + 1) • P))
    (e : List Int) (i : Nat) (hodd : e.getD i 0 % 2 = 1) (h1 : -15 ≤ e.getD i 0)
    (h2 : e.getD i 0 ≤ 15) {cp : JacobianPoint} (hcp : JRep cp Q) :
    JRep (scalarmult_variable_base_step table e cp i) ((16 : Int) • Q + e.getD i 0 • P) := by
  unfold scalarmult_variable_base_step
  simp only [four_doublings]
  have h16 : JRep (P256_double_j (P256_double_j (P256_double_j (P256_double_j cp))))
      ((16 : Int) • Q) := by
    have h := JRep_double (JRep_double (JRep_double (JRep_double hcp)))
    have e16 : Q + Q + (Q + Q) + (Q + Q + (Q + Q)) + (Q + Q + (Q + Q) + (Q + Q + (Q + Q))) =
        (16 : Int) • Q := by
      abel
    rw [e16] at h
    exact h
  exact JRep_add h16 (JRep_selected htab _ hodd h1 h2)

/-- The main loop of the variable-base ladder, by Horner's rule on the digits. -/
theorem JRep_variable_base_loop {table : List JacobianPoint} {P : P256_curve.toAffine.Point}
    (htab : ∀ j, j < 8 → JRep (table.getD j default) ((2 * j + 1) • P))
    (e : List Int)
    (hdig : ∀ j, j < e.length → e.getD j 0 % 2 = 1 ∧ -15 ≤ e.getD j 0 ∧ e.getD j 0 ≤ 15) :
    ∀ m, m < e.length → ∀ cp, JRep cp (digitSum (e.drop m) • P) →
      JRep (((List.range m).reverse).foldl (scalarmult_variable_base_step table e) cp)
        (digitSum e • P) := by
  intro m
  induction m with
  | zero =>
    intro _ cp hcp
    simpa using hcp
  | succ m ih =>
    intro hm cp hcp
    rw [List.range_succ, List.reverse_append, List.reverse_singleton, List.singleton_append,
      List.foldl_cons]
    apply ih (by omega)
    obtain ⟨ho, hl, hu⟩ := hdig m (by omega)
    have h := JRep_variable_base_step htab e m ho hl hu hcp
    have e2 : (16 : Int) • digitSum (List.drop (m + 1) e) • P + e.getD m 0 • P =
        digitSum (List.drop m e) • P := by
      rw [digitSum_drop e m (by omega), add_zsmul, mul_zsmul, add_comm]
    rw [e2] at h
    exact h

theorem top_digit_index (v : Int) (ho : v % 2 = 1) (h1 : 1 ≤ v) (hu : v ≤ 15) :
    v.toNat >>> 1 < 8 ∧ ((2 * (v.toNat >>> 1) + 1 : Nat) : Int) = v := by
  rw [Nat.shiftRight_eq_div_pow]
  push_cast
  omega

theorem neg_smul_of_order {P : P256_curve.toAffine.Point} (hn : P256_order • P = 0)
    (k : Nat) (hk : k ≤ P256_order) : (P256_order - k) • P = -(k • P) := by
  rw [sub_nsmul P hk, hn, zero_add]

/-- The constant-time variable-base ladder computes the scalar multiple. -/
theorem scalarmult_variable_base_spec {x y : U256} {P : P256_curve.toAffine.Point}
    (hP : ARep x y P) (hn : P256_order • P = 0) (k : U256) (hk1 : 1 ≤ k.val)
    (hk2 : k.val < P256_order) (hkP : k.val • P ≠ 0) :
    ARep (scalarmult_variable_base x y k).1 (scalarmult_variable_base x y k).2 (k.val • P) := by
  obtain ⟨hs_odd, hs1, hs2, hcase⟩ := odd_scalar k hk1 hk2
  obtain ⟨hlen, hdig, h63, hsum⟩ :=
    recode_spec (P256_negate_mod_n_if k ((k.limb 0 &&& 1) ^^^ 1)) hs_odd
  have htab := odd_table_spec hP
  unfold scalarmult_variable_base
  simp only
  generalize hs : P256_negate_mod_n_if k ((k.limb 0 &&& 1) ^^^ 1) = s at *
  generalize he : scalarmult_variable_base_recode s = e at *
  have hdig2 : ∀ j, j < e.length → e.getD j 0 % 2 = 1 ∧ -15 ≤ e.getD j 0 ∧ e.getD j 0 ≤ 15 := by
    intro j hj
    rw [hlen] at hj
    exact hdig j hj
  -- the initial point
  have hinit : JRep ((odd_multiples_table x y).getD ((e.getD 63 0).toNat >>> 1) default)
      (digitSum (e.drop 63) • P) := by
    obtain ⟨ho, hl, hu⟩ := hdig 63 (by norm_num)
    have hd : digitSum (e.drop 63) = e.getD 63 0 := by
      rw [digitSum_drop e 63 (by rw [hlen]; norm_num)]
      have : digitSum (List.drop (63 + 1) e) = 0 := by
        have := digitSum_drop_length e
        rw [hlen] at this
        exact this
      rw [this]
      ring
    rw [hd]
    obtain ⟨hidx, hv⟩ := top_digit_index _ ho h63 hu
    have h := htab _ hidx
    have hpt : e.getD 63 0 • P = (2 * ((e.getD 63 0).toNat >>> 1) + 1) • P := by
      rw [← natCast_zsmul, hv]
    rw [hpt]
    exact h
  have hloop := JRep_variable_base_loop htab e hdig2 63 (by rw [hlen]; norm_num) _ hinit
  rw [hsum, natCast_zsmul] at hloop
  have hne : s.val • P ≠ 0 := by
    rcases hcase with ⟨_, hv⟩ | ⟨_, hv⟩
    · rw [hv, neg_smul_of_order hn _ (le_of_lt hk2)]
      exact neg_ne_zero.mpr hkP
    · rw [hv]
      exact hkP
  have haff := ARep_negate_if (ARep_jacobian_to_affine hloop hne) ((k.limb 0 &&& 1) ^^^ 1)
  have hfin : (if ((k.limb 0 &&& 1) ^^^ 1) % 2 = 1 then -(s.val • P) else s.val • P) =
      k.val • P := by
    rcases hcase with ⟨hev, hv⟩ | ⟨hev, hv⟩
    · rw [if_pos hev, hv, neg_smul_of_order hn _ (le_of_lt hk2), neg_neg]
    · rw [if_neg hev, hv]
  rw [hfin] at haff
  exact haff

end P256

namespace P256

open WeierstrassCurve

/-! ## The fixed-base ladder -/

theorem get_bit_eq (s : U256) (j : Nat) : get_bit s j = s.val / 2 ^ j % 2 := by
  unfold get_bit U256.limb
  rw [Nat.shiftRight_eq_div_pow, Nat.and_one_is_mod]
  have h : 2 ^ j = 2 ^ (32 * (j / 32)) * 2 ^ (j % 32) := by
    rw [← pow_add]
    congr 1
    omega
  rw [h, ← Nat.div_div_eq_div_mul]
  have := mod_pow_div_pow_mod (s.val / 2 ^ (32 * (j / 32))) 32 (j % 32) 1 (by omega)
  simpa using this

theorem ARep_of_sameAffine {J : JacobianPoint} {a : AffinePoint}
    {Q : P256_curve.toAffine.Point} (hJ : JRep J Q) (hx : a.x.val < P256_p)
    (hy : a.y.val < P256_p) (h : sameAffine J a = true) : ARep a.x a.y Q := by
  unfold sameAffine at h
  simp only [Bool.and_eq_true, decide_eq_true_eq] at h
  obtain ⟨⟨hz, hX⟩, hY⟩ := h
  obtain ⟨hred, hns, hQ⟩ := hJ
  have hz2 : toF J.z ≠ 0 := fun h0 => hz ((toF_eq_zero_iff hred.2.2).mp h0)
  have hN := hns hz2
  have ex : toF J.x / toF J.z ^ 2 = toF a.x := by
    rw [hX, toF_mul_mont, toF_sqr_mont, div_eq_iff (pow_ne_zero 2 hz2)]
  have ey : toF J.y / toF J.z ^ 3 = toF a.y := by
    rw [hY, toF_mul_mont, toF_mul_mont, toF_sqr_mont, div_eq_iff (pow_ne_zero 3 hz2)]
    ring
  have hA := (jval_nonsingular_iff hz2).mp hN
  rw [Jacobian.Point.toAffine_of_Z_ne_zero hN hz2] at hQ
  refine ⟨hx, hy, ?_⟩
  rw [← hQ]
  simp only [jval_x, jval_y, jval_z]
  rw [ex, ey] at hA
  refine ⟨hA, ?_⟩
  congr 1

set_option maxRecDepth 100000 in
theorem precomp_entries_ok : ∀ t, t < 2 → ∀ mask, mask < 8 → precomp_entry_ok t mask = true := by
  decide!

theorem precomp_scalar_bounds : ∀ t, t < 2 → ∀ mask, mask < 8 →
    0 ≤ 2 ^ (32 * t) * precomp_scalar mask ∧
      (2 ^ (32 * t) * precomp_scalar mask).toNat < 2 ^ 256 := by
  decide!

/-- Every entry of `p256_basepoint_precomp2` is the multiple of `G` the C comment announces. -/
theorem precomp_entry_spec {G : P256_curve.toAffine.Point} (hG : ARep G_mont.x G_mont.y G)
    (t mask : Nat) (ht : t < 2) (hm : mask < 8) :
    ARep (precomp_entry t mask).x (precomp_entry t mask).y
      ((2 ^ (32 * t) * precomp_scalar mask) • G) := by
  have hok := precomp_entries_ok t ht mask hm
  obtain ⟨h0, hlt⟩ := precomp_scalar_bounds t ht mask hm
  unfold precomp_entry_ok at hok
  simp only [Bool.and_eq_true, decide_eq_true_eq] at hok
  obtain ⟨⟨hx, hy⟩, hsame⟩ := hok
  have hJ := JRep_smulJ (JRep_of_ARep hG) 256 _ hlt
  have hA := ARep_of_sameAffine hJ hx hy hsame
  rw [← natCast_zsmul, Int.toNat_of_nonneg h0] at hA
  exact hA

theorem fixed_select_signed : ∀ b0, b0 < 2 → ∀ b1, b1 < 2 → ∀ b2, b2 < 2 → ∀ bs, bs < 2 →
    ((b0 ||| (b1 <<< 1) ||| (b2 <<< 2)) ^^^ ((bs + 2 ^ 32 - 1) % 2 ^ 32)) &&& 7 < 8 ∧
    (if (((bs + 2 ^ 32 - 1) % 2 ^ 32) &&& 1) % 2 = 1
      then -precomp_scalar
        (((b0 ||| (b1 <<< 1) ||| (b2 <<< 2)) ^^^ ((bs + 2 ^ 32 - 1) % 2 ^ 32)) &&& 7)
      else precomp_scalar
        (((b0 ||| (b1 <<< 1) ||| (b2 <<< 2)) ^^^ ((bs + 2 ^ 32 - 1) % 2 ^ 32)) &&& 7)) =
      (2 * (bs : Int) - 1) * 2 ^ 192 + (2 * (b2 : Int) - 1) * 2 ^ 128
        + (2 * (b1 : Int) - 1) * 2 ^ 64 + (2 * (b0 : Int) - 1) := by
  decide!

theorem fixed_select_first : ∀ b0, b0 < 2 → ∀ b1, b1 < 2 → ∀ b2, b2 < 2 →
    b0 ||| (b1 <<< 1) ||| (b2 <<< 2) < 8 ∧
    precomp_scalar (b0 ||| (b1 <<< 1) ||| (b2 <<< 2)) =
      2 ^ 192 + (2 * (b2 : Int) - 1) * 2 ^ 128 + (2 * (b1 : Int) - 1) * 2 ^ 64
        + (2 * (b0 : Int) - 1) := by
  decide!

theorem fb_chunk_succ (S c i : Nat) (hi : i < 32) :
    fb_chunk S c i = fb_sign S (32 * c + i) + 2 * fb_chunk S c (i + 1) := by
  unfold fb_chunk fb_sign
  have h1 : 32 - i = (32 - (i + 1)) + 1 := by omega
  have h2 : 32 * c + (i + 1) + 1 = (32 * c + i + 1) + 1 := by ring
  rw [h1, h2]
  generalize 32 - (i + 1) = m
  generalize 32 * c + i + 1 = j
  have hx : S / 2 ^ j % 2 ^ (m + 1) = S / 2 ^ j % 2 + 2 * (S / 2 ^ (j + 1) % 2 ^ m) := by
    rw [pow_succ 2 j, ← Nat.div_div_eq_div_mul, pow_succ' 2 m, Nat.mod_mul]
  rw [hx]
  push_cast
  ring

theorem fb_acc_succ (S i : Nat) (hi : i < 32) :
    fb_acc S i = 2 * fb_acc S (i + 1) + fb_up S i + fb_low S i := by
  unfold fb_acc fb_up fb_low
  rw [fb_chunk_succ S 0 i hi, fb_chunk_succ S 1 i hi, fb_chunk_succ S 2 i hi,
    fb_chunk_succ S 3 i hi, fb_chunk_succ S 4 i hi, fb_chunk_succ S 5 i hi,
    fb_chunk_succ S 6 i hi, fb_chunk_succ S 7 i hi]
  have hp : (2 : Int) ^ (256 - i) = 2 * 2 ^ (256 - (i + 1)) := by
    rw [← pow_succ']
    congr 1
    omega
  rw [hp]
  simp only [show 32 * 0 + i = i by ring, show 32 * 1 + i = i + 32 by ring,
    show 32 * 2 + i = i + 64 by ring, show 32 * 3 + i = i + 96 by ring,
    show 32 * 4 + i = i + 128 by ring, show 32 * 5 + i = i + 160 by ring,
    show 32 * 6 + i = i + 192 by ring, show 32 * 7 + i = i + 224 by ring]
  ring

theorem limbs_decomp (x : Nat) (h : x < 2 ^ 256) :
    x = x % 2 ^ 32 + 2 ^ 32 * (x / 2 ^ 32 % 2 ^ 32) + 2 ^ 64 * (x / 2 ^ 64 % 2 ^ 32)
      + 2 ^ 96 * (x / 2 ^ 96 % 2 ^ 32) + 2 ^ 128 * (x / 2 ^ 128 % 2 ^ 32)
      + 2 ^ 160 * (x / 2 ^ 160 % 2 ^ 32) + 2 ^ 192 * (x / 2 ^ 192 % 2 ^ 32)
      + 2 ^ 224 * (x / 2 ^ 224 % 2 ^ 32) := by
  norm_num at h ⊢
  omega

theorem fb_acc_zero (S : Nat) (hodd : S % 2 = 1) (h : S < 2 ^ 256) : fb_acc S 0 = S := by
  have hS : S = 2 * (S / 2) + 1 := by omega
  have hlt : S / 2 < 2 ^ 256 := lt_of_le_of_lt (Nat.div_le_self _ _) h
  have hd := limbs_decomp (S / 2) hlt
  have hc : ∀ c, S / 2 ^ (32 * c + 0 + 1) = S / 2 / 2 ^ (32 * c) := by
    intro c
    rw [Nat.div_div_eq_div_mul, add_zero, pow_succ']
  unfold fb_acc fb_chunk
  simp only [hc, Nat.sub_zero]
  norm_num
  have hd2 := congrArg (Nat.cast : Nat → Int) hd
  push_cast at hd2
  conv_rhs => rw [hS]
  push_cast
  linarith

theorem fb_acc_32 (S : Nat) : fb_acc S 32 = 2 ^ 224 := by
  unfold fb_acc fb_chunk
  simp [Nat.mod_one]

theorem fb_acc_31 (S : Nat) (h : S < 2 ^ 256) :
    fb_acc S 31 = 2 ^ 32 * (2 ^ 192 + fb_sign S 191 * 2 ^ 128 + fb_sign S 127 * 2 ^ 64
      + fb_sign S 63) + fb_low S 31 := by
  rw [fb_acc_succ S 31 (by norm_num), fb_acc_32]
  have h255 : fb_sign S (31 + 224) = -1 := by
    unfold fb_sign
    rw [Nat.div_eq_of_lt h]
    norm_num
  unfold fb_up
  rw [h255]
  ring

end P256

namespace P256

open WeierstrassCurve

theorem get_bit_lt (s : U256) (a : Nat) : get_bit s a < 2 := by
  rw [get_bit_eq]
  exact Nat.mod_lt _ (by norm_num)

theorem bit_sign (s : U256) (a j : Nat) (h : a = j + 1) :
    2 * (get_bit s a : Int) - 1 = fb_sign s.val j := by
  rw [get_bit_eq, h]
  rfl

/-- A half-round of the fixed-base ladder after the first one: the selected table entry,
with its sign, is added to the accumulator. -/
theorem JRep_fixed_half {G : P256_curve.toAffine.Point} (hG : ARep G_mont.x G_mont.y G)
    (t : Nat) (ht : t < 2) (b0 b1 b2 bs : Nat) (h0 : b0 < 2) (h1 : b1 < 2) (h2 : b2 < 2)
    (hs : bs < 2) {cp : JacobianPoint} {Q : P256_curve.toAffine.Point} (hcp : JRep cp Q) :
    JRep (P256_add_sub_j cp
        ⟨(precomp_entry t
            (((b0 ||| (b1 <<< 1) ||| (b2 <<< 2)) ^^^ ((bs + 2 ^ 32 - 1) % 2 ^ 32)) &&& 7)).x,
          P256_negate_mod_p_if (precomp_entry t
            (((b0 ||| (b1 <<< 1) ||| (b2 <<< 2)) ^^^ ((bs + 2 ^ 32 - 1) % 2 ^ 32)) &&& 7)).y
            (((bs + 2 ^ 32 - 1) % 2 ^ 32) &&& 1),
          (precomp_entry t
            (((b0 ||| (b1 <<< 1) ||| (b2 <<< 2)) ^^^ ((bs + 2 ^ 32 - 1) % 2 ^ 32)) &&& 7)).z⟩
        false true)
      (Q + (2 ^ (32 * t) * ((2 * (bs : Int) - 1) * 2 ^ 192 + (2 * (b2 : Int) - 1) * 2 ^ 128
        + (2 * (b1 : Int) - 1) * 2 ^ 64 + (2 * (b0 : Int) - 1))) • G) := by
  obtain ⟨hm, hv⟩ := fixed_select_signed b0 h0 b1 h1 b2 h2 bs hs
  have hA := ARep_negate_if (precomp_entry_spec hG t _ ht hm)
    (((bs + 2 ^ 32 - 1) % 2 ^ 32) &&& 1)
  rw [← hv]
  have e : ((2 : Int) ^ (32 * t) * (if (((bs + 2 ^ 32 - 1) % 2 ^ 32) &&& 1) % 2 = 1
      then -precomp_scalar
        (((b0 ||| (b1 <<< 1) ||| (b2 <<< 2)) ^^^ ((bs + 2 ^ 32 - 1) % 2 ^ 32)) &&& 7)
      else precomp_scalar
        (((b0 ||| (b1 <<< 1) ||| (b2 <<< 2)) ^^^ ((bs + 2 ^ 32 - 1) % 2 ^ 32)) &&& 7))) • G =
      (if (((bs + 2 ^ 32 - 1) % 2 ^ 32) &&& 1) % 2 = 1
        then -(((2 : Int) ^ (32 * t) * precomp_scalar
          (((b0 ||| (b1 <<< 1) ||| (b2 <<< 2)) ^^^ ((bs + 2 ^ 32 - 1) % 2 ^ 32)) &&& 7)) • G)
        else ((2 : Int) ^ (32 * t) * precomp_scalar
          (((b0 ||| (b1 <<< 1) ||| (b2 <<< 2)) ^^^ ((bs + 2 ^ 32 - 1) % 2 ^ 32)) &&& 7)) • G) := by
    split_ifs
    · rw [mul_neg, neg_zsmul]
    · rfl
  rw [e]
  exact JRep_add_sub_affine hcp hA false

theorem JRep_fixed_base_step {G : P256_curve.toAffine.Point} (hG : ARep G_mont.x G_mont.y G)
    (s : U256) (i : Nat) (hi : i < 31) {cp : JacobianPoint} {Q : P256_curve.toAffine.Point}
    (hcp : JRep cp Q) :
    JRep (scalarmult_fixed_base_step s cp i)
      (Q + Q + fb_up s.val i • G + fb_low s.val i • G) := by
  unfold scalarmult_fixed_base_step
  simp only
  rw [if_neg (by omega)]
  have hU := JRep_fixed_half hG 1 (by norm_num) _ _ _ _ (get_bit_lt s (i + 32 + 1))
    (get_bit_lt s (i + 64 + 32 + 1)) (get_bit_lt s (i + 2 * 64 + 32 + 1))
    (get_bit_lt s (i + 3 * 64 + 32 + 1)) (JRep_double hcp)
  have hL := JRep_fixed_half hG 0 (by norm_num) _ _ _ _ (get_bit_lt s (i + 1))
    (get_bit_lt s (i + 64 + 1)) (get_bit_lt s (i + 2 * 64 + 1))
    (get_bit_lt s (i + 3 * 64 + 1)) hU
  rw [bit_sign s (i + 32 + 1) (i + 32) rfl, bit_sign s (i + 64 + 32 + 1) (i + 96) (by ring),
    bit_sign s (i + 2 * 64 + 32 + 1) (i + 160) (by ring),
    bit_sign s (i + 3 * 64 + 32 + 1) (i + 224) (by ring),
    bit_sign s (i + 1) i rfl, bit_sign s (i + 64 + 1) (i + 64) rfl,
    bit_sign s (i + 2 * 64 + 1) (i + 128) (by ring),
    bit_sign s (i + 3 * 64 + 1) (i + 192) (by ring)] at hL
  have e1 : (2 : Int) ^ (32 * 1) * (fb_sign s.val (i + 224) * 2 ^ 192
      + fb_sign s.val (i + 160) * 2 ^ 128 + fb_sign s.val (i + 96) * 2 ^ 64
      + fb_sign s.val (i + 32)) = fb_up s.val i := rfl
  have e0 : (2 : Int) ^ (32 * 0) * (fb_sign s.val (i + 192) * 2 ^ 192
      + fb_sign s.val (i + 128) * 2 ^ 128 + fb_sign s.val (i + 64) * 2 ^ 64
      + fb_sign s.val i) = fb_low s.val i := by
    unfold fb_low
    rw [mul_zero, pow_zero, one_mul]
  rw [e1, e0] at hL
  exact hL

theorem JRep_fixed_base_first {G : P256_curve.toAffine.Point} (hG : ARep G_mont.x G_mont.y G)
    (s : U256) (cp : JacobianPoint) :
    JRep (scalarmult_fixed_base_step s cp 31)
      ((2 ^ 32 * (2 ^ 192 + fb_sign s.val 191 * 2 ^ 128 + fb_sign s.val 127 * 2 ^ 64
        + fb_sign s.val 63) : Int) • G + fb_low s.val 31 • G) := by
  unfold scalarmult_fixed_base_step
  simp only [if_true]
  obtain ⟨hm, hv⟩ := fixed_select_first _ (get_bit_lt s (31 + 32 + 1)) _
    (get_bit_lt s (31 + 64 + 32 + 1)) _ (get_bit_lt s (31 + 2 * 64 + 32 + 1))
  have hA := JRep_of_ARep (precomp_entry_spec hG 1 _ (by norm_num) hm)
  rw [hv] at hA
  have hL := JRep_fixed_half hG 0 (by norm_num) _ _ _ _ (get_bit_lt s (31 + 1))
    (get_bit_lt s (31 + 64 + 1)) (get_bit_lt s (31 + 2 * 64 + 1))
    (get_bit_lt s (31 + 3 * 64 + 1)) hA
  rw [bit_sign s (31 + 32 + 1) 63 rfl, bit_sign s (31 + 64 + 32 + 1) 127 rfl,
    bit_sign s (31 + 2 * 64 + 32 + 1) 191 rfl,
    bit_sign s (31 + 1) 31 rfl, bit_sign s (31 + 64 + 1) (31 + 64) rfl,
    bit_sign s (31 + 2 * 64 + 1) (31 + 128) rfl,
    bit_sign s (31 + 3 * 64 + 1) (31 + 192) rfl] at hL
  have e0 : (2 : Int) ^ (32 * 0) * (fb_sign s.val (31 + 192) * 2 ^ 192
      + fb_sign s.val (31 + 128) * 2 ^ 128 + fb_sign s.val (31 + 64) * 2 ^ 64
      + fb_sign s.val 31) = fb_low s.val 31 := by
    unfold fb_low
    rw [mul_zero, pow_zero, one_mul]
  rw [e0] at hL
  exact hL

theorem JRep_fixed_base_loop {G : P256_curve.toAffine.Point} (hG : ARep G_mont.x G_mont.y G)
    (s : U256) : ∀ m, m ≤ 31 → ∀ cp, JRep cp (fb_acc s.val m • G) →
      JRep (((List.range m).reverse).foldl (scalarmult_fixed_base_step s) cp)
        (fb_acc s.val 0 • G) := by
  intro m
  induction m with
  | zero =>
    intro _ cp hcp
    simpa using hcp
  | succ m ih =>
    intro hm cp hcp
    rw [List.range_succ, List.reverse_append, List.reverse_singleton, List.singleton_append,
      List.foldl_cons]
    apply ih (by omega)
    have h := JRep_fixed_base_step hG s m (by omega) hcp
    have e : fb_acc s.val (m + 1) • G + fb_acc s.val (m + 1) • G + fb_up s.val m • G
        + fb_low s.val m • G = fb_acc s.val m • G := by
      rw [fb_acc_succ s.val m (by omega), add_zsmul, add_zsmul, two_mul, add_zsmul]
    rw [e] at h
    exact h

/-- The constant-time fixed-base ladder computes the scalar multiple of the base point. -/
theorem scalarmult_fixed_base_spec {G : P256_curve.toAffine.Point}
    (hG : ARep G_mont.x G_mont.y G) (k : U256) (hk1 : 1 ≤ k.val) (hk2 : k.val < P256_order) :
    ARep (scalarmult_fixed_base k).1 (scalarmult_fixed_base k).2 (k.val • G) := by
  obtain ⟨hs_odd, hs1, hs2, hcase⟩ := odd_scalar k hk1 hk2
  have hn := order_smul_G hG
  unfold scalarmult_fixed_base
  simp only
  generalize hs : P256_negate_mod_n_if k ((k.limb 0 &&& 1) ^^^ 1) = s at *
  have hfirst : JRep (scalarmult_fixed_base_step s default 31) (fb_acc s.val 31 • G) := by
    rw [fb_acc_31 s.val s.isLt, add_zsmul]
    exact JRep_fixed_base_first hG s default
  have hloop := JRep_fixed_base_loop hG s 31 (le_refl _) _ hfirst
  rw [fb_acc_zero s.val hs_odd s.isLt, natCast_zsmul] at hloop
  have hloop2 : JRep (((List.range 32).reverse).foldl (scalarmult_fixed_base_step s) default)
      (s.val • G) := by
    rw [List.range_succ, List.reverse_append, List.reverse_singleton, List.singleton_append,
      List.foldl_cons]
    exact hloop
  have hne : s.val • G ≠ 0 := by
    rw [Ne, smul_G_eq_zero_iff hG]
    intro hd
    have := Nat.le_of_dvd (by omega) hd
    omega
  have haff := ARep_negate_if (ARep_jacobian_to_affine hloop2 hne) ((k.limb 0 &&& 1) ^^^ 1)
  have hfin : (if ((k.limb 0 &&& 1) ^^^ 1) % 2 = 1 then -(s.val • G) else s.val • G) =
      k.val • G := by
    rcases hcase with ⟨hev, hv⟩ | ⟨hev, hv⟩
    · rw [if_pos hev, hv, neg_smul_of_order hn _ (le_of_lt hk2), neg_neg]
    · rw [if_neg hev, hv]
  rw [hfin] at haff
  exact haff

end P256

namespace P256

open WeierstrassCurve

/-! ## Byte order conversion -/

/-- The invariant of the loop of `p256_convert_endianness` (separate buffers) after `m`
iterations. -/
theorem convert_endianness_fold (output input : List Byte) (len : Nat) (hlen : len ≤ output.length) :
    ∀ m, m ≤ len / 2 → ∃ out : List Byte,
      (List.range m).foldl (fun output i =>
        (output.set (len - 1 - i) (input.getD i 0)).set i (input.getD (len - 1 - i) 0))
        output = out ∧
      out.length = output.length ∧
      ∀ i, out.getD i 0 =
        if i < m ∨ (len - m ≤ i ∧ i < len) then input.getD (len - 1 - i) 0
        else output.getD i 0 := by
  intro m
  induction m with
  | zero =>
    intro _
    refine ⟨output, rfl, rfl, ?_⟩
    intro i
    rw [if_neg (by omega)]
  | succ m ih =>
    intro hm
    obtain ⟨out, ho, hl, hget⟩ := ih (by omega)
    refine ⟨(out.set (len - 1 - m) (input.getD m 0)).set m (input.getD (len - 1 - m) 0),
      ?_, by simp [hl], ?_⟩
    · rw [List.range_succ, List.foldl_append, ho]
      rfl
    · intro i
      by_cases him : i = m
      · subst him
        rw [getD_set_eq _ _ _ _ (by simp [hl]; omega), if_pos (by omega)]
      · rw [getD_set_ne _ _ _ _ _ (Ne.symm him)]
        by_cases hil : i = len - 1 - m
        · subst hil
          rw [getD_set_eq _ _ _ _ (by omega), if_pos (by omega)]
          congr 1
          omega
        · rw [getD_set_ne _ _ _ _ _ (Ne.symm hil), hget i]
          by_cases hc : i < m ∨ (len - m ≤ i ∧ i < len)
          · rw [if_pos hc, if_pos (by omega)]
          · rw [if_neg hc, if_neg (by omega)]

theorem convert_endianness_getD (output input : List Byte) (len : Nat)
    (hlen : len ≤ output.length) (i : Nat) :
    (p256_convert_endianness output input len).getD i 0 =
      if i < len / 2 ∨ (len - len / 2 ≤ i ∧ i < len) then input.getD (len - 1 - i) 0
      else output.getD i 0 := by
  obtain ⟨out, ho, _, hget⟩ := convert_endianness_fold output input len hlen (len / 2) (le_refl _)
  have hdef : p256_convert_endianness output input len = out := ho
  rw [hdef, hget i]

theorem convert_endianness_length (output input : List Byte) (len : Nat)
    (hlen : len ≤ output.length) :
    (p256_convert_endianness output input len).length = output.length := by
  obtain ⟨out, ho, hl, _⟩ := convert_endianness_fold output input len hlen (len / 2) (le_refl _)
  have hdef : p256_convert_endianness output input len = out := ho
  rw [hdef, hl]

/-- With a 32-byte output buffer, the conversion of 32 bytes does not depend on what the
buffer held before. -/
theorem convert_endianness_32 (out1 out2 input : List Byte) (h1 : out1.length = 32)
    (h2 : out2.length = 32) :
    p256_convert_endianness out1 input 32 = p256_convert_endianness out2 input 32 := by
  apply List.ext_getElem
  · rw [convert_endianness_length _ _ _ (by omega), convert_endianness_length _ _ _ (by omega),
      h1, h2]
  · intro i hi1 hi2
    rw [convert_endianness_length _ _ _ (by omega), h1] at hi1
    have e1 := convert_endianness_getD out1 input 32 (by omega) i
    have e2 := convert_endianness_getD out2 input 32 (by omega) i
    rw [if_pos (by omega)] at e1 e2
    rw [List.getD_eq_getElem _ _ (by rw [convert_endianness_length _ _ _ (by omega)]; omega)]
      at e1 e2
    rw [e1, e2]

end P256

namespace P256

open WeierstrassCurve

/-! ## Key generation and ECDH -/

theorem to_from_montgomery (x : U256) (hx : x.val < P256_p) :
    P256_to_montgomery (P256_from_montgomery x) = x := by
  apply toF_injective (to_montgomery_lt _) hx
  rw [toF_to_montgomery, val_from_montgomery, ZMod.natCast_zmod_val]

theorem check_range_p_from_montgomery (x : U256) :
    P256_check_range_p (P256_from_montgomery x) = true := by
  unfold P256_check_range_p
  exact decide_eq_true (from_montgomery_lt x)

theorem check_range_n_eq_true {d : U256} (h1 : 1 ≤ d.val) (h2 : d.val < P256_order) :
    P256_check_range_n d = true := by
  unfold P256_check_range_n
  exact decide_eq_true ⟨h1, h2⟩

/-- The public key computed by `p256_scalarmult_base`: the call succeeds and the outputs are
the non-Montgomery forms of the affine coordinates of `d·G`. -/
theorem p256_scalarmult_base_spec {G : P256_curve.toAffine.Point}
    (hG : ARep G_mont.x G_mont.y G) (rx ry d : U256) (h1 : 1 ≤ d.val)
    (h2 : d.val < P256_order) :
    ∃ xm ym : U256, ARep xm ym (d.val • G) ∧
      p256_scalarmult_base rx ry d =
        (true, P256_from_montgomery xm, P256_from_montgomery ym) := by
  refine ⟨(scalarmult_fixed_base d).1, (scalarmult_fixed_base d).2,
    scalarmult_fixed_base_spec hG d h1 h2, ?_⟩
  unfold p256_scalarmult_base
  rw [check_range_n_eq_true h1 h2]
  rfl

theorem mul_smul_G_ne_zero {G : P256_curve.toAffine.Point} (hG : ARep G_mont.x G_mont.y G)
    (a b : Nat) (ha1 : 1 ≤ a) (ha2 : a < P256_order) (hb1 : 1 ≤ b) (hb2 : b < P256_order) :
    a • b • G ≠ 0 := by
  rw [← mul_nsmul', Ne, smul_G_eq_zero_iff hG]
  intro hd
  rcases (Nat.Prime.dvd_mul P256_order_prime).mp hd with h | h
  · have := Nat.le_of_dvd (by omega) h
    omega
  · have := Nat.le_of_dvd (by omega) h
    omega

/-- ECDH with a public key produced by key generation: the call succeeds and the output
is the byte-reversed non-Montgomery `x` coordinate of `a·(b·G)`. -/
theorem p256_ecdh_spec {G : P256_curve.toAffine.Point} (hG : ARep G_mont.x G_mont.y G)
    (ss : List Byte) (a : U256) (ha1 : 1 ≤ a.val) (ha2 : a.val < P256_order)
    (b : Nat) (hb1 : 1 ≤ b) (hb2 : b < P256_order) (xm ym : U256)
    (hB : ARep xm ym (b • G)) :
    ∃ xo yo : U256, ARep xo yo (a.val • b • G) ∧
      p256_ecdh_calc_shared_secret ss a (P256_from_montgomery xm) (P256_from_montgomery ym) =
        (true, p256_convert_endianness ss (P256_from_montgomery xo).toBytes 32) := by
  have hn : P256_order • b • G = 0 := by
    rw [smul_comm, order_smul_G hG, nsmul_zero]
  have hne := mul_smul_G_ne_zero hG a.val b ha1 ha2 hb1 hb2
  have hspec := scalarmult_variable_base_spec hB hn a ha1 ha2 hne
  refine ⟨_, _, hspec, ?_⟩
  unfold p256_ecdh_calc_shared_secret p256_scalarmult_generic_no_scalar_check
  simp only [check_range_p_from_montgomery, to_from_montgomery xm hB.1,
    to_from_montgomery ym hB.2.1, on_curve_of_ARep hB, Bool.not_true, Bool.or_self,
    Bool.false_eq_true, if_false]

/-- C10. ECDH symmetry: for private keys `a`, `b` in `[1, n)` with public keys
`A = p256_keygen(a)` and `B = p256_keygen(b)`, both key generations succeed, both
`p256_ecdh_calc_shared_secret(a, B)` and `p256_ecdh_calc_shared_secret(b, A)` return true,
and they write the same 32 bytes (whatever the buffers held before). -/
theorem ecdh_symmetry (a b : U256) (ha1 : 1 ≤ a.val) (ha2 : a.val < P256_order)
    (hb1 : 1 ≤ b.val) (hb2 : b.val < P256_order) (ax ay bx by0 : U256)
    (ss1 ss2 : List Byte) (h1 : ss1.length = 32) (h2 : ss2.length = 32) :
    (p256_keygen ax ay a).1 = true ∧ (p256_keygen bx by0 b).1 = true ∧
    (p256_ecdh_calc_shared_secret ss1 a (p256_keygen bx by0 b).2.1
      (p256_keygen bx by0 b).2.2).1 = true ∧
    (p256_ecdh_calc_shared_secret ss2 b (p256_keygen ax ay a).2.1
      (p256_keygen ax ay a).2.2).1 = true ∧
    (p256_ecdh_calc_shared_secret ss1 a (p256_keygen bx by0 b).2.1
      (p256_keygen bx by0 b).2.2).2 =
    (p256_ecdh_calc_shared_secret ss2 b (p256_keygen ax ay a).2.1
      (p256_keygen ax ay a).2.2).2 := by
  obtain ⟨G, hG⟩ := G_exists
  obtain ⟨axm, aym, hA, hkA⟩ := p256_scalarmult_base_spec hG ax ay a ha1 ha2
  obtain ⟨bxm, bym, hB, hkB⟩ := p256_scalarmult_base_spec hG bx by0 b hb1 hb2
  obtain ⟨x1, y1, hS1, he1⟩ := p256_ecdh_spec hG ss1 a ha1 ha2 b.val hb1 hb2 bxm bym hB
  obtain ⟨x2, y2, hS2, he2⟩ := p256_ecdh_spec hG ss2 b hb1 hb2 a.val ha1 ha2 axm aym hA
  have hkA2 : p256_keygen ax ay a = (true, P256_from_montgomery axm, P256_from_montgomery aym) :=
    hkA
  have hkB2 : p256_keygen bx by0 b =
      (true, P256_from_montgomery bxm, P256_from_montgomery bym) := hkB
  rw [smul_comm] at hS2
  obtain ⟨hx, _⟩ := ARep_unique hS1 hS2
  generalize p256_keygen ax ay a = KA at hkA2 ⊢
  generalize p256_keygen bx by0 b = KB at hkB2 ⊢
  subst hkA2 hkB2
  dsimp only
  rw [he1, he2, hx]
  dsimp only
  refine ⟨rfl, rfl, rfl, rfl, ?_⟩
  exact convert_endianness_32 ss1 ss2 _ h1 h2

theorem ecdh_symmetry_witness :
    (1 ≤ (U256.ofNat 2).val ∧ (U256.ofNat 2).val < P256_order ∧
      1 ≤ (U256.ofNat (P256_order - 2)).val ∧ (U256.ofNat (P256_order - 2)).val < P256_order) ∧
    (p256_ecdh_calc_shared_secret (List.replicate 32 0) (U256.ofNat 2)
      (p256_keygen U256.zero U256.zero (U256.ofNat (P256_order - 2))).2.1
      (p256_keygen U256.zero U256.zero (U256.ofNat (P256_order - 2))).2.2).2 =
    (p256_ecdh_calc_shared_secret (List.replicate 32 1) (U256.ofNat (P256_order - 2))
      (p256_keygen U256.zero U256.zero (U256.ofNat 2)).2.1
      (p256_keygen U256.zero U256.zero (U256.ofNat 2)).2.2).2 :=
  ⟨by decide!, (ecdh_symmetry (U256.ofNat 2) (U256.ofNat (P256_order - 2)) (by decide!)
    (by decide!) (by decide!) (by decide!) U256.zero U256.zero U256.zero U256.zero
    (List.replicate 32 0) (List.replicate 32 1) (by decide) (by decide)).2.2.2.2⟩

end P256

namespace P256

/-! ## Outputs and return values of the protocol functions -/

theorem check_range_n_iff (a : U256) :
    P256_check_range_n a = true ↔ 1 ≤ a.val ∧ a.val < P256_order := by
  simp [P256_check_range_n]

theorem p256_sign_step1_false (result : SignPrecomp) (k : U256)
    (h : (p256_sign_step1 result k).1 = false) :
    (p256_sign_step1 result k).2 = ⟨U256.zero, U256.zero⟩ := by
  unfold p256_sign_step1 at h ⊢
  generalize scalarmult_fixed_base k = pr at h ⊢
  generalize P256_mod_n_inv k = ki at h ⊢
  dsimp only at h ⊢
  generalize limbs_or _ = v at h ⊢
  split_ifs at h ⊢
  · rfl
  · rfl

/-- Whenever `p256_sign_step2` returns false, `r` and `s` are cleared and `*sign_precomp` is
what it was before the call. -/
theorem p256_sign_step2_false (r s : U256) (hash : List Byte) (hashlen : Nat) (d : U256)
    (sp : SignPrecomp) (h : (p256_sign_step2 r s hash hashlen d sp).ret = false) :
    p256_sign_step2 r s hash hashlen d sp = ⟨false, U256.zero, U256.zero, sp⟩ := by
  unfold p256_sign_step2 at h ⊢
  dsimp only at h ⊢
  generalize limbs_or _ = v at h ⊢
  split_ifs at h ⊢
  · rfl
  · rfl

theorem p256_sign_false (r s : U256) (hash : List Byte) (hashlen : Nat) (d k : U256)
    (h : (p256_sign r s hash hashlen d k).1 = false) :
    p256_sign r s hash hashlen d k = (false, U256.zero, U256.zero) := by
  unfold p256_sign at h ⊢
  dsimp only at h ⊢
  split_ifs at h ⊢
  · rfl
  · dsimp only at h
    rw [p256_sign_step2_false _ _ _ _ _ _ h]

theorem no_scalar_check_fst (ox oy d x y : U256) :
    (p256_scalarmult_generic_no_scalar_check ox oy d x y).1 =
      (P256_check_range_p x && P256_check_range_p y &&
        P256_point_is_on_curve (P256_to_montgomery x) (P256_to_montgomery y)) := by
  unfold p256_scalarmult_generic_no_scalar_check
  generalize scalarmult_variable_base _ _ _ = pr
  dsimp only
  cases P256_check_range_p x <;> cases P256_check_range_p y <;>
    cases P256_point_is_on_curve (P256_to_montgomery x) (P256_to_montgomery y) <;> rfl

theorem p256_ecdh_fst (ss : List Byte) (d x y : U256) :
    (p256_ecdh_calc_shared_secret ss d x y).1 =
      (P256_check_range_p x && P256_check_range_p y &&
        P256_point_is_on_curve (P256_to_montgomery x) (P256_to_montgomery y)) := by
  rw [← no_scalar_check_fst default default d x y]
  unfold p256_ecdh_calc_shared_secret
  dsimp only
  cases (p256_scalarmult_generic_no_scalar_check default default d x y).1 <;> rfl

/-- C5 (the code departs from the claim). At the input `sign_precomp = {r = 1, k_inv = 0}`
(`k_inv` out of range) `p256_sign_step2` returns false and word 0 of `sign_precomp->r` is still
1: on its failure path the function clears `r` and `s` only and leaves `*sign_precomp` as it
was, although the header says the structure is zeroed out when the function returns. -/
theorem p256_sign_step2_failure_keeps_precomp :
    (p256_sign_step2 U256.zero U256.zero [] 0 (U256.ofNat 1)
      ⟨U256.ofNat 1, U256.zero⟩).ret = false ∧
    (p256_sign_step2 U256.zero U256.zero [] 0 (U256.ofNat 1)
      ⟨U256.ofNat 1, U256.zero⟩).sign_precomp.r.limb 0 = 1 := by
  constructor
  · decide
  · decide

/-- C6. Signing operations clear their outputs on failure: whenever `p256_sign_step1` returns
false every word of `result->r` and `result->k_inv` is zero, and whenever `p256_sign_step2`
or `p256_sign` returns false every word of `r` and of `s` is zero. -/
theorem signing_outputs_cleared_on_failure :
    (∀ (result : SignPrecomp) (k : U256), (p256_sign_step1 result k).1 = false →
      ∀ i, (p256_sign_step1 result k).2.r.limb i = 0 ∧
        (p256_sign_step1 result k).2.k_inv.limb i = 0) ∧
    (∀ (r s : U256) (hash : List Byte) (hashlen : Nat) (d : U256) (sp : SignPrecomp),
      (p256_sign_step2 r s hash hashlen d sp).ret = false →
      ∀ i, (p256_sign_step2 r s hash hashlen d sp).r.limb i = 0 ∧
        (p256_sign_step2 r s hash hashlen d sp).s.limb i = 0) ∧
    (∀ (r s : U256) (hash : List Byte) (hashlen : Nat) (d k : U256),
      (p256_sign r s hash hashlen d k).1 = false →
      ∀ i, (p256_sign r s hash hashlen d k).2.1.limb i = 0 ∧
        (p256_sign r s hash hashlen d k).2.2.limb i = 0) := by
  refine ⟨?_, ?_, ?_⟩
  · intro result k h i
    rw [p256_sign_step1_false _ _ h]
    exact ⟨U256.limb_of_zero i, U256.limb_of_zero i⟩
  · intro r s hash hashlen d sp h i
    rw [p256_sign_step2_false _ _ _ _ _ _ h]
    exact ⟨U256.limb_of_zero i, U256.limb_of_zero i⟩
  · intro r s hash hashlen d k h i
    rw [p256_sign_false _ _ _ _ _ _ h]
    exact ⟨U256.limb_of_zero i, U256.limb_of_zero i⟩

/-- Witness for C6: `p256_sign` with `k = 0` fails, and its outputs, which held 7 and 9, are
cleared. -/
theorem signing_outputs_cleared_on_failure_witness :
    (p256_sign (U256.ofNat 7) (U256.ofNat 9) [] 0 (U256.ofNat 1) U256.zero).1 = false ∧
    ∀ i, (p256_sign (U256.ofNat 7) (U256.ofNat 9) [] 0 (U256.ofNat 1) U256.zero).2.1.limb i = 0 ∧
        (p256_sign (U256.ofNat 7) (U256.ofNat 9) [] 0 (U256.ofNat 1) U256.zero).2.2.limb i = 0 :=
  ⟨by decide, signing_outputs_cleared_on_failure.2.2 _ _ _ _ _ _ (by decide)⟩

/-- C8. For every 256-bit scalar `d`, `p256_scalarmult_base` and `p256_keygen` return true if
and only if `1 ≤ d < n`. -/
theorem p256_scalarmult_base_accepts_iff (result_x result_y d : U256) :
    ((p256_scalarmult_base result_x result_y d).1 = true ↔ 1 ≤ d.val ∧ d.val < P256_order) ∧
    ((p256_keygen result_x result_y d).1 = true ↔ 1 ≤ d.val ∧ d.val < P256_order) := by
  have h : (p256_scalarmult_base result_x result_y d).1 = true ↔
      1 ≤ d.val ∧ d.val < P256_order := by
    rw [← check_range_n_iff]
    unfold p256_scalarmult_base
    generalize scalarmult_fixed_base d = pr
    cases P256_check_range_n d <;> simp
  exact ⟨h, h⟩

/-- Counterexample to C9 as stated: with the base point as the peer's public key,
`p256_ecdh_calc_shared_secret` returns true for the private key 0 and for the private key `n`. -/
theorem ecdh_accepts_out_of_range_scalar :
    (p256_ecdh_calc_shared_secret (List.replicate 32 0) U256.zero G_x G_y).1 = true ∧
    (p256_ecdh_calc_shared_secret (List.replicate 32 0) (U256.ofNat P256_order) G_x G_y).1 =
      true := by
  constructor <;> decide!

/-- C9, amended. `p256_ecdh_calc_shared_secret` does not check the range of the private
scalar: for every private key value (0 and values `≥ n` included) it returns true exactly
when both coordinates of the peer's public key are below `p` and the point is on the curve. -/
theorem ecdh_result_ignores_scalar (ss : List Byte) (d x y : U256) :
    (p256_ecdh_calc_shared_secret ss d x y).1 =
      (P256_check_range_p x && P256_check_range_p y &&
        P256_point_is_on_curve (P256_to_montgomery x) (P256_to_montgomery y)) :=
  p256_ecdh_fst ss d x y

end P256

namespace P256

/-! ## Byte order conversion in place -/

theorem getD_eq_of_getElem_lists {l1 l2 : List Byte} (hl : l1.length = l2.length)
    (h : ∀ i, i < l1.length → l1.getD i 0 = l2.getD i 0) : l1 = l2 := by
  apply List.ext_getElem hl
  intro i h1 h2
  have e := h i h1
  rw [List.getD_eq_getElem _ _ h1, List.getD_eq_getElem _ _ h2] at e
  exact e

/-- The invariant of the loop of `p256_convert_endianness` (one buffer) after `m` iterations. -/
theorem convert_in_place_fold (buf : List Byte) (len : Nat) (hlen : len ≤ buf.length) :
    ∀ m, m ≤ len / 2 → ∃ out : List Byte,
      (List.range m).foldl (fun buf i =>
        (buf.set (len - 1 - i) (buf.getD i 0)).set i (buf.getD (len - 1 - i) 0))
        buf = out ∧
      out.length = buf.length ∧
      ∀ i, out.getD i 0 =
        if i < m ∨ (len - m ≤ i ∧ i < len) then buf.getD (len - 1 - i) 0
        else buf.getD i 0 := by
  intro m
  induction m with
  | zero =>
    intro _
    refine ⟨buf, rfl, rfl, ?_⟩
    intro i
    rw [if_neg (by omega)]
  | succ m ih =>
    intro hm
    obtain ⟨out, ho, hl, hget⟩ := ih (by omega)
    have r1 : out.getD m 0 = buf.getD m 0 := by
      rw [hget m, if_neg (by omega)]
    have r2 : out.getD (len - 1 - m) 0 = buf.getD (len - 1 - m) 0 := by
      rw [hget (len - 1 - m), if_neg (by omega)]
    refine ⟨(out.set (len - 1 - m) (out.getD m 0)).set m (out.getD (len - 1 - m) 0),
      ?_, by simp [hl], ?_⟩
    · rw [List.range_succ, List.foldl_append, ho]
      rfl
    · intro i
      by_cases him : i = m
      · subst him
        rw [getD_set_eq _ _ _ _ (by simp [hl]; omega), if_pos (by omega), r2]
      · rw [getD_set_ne _ _ _ _ _ (Ne.symm him)]
        by_cases hil : i = len - 1 - m
        · subst hil
          rw [getD_set_eq _ _ _ _ (by omega), if_pos (by omega), r1]
          congr 1
          omega
        · rw [getD_set_ne _ _ _ _ _ (Ne.symm hil), hget i]
          by_cases hc : i < m ∨ (len - m ≤ i ∧ i < len)
          · rw [if_pos hc, if_pos (by omega)]
          · rw [if_neg hc, if_neg (by omega)]

theorem convert_in_place_getD (buf : List Byte) (len : Nat) (hlen : len ≤ buf.length) (i : Nat) :
    (p256_convert_endianness_in_place buf len).getD i 0 =
      if i < len then buf.getD (len - 1 - i) 0 else buf.getD i 0 := by
  obtain ⟨out, ho, _, hget⟩ := convert_in_place_fold buf len hlen (len / 2) (le_refl _)
  have hdef : p256_convert_endianness_in_place buf len = out := ho
  rw [hdef, hget i]
  by_cases h1 : i < len / 2 ∨ (len - len / 2 ≤ i ∧ i < len)
  · rw [if_pos h1, if_pos (by omega)]
  · rw [if_neg h1]
    by_cases h2 : i < len
    · rw [if_pos h2]
      congr 1
      omega
    · rw [if_neg h2]

theorem convert_in_place_length (buf : List Byte) (len : Nat) (hlen : len ≤ buf.length) :
    (p256_convert_endianness_in_place buf len).length = buf.length := by
  obtain ⟨out, ho, hl, _⟩ := convert_in_place_fold buf len hlen (len / 2) (le_refl _)
  have hdef : p256_convert_endianness_in_place buf len = out := ho
  rw [hdef, hl]

theorem convert_in_place_twice (buf : List Byte) (len : Nat) (hlen : len ≤ buf.length) :
    p256_convert_endianness_in_place (p256_convert_endianness_in_place buf len) len = buf := by
  have hl1 := convert_in_place_length buf len hlen
  have hl2 := convert_in_place_length (p256_convert_endianness_in_place buf len) len
    (by rw [hl1]; exact hlen)
  apply getD_eq_of_getElem_lists (by rw [hl2, hl1])
  intro i _
  rw [convert_in_place_getD _ _ (by rw [hl1]; exact hlen), convert_in_place_getD _ _ hlen,
    convert_in_place_getD _ _ hlen]
  by_cases h : i < len
  · rw [if_pos h, if_pos (by omega)]
    congr 1
    omega
  · rw [if_neg h, if_neg h]

/-! ## The big-endian image of an array -/

theorem toBytes_length (a : U256) : a.toBytes.length = 32 := by
  simp [U256.toBytes]

theorem toBytes_getD (a : U256) (i : Nat) (h : i < 32) : a.toBytes.getD i 0 = a.byte i := by
  unfold U256.toBytes
  rw [List.getD_eq_getElem _ _ (by simpa using h)]
  simp

theorem be_encode_length (a : U256) : (be_encode a).length = 32 := by
  simp [be_encode]

theorem be_encode_getD (a : U256) (i : Nat) (h : i < 32) :
    (be_encode a).getD i 0 = a.byte (31 - i) := by
  unfold be_encode
  rw [List.getD_eq_getElem _ _ (by simpa using h)]
  simp

/-- Converting the 32 bytes of an array into a buffer writes its big-endian encoding to the
first 32 bytes and leaves the rest of the buffer. -/
theorem convert_endianness_toBytes (buf : List Byte) (a : U256) (h : 32 ≤ buf.length) :
    p256_convert_endianness buf a.toBytes 32 = be_encode a ++ buf.drop 32 := by
  apply getD_eq_of_getElem_lists
  · rw [convert_endianness_length _ _ _ h, List.length_append, be_encode_length,
      List.length_drop]
    omega
  · intro i hi
    rw [convert_endianness_getD _ _ _ h]
    by_cases h1 : i < 32
    · rw [if_pos (by omega), toBytes_getD _ _ (by omega),
        List.getD_append _ _ _ _ (by rw [be_encode_length]; exact h1), be_encode_getD _ _ h1]
    · rw [if_neg (by omega),
        List.getD_append_right _ _ _ _ (by rw [be_encode_length]; omega), be_encode_length]
      simp only [List.getD_eq_getElem?_getD, List.getElem?_drop]
      congr 2
      omega

end P256

namespace P256

/-! ## The point encoders -/

theorem lsb_tag (y : U256) (t : Nat) :
    (Fin.ofNat (t + (y.limb 0 &&& 1)) : Byte) =
      if y.val % 2 = 0 then Fin.ofNat t else Fin.ofNat (t + 1) := by
  have h1 : y.limb 0 &&& 1 = y.val % 2 := by
    rw [Nat.and_one_is_mod]
    unfold U256.limb
    simp only [Nat.mul_zero, Nat.pow_zero, Nat.div_one]
    exact Nat.mod_mod_of_dvd _ (by decide)
  rw [h1]
  rcases Nat.mod_two_eq_zero_or_one y.val with h | h
  · rw [h, if_pos rfl]
    rfl
  · rw [h, if_neg (by decide)]

theorem encode_tail (out : List Byte) (a : U256) (k : Nat) (h : out.length = k + 32) :
    out.take k ++ p256_convert_endianness (out.drop k) a.toBytes 32 =
      out.take k ++ be_encode a := by
  rw [convert_endianness_toBytes _ _ (by rw [List.length_drop]; omega)]
  rw [List.drop_drop, List.drop_of_length_le (by omega), List.append_nil]

theorem encode_head (out : List Byte) (a : U256) (h : 33 ≤ out.length) :
    out.take 1 ++ p256_convert_endianness (out.drop 1) a.toBytes 32 =
      out.take 1 ++ be_encode a ++ out.drop 33 := by
  rw [convert_endianness_toBytes _ _ (by rw [List.length_drop]; omega)]
  rw [List.drop_drop, List.append_assoc]

theorem encode_xy (out : List Byte) (t : Byte) (x y : U256) (h : out.length = 65) :
    let out1 := out.set 0 t
    let out2 := out1.take 1 ++ p256_convert_endianness (out1.drop 1) x.toBytes 32
    out2.take 33 ++ p256_convert_endianness (out2.drop 33) y.toBytes 32 =
      t :: (be_encode x ++ be_encode y) := by
  intro out1 out2
  have hl1 : out1.length = 65 := by simp [out1, h]
  have ht : out1.take 1 = [t] := by
    obtain ⟨b, tl, rfl⟩ : ∃ b tl, out = b :: tl := by
      cases out with
      | nil => simp at h
      | cons b tl => exact ⟨b, tl, rfl⟩
    rfl
  have h2 : out2 = [t] ++ be_encode x ++ out1.drop 33 := by
    show out1.take 1 ++ _ = _
    rw [encode_head _ _ (by omega), ht]
  have hl2 : out2.length = 65 := by
    rw [h2]
    simp [be_encode_length, hl1]
  rw [encode_tail out2 y 33 hl2, h2]
  have hlen : ([t] ++ be_encode x).length = 33 := by simp [be_encode_length]
  rw [List.take_left' hlen]
  simp

theorem encode_x (out : List Byte) (t : Byte) (x : U256) (h : out.length = 33) :
    let out1 := out.set 0 t
    out1.take 1 ++ p256_convert_endianness (out1.drop 1) x.toBytes 32 = t :: be_encode x := by
  intro out1
  have hl1 : out1.length = 33 := by simp [out1, h]
  have ht : out1.take 1 = [t] := by
    obtain ⟨b, tl, rfl⟩ : ∃ b tl, out = b :: tl := by
      cases out with
      | nil => simp at h
      | cons b tl => exact ⟨b, tl, rfl⟩
    rfl
  rw [encode_tail out1 x 1 hl1, ht]
  rfl

theorem uncompressed_eq (out : List Byte) (x y : U256) (h : out.length = 65) :
    p256_point_to_octet_string_uncompressed out x y = 4 :: (be_encode x ++ be_encode y) :=
  encode_xy out 4 x y h

theorem compressed_eq (out : List Byte) (x y : U256) (h : out.length = 33) :
    p256_point_to_octet_string_compressed out x y =
      (if y.val % 2 = 0 then 2 else 3) :: be_encode x := by
  unfold p256_point_to_octet_string_compressed
  rw [lsb_tag y 2]
  exact encode_x out _ x h

theorem hybrid_eq (out : List Byte) (x y : U256) (h : out.length = 65) :
    p256_point_to_octet_string_hybrid out x y =
      (if y.val % 2 = 0 then 6 else 7) :: (be_encode x ++ be_encode y) := by
  unfold p256_point_to_octet_string_hybrid
  rw [lsb_tag y 6]
  exact encode_xy out _ x y h

end P256

namespace P256

/-! ## Little-endian and big-endian values of byte strings -/

theorem le_fold_lt (l : List Byte) :
    l.foldr (fun w acc => w.val + 256 * acc) 0 < 256 ^ l.length := by
  induction l with
  | nil => simp
  | cons b tl ih =>
    rw [List.foldr_cons, List.length_cons, pow_succ]
    have hb := b.isLt
    omega

theorem le_fold_append_zeros (l : List Byte) (k : Nat) :
    (l ++ List.replicate k (0 : Byte)).foldr (fun w acc => w.val + 256 * acc) 0 =
      l.foldr (fun w acc => w.val + 256 * acc) 0 := by
  induction l with
  | nil =>
    induction k with
    | zero => rfl
    | succ k ih =>
      rw [List.nil_append] at ih
      rw [List.nil_append, List.replicate_succ, List.foldr_cons, ih]
      rfl
  | cons b tl ih =>
    rw [List.cons_append, List.foldr_cons, ih, List.foldr_cons]

theorem le_fold_reverse (l : List Byte) :
    l.reverse.foldr (fun w acc => w.val + 256 * acc) 0 = be_value l := by
  rw [List.foldr_reverse]
  unfold be_value
  congr 1
  funext a b
  omega

theorem be_value_zeros_append (k : Nat) (l : List Byte) :
    be_value (List.replicate k (0 : Byte) ++ l) = be_value l := by
  unfold be_value
  rw [List.foldl_append]
  congr 1
  induction k with
  | zero => rfl
  | succ k ih =>
    rw [List.replicate_succ, List.foldl_cons]
    exact ih

theorem le_fold_bytes (v : Nat) : ∀ n s : Nat,
    ((List.range' s n).map fun i => (⟨v / 2 ^ (8 * i) % 256, Nat.mod_lt _ (by decide)⟩ : Byte)).foldr
      (fun w acc => w.val + 256 * acc) 0 = v / 256 ^ s % 256 ^ n
  | 0, s => by simp [Nat.mod_one]
  | n + 1, s => by
    rw [List.range'_succ, List.map_cons, List.foldr_cons, le_fold_bytes v n (s + 1)]
    have e : (2 : Nat) ^ (8 * s) = 256 ^ s := by
      rw [pow_mul]
      norm_num
    show v / 2 ^ (8 * s) % 256 + 256 * (v / 256 ^ (s + 1) % 256 ^ n) = _
    rw [e, pow_succ' 256 n, Nat.mod_mul, pow_succ, Nat.div_div_eq_div_mul]

theorem ofBytes_toBytes (a : U256) : U256.ofBytes a.toBytes = a := by
  apply U256.ext
  unfold U256.ofBytes U256.toBytes
  rw [List.take_of_length_le (by simp)]
  have h := le_fold_bytes a.val 32 0
  rw [← List.range_eq_range'] at h
  have h2 : (List.map a.byte (List.range 32)).foldr (fun w acc => w.val + 256 * acc) 0 =
      a.val / 256 ^ 0 % 256 ^ 32 := h
  rw [h2, pow_zero, Nat.div_one]
  have h3 : (256 : Nat) ^ 32 = 2 ^ 256 := by norm_num
  rw [h3, Nat.mod_eq_of_lt a.isLt]
  exact U256.val_ofNat_of_lt a.isLt

theorem be_encode_eq_reverse (a : U256) : be_encode a = a.toBytes.reverse := by
  apply getD_eq_of_getElem_lists
  · rw [be_encode_length, List.length_reverse, toBytes_length]
  · intro i hi
    rw [be_encode_length] at hi
    rw [be_encode_getD _ _ hi, List.getD_eq_getElem _ _ (by simpa [toBytes_length] using hi),
      List.getElem_reverse]
    have h1 := toBytes_getD a (31 - i) (by omega)
    rw [List.getD_eq_getElem _ _ (by rw [toBytes_length]; omega)] at h1
    rw [← h1]
    congr 1

/-- The big-endian value of the big-endian encoding of an array is the value of the array. -/
theorem be_value_be_encode (a : U256) : be_value (be_encode a) = a.val := by
  rw [be_encode_eq_reverse, ← le_fold_reverse, List.reverse_reverse]
  have h := congrArg U256.val (ofBytes_toBytes a)
  unfold U256.ofBytes at h
  rw [List.take_of_length_le (by rw [toBytes_length])] at h
  rw [U256.val_ofNat_of_lt] at h
  · exact h
  · have := le_fold_lt a.toBytes
    rw [toBytes_length] at this
    have h3 : (256 : Nat) ^ 32 = 2 ^ 256 := by norm_num
    rw [← h3]
    exact this

/-! ## The function `hash_to_z` -/

theorem hash_to_z_bytes (hash : List Byte) (h : Nat) (hh : h ≤ 32) (hl : h ≤ hash.length) :
    ((List.range 32).map fun i => if i < h then hash.getD (h - 1 - i) 0 else (0 : Byte)) =
      (hash.take h).reverse ++ List.replicate (32 - h) 0 := by
  apply getD_eq_of_getElem_lists
  · simp
    omega
  · intro i hi
    simp only [List.length_map, List.length_range] at hi
    rw [List.getD_eq_getElem _ _ (by simpa using hi)]
    simp only [List.getElem_map, List.getElem_range]
    by_cases h1 : i < h
    · have hlt : i < (hash.take h).reverse.length := by
        rw [List.length_reverse, List.length_take]
        omega
      rw [if_pos h1, List.getD_append _ _ _ _ hlt,
        List.getD_eq_getElem (hash.take h).reverse _ hlt, List.getElem_reverse,
        List.getElem_take, List.getD_eq_getElem _ _ (by omega)]
      congr 1
      rw [List.length_take]
      omega
    · rw [if_neg h1, List.getD_append_right _ _ _ _ (by simp; omega),
        List.getD_eq_getElem _ _ (by simp; omega), List.getElem_replicate]

theorem hash_to_z_val (hash : List Byte) :
    (hash_to_z hash hash.length).val = be_value (hash.take 32) := by
  unfold hash_to_z
  simp only
  generalize hh : (if hash.length > 32 then 32 else hash.length) = h
  have h32 : h ≤ 32 := by
    rw [← hh]
    split_ifs <;> omega
  have hl : h ≤ hash.length := by
    rw [← hh]
    split_ifs <;> omega
  have ht : hash.take 32 = hash.take h := by
    rw [← hh]
    split_ifs with hc
    · rfl
    · rw [List.take_of_length_le (by omega), List.take_of_length_le (le_refl _)]
  rw [hash_to_z_bytes hash h h32 hl, ht]
  unfold U256.ofBytes
  rw [List.take_of_length_le (by simp; omega), le_fold_append_zeros, le_fold_reverse]
  apply U256.val_ofNat_of_lt
  have h1 := le_fold_lt (hash.take h).reverse
  rw [le_fold_reverse] at h1
  have h2 : (List.take h hash).reverse.length ≤ 32 := by simp; omega
  have h3 : (256 : Nat) ^ 32 = 2 ^ 256 := by norm_num
  rw [← h3]
  exact lt_of_lt_of_le h1 (Nat.pow_le_pow_right (by decide) h2)

end P256

namespace P256

/-! ## Claims on key generation, encoders, byte order and `hash_to_z` -/

/-- C14. Keygen matches scalarmult: for every private key `d` (in particular for all `d` in
`[1, n)`) and all buffer contents, `p256_keygen` and `p256_scalarmult_base` return the same
boolean and write identical `x` and `y` outputs. -/
theorem keygen_matches_scalarmult_base (public_key_x public_key_y d : U256) :
    (p256_keygen public_key_x public_key_y d).1 =
      (p256_scalarmult_base public_key_x public_key_y d).1 ∧
    (p256_keygen public_key_x public_key_y d).2.1 =
      (p256_scalarmult_base public_key_x public_key_y d).2.1 ∧
    (p256_keygen public_key_x public_key_y d).2.2 =
      (p256_scalarmult_base public_key_x public_key_y d).2.2 :=
  ⟨rfl, rfl, rfl⟩

/-- C17. For every pair of arrays `x`, `y`: the uncompressed encoder writes `04 ‖ X_be ‖ Y_be`
(65 bytes), the compressed encoder writes `02 ‖ X_be` for even `y` and `03 ‖ X_be` for odd `y`
(33 bytes), and the hybrid encoder writes `06 ‖ X_be ‖ Y_be` for even `y` and
`07 ‖ X_be ‖ Y_be` for odd `y`, where `X_be`, `Y_be` are the 32-byte big-endian encodings. -/
theorem point_to_octet_string_layout (x y : U256) (out65 out33 : List Byte)
    (h65 : out65.length = 65) (h33 : out33.length = 33) :
    p256_point_to_octet_string_uncompressed out65 x y = 4 :: (be_encode x ++ be_encode y) ∧
    p256_point_to_octet_string_compressed out33 x y =
      (if y.val % 2 = 0 then 2 else 3) :: be_encode x ∧
    p256_point_to_octet_string_hybrid out65 x y =
      (if y.val % 2 = 0 then 6 else 7) :: (be_encode x ++ be_encode y) :=
  ⟨uncompressed_eq out65 x y h65, compressed_eq out33 x y h33, hybrid_eq out65 x y h65⟩

/-- Witness for C17: the three encodings of the pair `(1, 3)` into zeroed buffers. -/
theorem point_to_octet_string_layout_witness :
    p256_point_to_octet_string_uncompressed (List.replicate 65 0) (U256.ofNat 1) (U256.ofNat 3) =
      4 :: (be_encode (U256.ofNat 1) ++ be_encode (U256.ofNat 3)) ∧
    p256_point_to_octet_string_compressed (List.replicate 33 0) (U256.ofNat 1) (U256.ofNat 3) =
      (if (U256.ofNat 3).val % 2 = 0 then 2 else 3) :: be_encode (U256.ofNat 1) ∧
    p256_point_to_octet_string_hybrid (List.replicate 65 0) (U256.ofNat 1) (U256.ofNat 3) =
      (if (U256.ofNat 3).val % 2 = 0 then 6 else 7) ::
        (be_encode (U256.ofNat 1) ++ be_encode (U256.ofNat 3)) :=
  point_to_octet_string_layout (U256.ofNat 1) (U256.ofNat 3) (List.replicate 65 0)
    (List.replicate 33 0) (by decide) (by decide)

/-- C18 (the code departs from the claim). With distinct buffers and an odd `byte_len` the
middle byte of `output` is never written: for `byte_len = 1`, `output = {0xAA}`,
`input = {0x55}` the output still holds `0xAA` after the call, and for `byte_len = 3`,
`output = {1, 2, 3}`, `input = {4, 5, 6}` the output is `{6, 2, 4}`, not `{6, 5, 4}`. -/
theorem convert_endianness_odd_length_middle_byte :
    p256_convert_endianness [0xAA] [0x55] 1 = [0xAA] ∧
    p256_convert_endianness [1, 2, 3] [4, 5, 6] 3 = [6, 2, 4] := by
  constructor
  · decide
  · decide

/-- C19. `p256_convert_endianness` works in place: called with `output` and `input` referring
to the same buffer (of at least `byte_len` bytes), it leaves byte `i` of the buffer equal to
the original byte `byte_len - 1 - i` for every `i < byte_len`, leaves the bytes from
`byte_len` on and the buffer size unchanged, and applying it twice restores the buffer. -/
theorem convert_endianness_in_place_reverses (buf : List Byte) (byte_len : Nat)
    (h : byte_len ≤ buf.length) :
    (∀ i, i < byte_len →
      (p256_convert_endianness_in_place buf byte_len).getD i 0 =
        buf.getD (byte_len - 1 - i) 0) ∧
    (∀ i, byte_len ≤ i →
      (p256_convert_endianness_in_place buf byte_len).getD i 0 = buf.getD i 0) ∧
    (p256_convert_endianness_in_place buf byte_len).length = buf.length ∧
    p256_convert_endianness_in_place (p256_convert_endianness_in_place buf byte_len) byte_len =
      buf := by
  refine ⟨?_, ?_, convert_in_place_length buf byte_len h, convert_in_place_twice buf byte_len h⟩
  · intro i hi
    rw [convert_in_place_getD buf byte_len h, if_pos hi]
  · intro i hi
    rw [convert_in_place_getD buf byte_len h, if_neg (by omega)]

/-- Witness for C19: reversing the first three bytes of a four-byte buffer in place. -/
theorem convert_endianness_in_place_reverses_witness :
    p256_convert_endianness_in_place [1, 2, 3, 4] 3 = [3, 2, 1, 4] ∧
    p256_convert_endianness_in_place (p256_convert_endianness_in_place [1, 2, 3, 4] 3) 3 =
      [1, 2, 3, 4] :=
  ⟨by decide, (convert_endianness_in_place_reverses [1, 2, 3, 4] 3 (by decide)).2.2.2⟩

/-- C20. For every hash byte string (of length `L`), the integer `z` produced by `hash_to_z`
is the big-endian value of the first `min(L, 32)` bytes; hence a hash longer than 32 bytes
gives the same `z` as its leftmost 32 bytes, a hash shorter than 32 bytes gives the same `z`
as the hash left-padded with zero bytes to 32 bytes, and `L = 0` gives `z = 0`. -/
theorem hash_to_z_spec (hash : List Byte) :
    (hash_to_z hash hash.length).val = be_value (hash.take 32) ∧
    hash_to_z hash hash.length = hash_to_z (hash.take 32) (hash.take 32).length ∧
    hash_to_z hash hash.length =
      hash_to_z (List.replicate (32 - hash.length) 0 ++ hash)
        (List.replicate (32 - hash.length) 0 ++ hash).length ∧
    hash_to_z [] 0 = U256.zero := by
  refine ⟨hash_to_z_val hash, ?_, ?_, ?_⟩
  · apply U256.ext
    rw [hash_to_z_val, hash_to_z_val, List.take_take, min_self]
  · apply U256.ext
    rw [hash_to_z_val, hash_to_z_val]
    by_cases hl : hash.length < 32
    · rw [List.take_of_length_le (le_of_lt hl),
        List.take_of_length_le (l := List.replicate (32 - hash.length) 0 ++ hash)
          (by rw [List.length_append, List.length_replicate]; omega),
        be_value_zeros_append]
    · have h0 : 32 - hash.length = 0 := by omega
      rw [h0]
      rfl
  · apply U256.ext
    exact hash_to_z_val []

end P256

namespace P256

open WeierstrassCurve

/-! ## Plain affine coordinates -/

theorem some_eq_of_coords {a b a2 b2 : ZMod P256_p} (ha : a = a2) (hb : b = b2)
    (h : P256_curve.toAffine.Nonsingular a2 b2) :
    ∃ h2 : P256_curve.toAffine.Nonsingular a b,
      (Affine.Point.some h : P256_curve.toAffine.Point) = Affine.Point.some h2 := by
  subst ha hb
  exact ⟨h, rfl⟩

theorem cast_from_montgomery (a : U256) :
    ((P256_from_montgomery a).val : ZMod P256_p) = toF a := by
  rw [val_from_montgomery, ZMod.natCast_zmod_val]

theorem IsAffine_of_ARep {xm ym : U256} {P : P256_curve.toAffine.Point} (h : ARep xm ym P) :
    IsAffine (P256_from_montgomery xm) (P256_from_montgomery ym) P := by
  obtain ⟨_, _, hns, hP⟩ := h
  refine ⟨from_montgomery_lt _, from_montgomery_lt _, ?_⟩
  obtain ⟨h2, e⟩ := some_eq_of_coords (cast_from_montgomery xm) (cast_from_montgomery ym) hns
  exact ⟨h2, hP.trans e⟩

theorem ARep_of_IsAffine {x y : U256} {P : P256_curve.toAffine.Point} (h : IsAffine x y P) :
    ARep (P256_to_montgomery x) (P256_to_montgomery y) P := by
  obtain ⟨_, _, hns, hP⟩ := h
  refine ⟨to_montgomery_lt _, to_montgomery_lt _, ?_⟩
  obtain ⟨h2, e⟩ := some_eq_of_coords (toF_to_montgomery x) (toF_to_montgomery y) hns
  exact ⟨h2, hP.trans e⟩

theorem IsAffine_unique {x y x2 y2 : U256} {P : P256_curve.toAffine.Point}
    (h : IsAffine x y P) (h2 : IsAffine x2 y2 P) : x = x2 ∧ y = y2 := by
  obtain ⟨hx, hy, hns, hP⟩ := h
  obtain ⟨hx2, hy2, hns2, hP2⟩ := h2
  rw [hP] at hP2
  injection hP2 with e1 e2
  have f1 := congrArg ZMod.val e1
  have f2 := congrArg ZMod.val e2
  rw [ZMod.val_natCast, ZMod.val_natCast, Nat.mod_eq_of_lt hx, Nat.mod_eq_of_lt hx2] at f1
  rw [ZMod.val_natCast, ZMod.val_natCast, Nat.mod_eq_of_lt hy, Nat.mod_eq_of_lt hy2] at f2
  exact ⟨U256.ext f1, U256.ext f2⟩

theorem on_curve_iff_equation (x y : U256) :
    on_curve x y ↔
      P256_curve.toAffine.Equation (x.val : ZMod P256_p) (y.val : ZMod P256_p) := by
  unfold on_curve
  rw [Affine.equation_iff]
  simp only [curve_a₁, curve_a₂, curve_a₃, curve_a₄, curve_a₆]
  constructor
  · intro h
    linear_combination h
  · intro h
    linear_combination h

theorem on_curve_iff_check (x y : U256) :
    on_curve x y ↔
      P256_point_is_on_curve (P256_to_montgomery x) (P256_to_montgomery y) = true := by
  rw [on_curve_iff_equation, on_curve_iff, toF_to_montgomery, toF_to_montgomery]

theorem on_curve_of_IsAffine {x y : U256} {P : P256_curve.toAffine.Point}
    (h : IsAffine x y P) : on_curve x y := by
  obtain ⟨_, _, hns, _⟩ := h
  exact (on_curve_iff_equation x y).mpr hns.1

theorem IsAffine_of_on_curve {x y : U256} (hx : x.val < P256_p) (hy : y.val < P256_p)
    (h : on_curve x y) : ∃ P : P256_curve.toAffine.Point, IsAffine x y P :=
  ⟨.some (Affine.nonsingular_of_Δ_ne_zero _ ((on_curve_iff_equation x y).mp h)
    curve_Δ_ne_zero), hx, hy, _, rfl⟩

theorem G_x_val :
    G_x.val = 0x6B17D1F2E12C4247F8BCE6E563A440F277037D812DEB33A0F4A13945D898C296 := by
  decide!

theorem G_y_val :
    G_y.val = 0x4FE342E2FE1A7F9B8EE7EB4A7C0F9E162BCE33576B315ECECBB6406837BF51F5 := by
  decide!

theorem G_ARep_of_IsAffine {G : P256_curve.toAffine.Point} (hG : IsAffine G_x G_y G) :
    ARep G_mont.x G_mont.y G := by
  have h := ARep_of_IsAffine hG
  unfold G_x G_y at h
  rw [to_from_montgomery _ G_mont_x_lt, to_from_montgomery _ G_mont_y_lt] at h
  exact h

/-- The base point `(G_x, G_y)` is a nonsingular point of the curve. -/
theorem G_nonsingular :
    P256_curve.toAffine.Nonsingular (G_x.val : ZMod P256_p) (G_y.val : ZMod P256_p) := by
  obtain ⟨G, hG⟩ := G_exists
  obtain ⟨_, _, hns, _⟩ := IsAffine_of_ARep hG
  exact hns

theorem G_IsAffine : IsAffine G_x G_y (Affine.Point.some G_nonsingular) :=
  ⟨from_montgomery_lt _, from_montgomery_lt _, G_nonsingular, rfl⟩

/-- C12. For every scalar `d` in `[1, n)`, `p256_scalarmult_base` and `p256_keygen` return
true and write the affine coordinates of `d·G` as canonical non-Montgomery values below `p`,
and the returned point satisfies the curve equation; this holds for odd and even `d` alike
(the even-scalar path computes `(n−d)·G` and negates `y`). -/
theorem p256_scalarmult_base_correct (G : P256_curve.toAffine.Point)
    (hG : IsAffine G_x G_y G) (result_x result_y d : U256)
    (h1 : 1 ≤ d.val) (h2 : d.val < P256_order) :
    (p256_scalarmult_base result_x result_y d).1 = true ∧
    (p256_keygen result_x result_y d).1 = true ∧
    p256_keygen result_x result_y d = p256_scalarmult_base result_x result_y d ∧
    IsAffine (p256_scalarmult_base result_x result_y d).2.1
      (p256_scalarmult_base result_x result_y d).2.2 (d.val • G) ∧
    (p256_scalarmult_base result_x result_y d).2.1.val < P256_p ∧
    (p256_scalarmult_base result_x result_y d).2.2.val < P256_p ∧
    on_curve (p256_scalarmult_base result_x result_y d).2.1
      (p256_scalarmult_base result_x result_y d).2.2 := by
  obtain ⟨xm, ym, hrep, he⟩ :=
    p256_scalarmult_base_spec (G_ARep_of_IsAffine hG) result_x result_y d h1 h2
  have ha := IsAffine_of_ARep hrep
  have hk : p256_keygen result_x result_y d = p256_scalarmult_base result_x result_y d := rfl
  rw [hk, he]
  exact ⟨rfl, rfl, rfl, ha, ha.1, ha.2.1, on_curve_of_IsAffine ha⟩

/-- Witness for C12: the key pair of RFC 6979 A.2.5 (scenario S1). -/
theorem p256_scalarmult_base_correct_witness :
    IsAffine G_x G_y (Affine.Point.some G_nonsingular) ∧
    IsAffine
      (U256.ofNat 0x60FED4BA255A9D31C961EB74C6356D68C049B8923B61FA6CE669622E60F29FB6)
      (U256.ofNat 0x7903FE1008B8BC99A41AE9E95628BC64F2F1B20C2D7E9F5177A3C294D4462299)
      (0xC9AFA9D845BA75166B5C215767B1D6934E50C3DB36E89B127B8A622B120F6721 •
        (Affine.Point.some G_nonsingular : P256_curve.toAffine.Point)) := by
  have hd : (U256.ofNat
      0xC9AFA9D845BA75166B5C215767B1D6934E50C3DB36E89B127B8A622B120F6721).val =
      0xC9AFA9D845BA75166B5C215767B1D6934E50C3DB36E89B127B8A622B120F6721 := by decide!
  have hv : p256_scalarmult_base U256.zero U256.zero (U256.ofNat
      0xC9AFA9D845BA75166B5C215767B1D6934E50C3DB36E89B127B8A622B120F6721) =
      (true, U256.ofNat 0x60FED4BA255A9D31C961EB74C6356D68C049B8923B61FA6CE669622E60F29FB6,
        U256.ofNat 0x7903FE1008B8BC99A41AE9E95628BC64F2F1B20C2D7E9F5177A3C294D4462299) := by
    decide!
  have h := (p256_scalarmult_base_correct _ G_IsAffine U256.zero U256.zero
    (U256.ofNat 0xC9AFA9D845BA75166B5C215767B1D6934E50C3DB36E89B127B8A622B120F6721)
    (by decide!) (by decide!)).2.2.2.1
  rw [hv, hd] at h
  exact ⟨G_IsAffine, h⟩

end P256

namespace P256

open WeierstrassCurve

/-! ## Decoding big-endian coordinates -/

theorem ofNat_val (a : U256) : U256.ofNat a.val = a :=
  U256.ext (U256.val_ofNat_of_lt a.isLt)

theorem be_decode_be_encode (a : U256) (rest : List Byte) :
    be_decode (be_encode a ++ rest) = a := by
  unfold be_decode
  rw [List.take_left' (be_encode_length a), be_value_be_encode, ofNat_val]

/-- Reading a coordinate: converting 32 big-endian bytes into an array gives the array with
that big-endian value. -/
theorem ofBytes_convert (buf l : List Byte) (hb : buf.length = 32) (hl : 32 ≤ l.length) :
    U256.ofBytes (p256_convert_endianness buf l 32) = be_decode l := by
  have hr : p256_convert_endianness buf l 32 = (l.take 32).reverse := by
    apply getD_eq_of_getElem_lists
    · rw [convert_endianness_length _ _ _ (by omega), hb, List.length_reverse,
        List.length_take]
      omega
    · intro i hi
      rw [convert_endianness_length _ _ _ (by omega), hb] at hi
      have hlt : i < (l.take 32).reverse.length := by
        rw [List.length_reverse, List.length_take]
        omega
      rw [convert_endianness_getD _ _ _ (by omega), if_pos (by omega),
        List.getD_eq_getElem (l.take 32).reverse _ hlt, List.getElem_reverse,
        List.getElem_take, List.getD_eq_getElem _ _ (by omega)]
      congr 1
      rw [List.length_take]
      omega
  unfold U256.ofBytes be_decode
  rw [hr, List.take_of_length_le (by simp), le_fold_reverse]

/-! ## Square roots modulo `p` -/

theorem sqrt_exp_fact : 2 * ((P256_p + 1) / 4 * 2) = P256_p + 1 := by decide!

theorem sqrt_exp_lt : (P256_p + 1) / 4 < 2 ^ 256 := by decide!

theorem P256_p_odd : P256_p % 2 = 1 := by decide!

theorem sqrt_exp_sq (a : ZMod P256_p) (h : IsSquare a) : (a ^ ((P256_p + 1) / 4)) ^ 2 = a := by
  obtain ⟨t, rfl⟩ := h
  rw [← sq, ← pow_mul, ← pow_mul, sqrt_exp_fact, pow_succ, ZMod.pow_card, sq]

/-- The right-hand side of the curve equation computed in Montgomery form. -/
theorem toF_curve_rhs (xm : U256) :
    toF (add_mod_p (mul_mont xm (sub_mod_p (sqr_mont xm)
        (add_mod_p (add_mod_p one_montgomery one_montgomery) one_montgomery)))
      (P256_to_montgomery (U256.ofNat P256_b))) =
      toF xm ^ 3 - 3 * toF xm + (P256_b : ZMod P256_p) := by
  have hb : toF (P256_to_montgomery (U256.ofNat P256_b)) = (P256_b : ZMod P256_p) := by
    rw [toF_to_montgomery, U256.val_ofNat_of_lt (by decide!)]
  simp only [toF_sqr_mont, toF_add_mod_p, toF_mul_mont, toF_sub_mod_p, toF_one_montgomery, hb]
  ring

theorem decompress_unfold (y x : U256) (par : Nat) (alpha root : U256)
    (ha : alpha = add_mod_p (mul_mont (P256_to_montgomery x) (sub_mod_p
      (sqr_mont (P256_to_montgomery x))
      (add_mod_p (add_mod_p one_montgomery one_montgomery) one_montgomery)))
      (P256_to_montgomery (U256.ofNat P256_b)))
    (hr : root = pow_mont alpha 256 ((P256_p + 1) / 4)) :
    P256_decompress_point y x par =
      if sqr_mont root = alpha then
        (true, P256_negate_mod_p_if (P256_from_montgomery root)
          (((P256_from_montgomery root).limb 0 &&& 1) ^^^ (par &&& 1)))
      else (false, y) := by
  subst hr
  subst ha
  rfl

/-- The values met in `P256_decompress_point`: `alpha` stands for `x³ − 3x + b` and `root` for
its power `(p+1)/4`. -/
theorem decompress_values (x : U256) :
    ∃ alpha root : U256, alpha.val < P256_p ∧
      toF alpha = (x.val : ZMod P256_p) ^ 3 - 3 * (x.val : ZMod P256_p) +
        (P256_b : ZMod P256_p) ∧
      toF root = toF alpha ^ ((P256_p + 1) / 4) ∧
      ∀ (y : U256) (par : Nat), P256_decompress_point y x par =
        if sqr_mont root = alpha then
          (true, P256_negate_mod_p_if (P256_from_montgomery root)
            (((P256_from_montgomery root).limb 0 &&& 1) ^^^ (par &&& 1)))
        else (false, y) := by
  obtain ⟨alpha, ha⟩ : ∃ a, a = add_mod_p (mul_mont (P256_to_montgomery x) (sub_mod_p
      (sqr_mont (P256_to_montgomery x))
      (add_mod_p (add_mod_p one_montgomery one_montgomery) one_montgomery)))
      (P256_to_montgomery (U256.ofNat P256_b)) := ⟨_, rfl⟩
  obtain ⟨root, hr⟩ : ∃ r, r = pow_mont alpha 256 ((P256_p + 1) / 4) := ⟨_, rfl⟩
  refine ⟨alpha, root, ?_, ?_, ?_, fun y par => decompress_unfold y x par alpha root ha hr⟩
  · rw [ha]
    exact add_mod_p_lt _ _
  · rw [ha, toF_curve_rhs, toF_to_montgomery]
  · rw [hr]
    exact toF_pow_mont alpha 256 _ sqrt_exp_lt

/-- The decompression succeeds exactly when `x³ − 3x + b` is a square modulo `p`. -/
theorem decompress_true_iff (y x : U256) (par : Nat) :
    (P256_decompress_point y x par).1 = true ↔
      IsSquare ((x.val : ZMod P256_p) ^ 3 - 3 * (x.val : ZMod P256_p) +
        (P256_b : ZMod P256_p)) := by
  obtain ⟨alpha, root, hal, ha, hr, hdef⟩ := decompress_values x
  rw [hdef y par, ← ha]
  constructor
  · intro h
    split_ifs at h with hc
    · have h2 := congrArg toF hc
      rw [toF_sqr_mont] at h2
      exact ⟨toF root, by rw [← h2, sq]⟩
  · intro h
    have h2 := sqrt_exp_sq (toF alpha) h
    rw [← hr, ← toF_sqr_mont] at h2
    rw [if_pos (toF_injective (sqr_mont_lt _) hal h2)]

theorem val_cast_of_lt {y : U256} (hy : y.val < P256_p) :
    ((y.val : ZMod P256_p)).val = y.val := by
  rw [ZMod.val_natCast, Nat.mod_eq_of_lt hy]

theorem xor_parity_same (a b : Nat) (h : a % 2 = b % 2) : ((a % 2) ^^^ (b % 2)) % 2 = 0 := by
  rw [h, Nat.xor_self]

theorem xor_parity_diff (a b : Nat) (h : a % 2 ≠ b % 2) : ((a % 2) ^^^ (b % 2)) % 2 = 1 := by
  rcases Nat.mod_two_eq_zero_or_one a with h1 | h1 <;>
    rcases Nat.mod_two_eq_zero_or_one b with h2 | h2 <;> rw [h1, h2] at h ⊢ <;>
    first | rfl | exact absurd rfl h

theorem sub_sub_mod_p (v : Nat) (h1 : 0 < v) (h2 : v < P256_p) :
    (P256_p - (P256_p - v) % P256_p) % P256_p = v := by
  have e1 : (P256_p - v) % P256_p = P256_p - v := Nat.mod_eq_of_lt (by omega)
  rw [e1, Nat.sub_sub_self (le_of_lt h2), Nat.mod_eq_of_lt h2]

theorem parity_p_sub (v : Nat) (h2 : v < P256_p) : (P256_p - v) % 2 ≠ v % 2 := by
  have := P256_p_odd
  omega

/-- Decompressing the `x` coordinate of a point of the curve with the parity of its `y`
coordinate gives back `y`. -/
theorem decompress_recover (y0 x y : U256) (par : Nat) (hy : y.val < P256_p)
    (hc : on_curve x y) (hpar : par % 2 = y.val % 2) :
    P256_decompress_point y0 x par = (true, y) := by
  obtain ⟨alpha, root, hal, ha, hr, hdef⟩ := decompress_values x
  unfold on_curve at hc
  rw [← hc] at ha
  have hsq : toF root ^ 2 = (y.val : ZMod P256_p) ^ 2 := by
    rw [hr, ha]
    exact sqrt_exp_sq _ ⟨(y.val : ZMod P256_p), sq _⟩
  have h2 : toF (sqr_mont root) = toF alpha := by
    rw [toF_sqr_mont, hsq, ha]
  rw [hdef y0 par, if_pos (toF_injective (sqr_mont_lt _) hal h2)]
  have hv := val_from_montgomery root
  generalize P256_from_montgomery root = yr at hv ⊢
  unfold P256_negate_mod_p_if
  rw [limb0_and_one, Nat.and_one_is_mod]
  rcases sq_eq_sq_iff_eq_or_eq_neg.mp hsq with h | h
  · have e : yr = y := by
      apply U256.ext
      rw [hv, h, val_cast_of_lt hy]
    subst e
    rw [if_neg (by rw [xor_parity_same _ _ hpar.symm]; decide)]
  · by_cases hy0 : y.val = 0
    · have e : yr = y := by
        apply U256.ext
        rw [hv, h, hy0]
        simp
      subst e
      rw [if_neg (by rw [xor_parity_same _ _ hpar.symm]; decide)]
    · have hne : (y.val : ZMod P256_p) ≠ 0 := by
        intro hz
        have := congrArg ZMod.val hz
        rw [val_cast_of_lt hy, ZMod.val_zero] at this
        exact hy0 this
      have e : yr.val = P256_p - y.val := by
        rw [hv, h, ZMod.neg_val, if_neg hne, val_cast_of_lt hy]
      have hd : yr.val % 2 ≠ par % 2 := by
        rw [e, hpar]
        exact parity_p_sub _ hy
      rw [if_pos (xor_parity_diff _ _ hd), e, sub_sub_mod_p _ (by omega) hy, ofNat_val]

end P256

namespace P256

open WeierstrassCurve

/-! ## Point decoding -/

theorem check_range_p_iff (a : U256) : P256_check_range_p a = true ↔ a.val < P256_p := by
  simp [P256_check_range_p]

theorem check_range_p_false_iff (a : U256) :
    P256_check_range_p a = false ↔ ¬ a.val < P256_p := by
  simp [P256_check_range_p]

/-- The decoder in closed form for inputs of at least 33 bytes: `X` and `Y` are the decoded
coordinates, `tag` the first byte and `dp` the result of the decompression. -/
theorem octet_string_to_point_eq (x0 y0 : U256) (input : List Byte) (len : Nat)
    (h : 33 ≤ len) (X Y : U256) (tag : Nat) (dp : Bool × U256)
    (hX : X = U256.ofBytes (p256_convert_endianness x0.toBytes (input.drop 1) 32))
    (hY : Y = U256.ofBytes (p256_convert_endianness y0.toBytes (input.drop 33) 32))
    (ht : tag = (input.getD 0 0).val)
    (hdp : dp = P256_decompress_point y0 X (tag &&& 1)) :
    p256_octet_string_to_point x0 y0 input len =
      if !P256_check_range_p X then (false, X, y0)
      else if (tag = 4 ∨ tag >>> 1 = 3) ∧ len = 65 then
        if !P256_check_range_p Y then (false, X, Y)
        else if tag >>> 1 = 3 ∧ tag &&& 1 ≠ Y.limb 0 &&& 1 then (false, X, Y)
        else (P256_point_is_on_curve (P256_to_montgomery X) (P256_to_montgomery Y), X, Y)
      else if tag >>> 1 = 1 ∧ len = 33 then (dp.1, X, dp.2)
      else (false, X, y0) := by
  rw [hdp]
  subst hX hY ht
  unfold p256_octet_string_to_point
  rw [if_neg (by omega)]

/-- C16. For an input of `input.length` bytes with first byte `tag`, `x` the big-endian value
of bytes 1..32 and `y` that of bytes 33..64, `p256_octet_string_to_point` returns true if and
only if either the length is 65, the tag is `04`, `06` or `07`, `x < p`, `y < p`, for tags
`06`/`07` the low bit of the tag equals the low bit of `y`, and `(x, y)` is on the curve; or
the length is 33, the tag is `02` or `03`, `x < p` and `x³ − 3x + b` is a square modulo `p`.
Every other input is rejected. -/
theorem octet_string_to_point_accepts_iff (x0 y0 : U256) (input : List Byte) :
    (p256_octet_string_to_point x0 y0 input input.length).1 = true ↔
      (input.length = 65 ∧
        ((input.getD 0 0).val = 4 ∨ (input.getD 0 0).val = 6 ∨ (input.getD 0 0).val = 7) ∧
        (be_decode (input.drop 1)).val < P256_p ∧ (be_decode (input.drop 33)).val < P256_p ∧
        ((input.getD 0 0).val = 6 ∨ (input.getD 0 0).val = 7 →
          (input.getD 0 0).val % 2 = (be_decode (input.drop 33)).val % 2) ∧
        on_curve (be_decode (input.drop 1)) (be_decode (input.drop 33))) ∨
      (input.length = 33 ∧ ((input.getD 0 0).val = 2 ∨ (input.getD 0 0).val = 3) ∧
        (be_decode (input.drop 1)).val < P256_p ∧
        IsSquare (((be_decode (input.drop 1)).val : ZMod P256_p) ^ 3 -
          3 * ((be_decode (input.drop 1)).val : ZMod P256_p) + (P256_b : ZMod P256_p))) := by
  by_cases h0 : input.length < 33
  · unfold p256_octet_string_to_point
    rw [if_pos h0]
    constructor
    · intro h
      exact absurd h (by simp)
    · rintro (⟨h, _⟩ | ⟨h, _⟩) <;> omega
  · obtain ⟨X, hX⟩ : ∃ X, X = U256.ofBytes (p256_convert_endianness x0.toBytes
      (input.drop 1) 32) := ⟨_, rfl⟩
    obtain ⟨Y, hY⟩ : ∃ Y, Y = U256.ofBytes (p256_convert_endianness y0.toBytes
      (input.drop 33) 32) := ⟨_, rfl⟩
    obtain ⟨tag, ht⟩ : ∃ t, t = (input.getD 0 0).val := ⟨_, rfl⟩
    obtain ⟨dp, hdp⟩ : ∃ r, r = P256_decompress_point y0 X (tag &&& 1) := ⟨_, rfl⟩
    rw [octet_string_to_point_eq x0 y0 input input.length (by omega) X Y tag dp hX hY ht hdp]
    have eX : be_decode (input.drop 1) = X := by
      rw [hX, ofBytes_convert _ _ (toBytes_length x0) (by rw [List.length_drop]; omega)]
    rw [eX, ← ht]
    have hdec : dp.1 = true ↔ IsSquare ((X.val : ZMod P256_p) ^ 3 -
        3 * (X.val : ZMod P256_p) + (P256_b : ZMod P256_p)) := by
      rw [hdp]
      exact decompress_true_iff y0 X (tag &&& 1)
    have hcx := check_range_p_iff X
    have hcxf := check_range_p_false_iff X
    clear hdp
    simp only [limb0_and_one]
    simp only [Nat.shiftRight_eq_div_pow, Nat.and_one_is_mod, pow_one]
    by_cases h65 : input.length = 65
    · have eY : be_decode (input.drop 33) = Y := by
        rw [hY, ofBytes_convert _ _ (toBytes_length y0) (by rw [List.length_drop]; omega)]
      rw [eY]
      have hon := on_curve_iff_check X Y
      clear hX hY eX eY ht
      generalize input.length = len at *
      subst h65
      by_cases hx : X.val < P256_p
      · rw [hcx.mpr hx]
        simp only [Bool.not_true, Bool.false_eq_true, if_false, true_and, and_true, hx]
        by_cases htag : tag = 4 ∨ tag / 2 = 3
        · rw [if_pos htag]
          by_cases hy : Y.val < P256_p
          · rw [(check_range_p_iff Y).mpr hy]
            simp only [Bool.not_true, Bool.false_eq_true, if_false, true_and, hy]
            by_cases hpar : tag / 2 = 3 ∧ tag % 2 ≠ Y.val % 2
            · rw [if_pos hpar]
              constructor
              · intro h
                exact absurd h (by simp)
              · rintro (⟨_, hp, _⟩ | ⟨h, _⟩)
                · have := hp (by omega)
                  omega
                · omega
            · rw [if_neg hpar]
              constructor
              · intro h
                exact Or.inl ⟨by omega, fun _ => by omega, hon.mpr h⟩
              · rintro (⟨_, _, h⟩ | ⟨h, _⟩)
                · exact hon.mp h
                · omega
          · rw [(check_range_p_false_iff Y).mpr hy]
            simp only [Bool.not_false, if_true, hy, false_and, and_false, false_or]
            constructor
            · intro h
              exact absurd h (by simp)
            · rintro ⟨h, _⟩
              omega
        · rw [if_neg htag, if_neg (by omega)]
          constructor
          · intro h
            exact absurd h (by simp)
          · rintro (⟨h, _⟩ | ⟨h, _⟩) <;> omega
      · rw [hcxf.mpr hx]
        simp only [Bool.not_false, if_true, hx, false_and, and_false, or_self]
        exact ⟨fun h => absurd h (by simp), fun h => h.elim⟩
    · clear hX hY eX ht
      generalize input.length = len at *
      by_cases hx : X.val < P256_p
      · rw [hcx.mpr hx]
        simp only [Bool.not_true, Bool.false_eq_true, if_false, true_and, and_true, hx, h65,
          false_and, and_false, false_or]
        by_cases h33 : tag / 2 = 1 ∧ len = 33
        · rw [if_pos h33]
          show dp.1 = true ↔ _
          rw [hdec]
          constructor
          · intro h
            exact ⟨h33.2, by omega, h⟩
          · rintro ⟨_, _, h⟩
            exact h
        · rw [if_neg h33]
          constructor
          · intro h
            exact absurd h (by simp)
          · rintro ⟨_, _, _⟩
            omega
      · rw [hcxf.mpr hx]
        simp only [Bool.not_false, if_true, hx, false_and, and_false, or_self]
        exact ⟨fun h => absurd h (by simp), fun h => h.elim⟩

/-! ## Decoding an encoded point -/

theorem decode_coords (x0 y0 x y : U256) (t : Byte) :
    x = U256.ofBytes (p256_convert_endianness x0.toBytes
      ((t :: (be_encode x ++ be_encode y)).drop 1) 32) ∧
    y = U256.ofBytes (p256_convert_endianness y0.toBytes
      ((t :: (be_encode x ++ be_encode y)).drop 33) 32) := by
  constructor
  · rw [List.drop_succ_cons, List.drop_zero,
      ofBytes_convert _ _ (toBytes_length x0) (by simp [be_encode_length]),
      be_decode_be_encode]
  · have hd : (t :: (be_encode x ++ be_encode y)).drop 33 = be_encode y ++ [] := by
      rw [List.append_nil, List.drop_succ_cons, List.drop_left' (be_encode_length x)]
    rw [hd, ofBytes_convert _ _ (toBytes_length y0) (by simp [be_encode_length]),
      be_decode_be_encode]

theorem decode_xy (x0 y0 x y : U256) (t : Byte) (hx : x.val < P256_p) (hy : y.val < P256_p)
    (hc : on_curve x y) (ht : t.val = 4 ∨ (t.val / 2 = 3 ∧ t.val % 2 = y.val % 2)) :
    p256_octet_string_to_point x0 y0 (t :: (be_encode x ++ be_encode y)) 65 = (true, x, y) := by
  obtain ⟨hX, hY⟩ := decode_coords x0 y0 x y t
  obtain ⟨dp, hdp⟩ : ∃ r, r = P256_decompress_point y0 x (t.val &&& 1) := ⟨_, rfl⟩
  rw [octet_string_to_point_eq x0 y0 _ 65 (by omega) x y t.val dp hX hY rfl hdp,
    (check_range_p_iff x).mpr hx, (check_range_p_iff y).mpr hy,
    (on_curve_iff_check x y).mp hc]
  simp only [limb0_and_one]
  simp only [Nat.shiftRight_eq_div_pow, Nat.and_one_is_mod, pow_one, Bool.not_true,
    Bool.false_eq_true, if_false, and_true]
  rw [if_pos (by omega), if_neg (by omega)]

theorem decode_x (x0 y0 x y : U256) (t : Byte) (hx : x.val < P256_p) (hy : y.val < P256_p)
    (hc : on_curve x y) (ht : t.val / 2 = 1 ∧ t.val % 2 = y.val % 2) :
    p256_octet_string_to_point x0 y0 (t :: be_encode x) 33 = (true, x, y) := by
  have hX : x = U256.ofBytes (p256_convert_endianness x0.toBytes
      ((t :: be_encode x).drop 1) 32) := by
    have hd : (t :: be_encode x).drop 1 = be_encode x ++ [] := by
      rw [List.append_nil, List.drop_succ_cons, List.drop_zero]
    rw [hd, ofBytes_convert _ _ (toBytes_length x0) (by simp [be_encode_length]),
      be_decode_be_encode]
  have hdp : ((true, y) : Bool × U256) = P256_decompress_point y0 x (t.val &&& 1) := by
    rw [decompress_recover y0 x y (t.val &&& 1) hy hc
      (by rw [Nat.and_one_is_mod, Nat.mod_mod]; exact ht.2)]
  rw [octet_string_to_point_eq x0 y0 _ 33 (by omega) x _ t.val (true, y) hX rfl rfl hdp,
    (check_range_p_iff x).mpr hx]
  simp only [Nat.shiftRight_eq_div_pow, pow_one, Bool.not_true,
    Bool.false_eq_true, if_false, and_true]
  rw [if_neg (by omega), if_pos (by omega)]

theorem parity_tag_val (y : U256) (a b : Byte) :
    (if y.val % 2 = 0 then a else b).val = if y.val % 2 = 0 then a.val else b.val := by
  split_ifs <;> rfl

/-- C15. Encoding round-trip: for every point `(x, y)` on the curve with `x, y < p`, decoding
the output of the uncompressed, the hybrid (65 bytes) or the compressed (33 bytes) encoder
with `p256_octet_string_to_point` returns true and yields exactly `(x, y)`; for the
compressed form the decompressed square root with the encoded parity is the original `y`. -/
theorem octet_string_round_trip (x y x0 y0 : U256) (out65 out33 : List Byte)
    (h65 : out65.length = 65) (h33 : out33.length = 33)
    (hx : x.val < P256_p) (hy : y.val < P256_p) (hc : on_curve x y) :
    p256_octet_string_to_point x0 y0 (p256_point_to_octet_string_uncompressed out65 x y) 65 =
      (true, x, y) ∧
    p256_octet_string_to_point x0 y0 (p256_point_to_octet_string_hybrid out65 x y) 65 =
      (true, x, y) ∧
    p256_octet_string_to_point x0 y0 (p256_point_to_octet_string_compressed out33 x y) 33 =
      (true, x, y) := by
  rw [uncompressed_eq out65 x y h65, hybrid_eq out65 x y h65, compressed_eq out33 x y h33]
  refine ⟨decode_xy x0 y0 x y 4 hx hy hc (Or.inl rfl), decode_xy x0 y0 x y _ hx hy hc ?_,
    decode_x x0 y0 x y _ hx hy hc ?_⟩
  · right
    rw [parity_tag_val]
    rcases Nat.mod_two_eq_zero_or_one y.val with h | h
    · rw [if_pos h, h]
      exact ⟨rfl, rfl⟩
    · rw [if_neg (by omega), h]
      exact ⟨rfl, rfl⟩
  · rw [parity_tag_val]
    rcases Nat.mod_two_eq_zero_or_one y.val with h | h
    · rw [if_pos h, h]
      exact ⟨rfl, rfl⟩
    · rw [if_neg (by omega), h]
      exact ⟨rfl, rfl⟩

/-- Witness for C15: the public key of RFC 6979 A.2.5 (scenarios S1 and S5) is on the curve,
its compressed encoding starts with the tag `03`, and the three encodings decode to it. -/
theorem octet_string_round_trip_witness :
    (p256_point_to_octet_string_compressed (List.replicate 33 0)
      (U256.ofNat 0x60FED4BA255A9D31C961EB74C6356D68C049B8923B61FA6CE669622E60F29FB6)
      (U256.ofNat 0x7903FE1008B8BC99A41AE9E95628BC64F2F1B20C2D7E9F5177A3C294D4462299)).getD
        0 0 = 3 ∧
    p256_octet_string_to_point U256.zero U256.zero
      (p256_point_to_octet_string_compressed (List.replicate 33 0)
        (U256.ofNat 0x60FED4BA255A9D31C961EB74C6356D68C049B8923B61FA6CE669622E60F29FB6)
        (U256.ofNat 0x7903FE1008B8BC99A41AE9E95628BC64F2F1B20C2D7E9F5177A3C294D4462299)) 33 =
      (true, U256.ofNat 0x60FED4BA255A9D31C961EB74C6356D68C049B8923B61FA6CE669622E60F29FB6,
        U256.ofNat 0x7903FE1008B8BC99A41AE9E95628BC64F2F1B20C2D7E9F5177A3C294D4462299) :=
  ⟨by decide!, (octet_string_round_trip _ _ U256.zero U256.zero (List.replicate 65 0)
    (List.replicate 33 0) (by decide) (by decide) (by decide!) (by decide!)
    ((on_curve_iff_check _ _).mpr (by decide!))).2.2⟩

end P256

namespace P256

open WeierstrassCurve

/-! ## The cubic `x³ − 3x + b` has no root modulo `p` -/

theorem cast_p_sub_b : ((P256_p - P256_b : Nat) : ZMod P256_p) = -(P256_b : ZMod P256_p) := by
  have h := natCast_p_sub_mod P256_b
  rw [Nat.mod_eq_of_lt (by decide!)] at h
  exact h

theorem cubic_eval_mul (r : ZMod P256_p) (hf : r ^ 3 - 3 * r + (P256_b : ZMod P256_p) = 0)
    (a c : Nat × Nat × Nat) :
    cubic_eval (cubic_mul a c) r = cubic_eval a r * cubic_eval c r := by
  unfold cubic_eval cubic_mul
  simp only [ZMod.natCast_mod]
  have hq := cast_p_sub_b
  generalize P256_p - P256_b = q at hq ⊢
  push_cast
  rw [hq]
  linear_combination (-((a.2.1 : ZMod P256_p) * c.2.2 + a.2.2 * c.2.1 + a.2.2 * c.2.2 * r)) * hf

theorem cubic_eval_pow (r : ZMod P256_p) (hf : r ^ 3 - 3 * r + (P256_b : ZMod P256_p) = 0) :
    ∀ (fuel e : Nat), e < 2 ^ fuel → cubic_eval (cubic_pow_x fuel e) r = r ^ e
  | 0, e, h => by
    have he : e = 0 := by simpa using h
    subst he
    simp [cubic_pow_x, cubic_eval]
  | fuel + 1, e, h => by
    have h2 : e / 2 < 2 ^ fuel := by
      rw [Nat.div_lt_iff_lt_mul (by norm_num)]
      rw [pow_succ] at h
      exact h
    have ih := cubic_eval_pow r hf fuel (e / 2) h2
    have hx : cubic_eval (0, 1, 0) r = r := by simp [cubic_eval]
    simp only [cubic_pow_x]
    by_cases hodd : e % 2 = 1
    · rw [if_pos hodd, cubic_eval_mul r hf, cubic_eval_mul r hf, ih, hx]
      conv_rhs => rw [← Nat.div_add_mod e 2, hodd]
      ring
    · rw [if_neg hodd, cubic_eval_mul r hf, ih]
      have : e % 2 = 0 := by omega
      conv_rhs => rw [← Nat.div_add_mod e 2, this]
      ring

/-- The residue of `x^p` modulo the cubic. -/
theorem cubic_pow_p : cubic_pow_x 256 P256_p =
    (66434390973925144466073271287821796038003695194169110494110089305650096453661,
      12402202686218762177567235911775779164004716598278868847786114277539554646092,
      24678849118215552148312087830792888746041224110560601850711771001608500700145) := by
  decide!

theorem cast_p_literal :
    (115792089210356248762697446949407573530086143415290314195533631308867097853951 : ZMod P256_p) = 0 := by
  have h : ((115792089210356248762697446949407573530086143415290314195533631308867097853951 : Nat) : ZMod P256_p) = 0 := by
    rw [ZMod.natCast_zmod_eq_zero_iff_dvd]
    decide!
  exact_mod_cast h

theorem cast_b_literal : (P256_b : ZMod P256_p) =
    (41058363725152142129326129780047268409114441015993725554835256314039467401291 : ZMod P256_p) := by
  unfold P256_b
  norm_num

/-- The curve has no point with `y = 0`: `x³ − 3x + b` has no root modulo `p`, because
`gcd(x^p − x, x³ − 3x + b) = 1`. -/
theorem cubic_no_root (r : ZMod P256_p) : r ^ 3 - 3 * r + (P256_b : ZMod P256_p) ≠ 0 := by
  intro hf
  have hpow := cubic_eval_pow r hf 256 P256_p P256_p_lt
  rw [cubic_pow_p, ZMod.pow_card] at hpow
  unfold cubic_eval at hpow
  simp only [Nat.cast_ofNat] at hpow
  rw [cast_b_literal] at hf
  have hp := cast_p_literal
  have h1 : (1 : ZMod P256_p) = 0 := by
    linear_combination
      (107286402702237026811154678719514266289498743974321057492273529440068429825344 +
      6389611969556882025875921584714237703390037729321797349080302270353162149340 * r) * hf +
      (76626890310466861426869089647039036757962535851890885406097439786770458211455 +
      74462945259064871768191128030512052509059297803194871526163573358218695456204 * r +
      34768139465301476436978405170953382516735956999154666452188405812258086013549 * r ^ 2) * hpow -
      (82006162939704079939581181709976996092266308199183309578158969013154857761758 +
      53195254508055917545569285545031260419374692918778229085754047757622876704507 * r +
      44254907305889426083372809061327589531002087792042969636720392495218289272808 * r ^ 2 +
      19594268650736750401918991328041959909110035062448741686819397381038349806533 * r ^ 3 +
      7410157929066101016865484023617449031630549387091645260359016622210978818695 * r ^ 4) * hp
  exact one_ne_zero h1

end P256

namespace P256

open WeierstrassCurve

/-! ## The group of the curve has `n` elements -/

theorem two_ne_zero_p : (2 : ZMod P256_p) ≠ 0 := by
  have h : ((2 : Nat) : ZMod P256_p) ≠ 0 := by
    rw [Ne, ZMod.natCast_zmod_eq_zero_iff_dvd]
    decide!
  exact_mod_cast h

theorem nonsingular_equation {x y : ZMod P256_p} (h : P256_curve.toAffine.Nonsingular x y) :
    y ^ 2 = x ^ 3 - 3 * x + (P256_b : ZMod P256_p) := by
  have e := (Affine.equation_iff _ x y).mp h.1
  simp only [curve_a₁, curve_a₂, curve_a₃, curve_a₄, curve_a₆] at e
  linear_combination e

theorem nonsingular_y_ne_zero {x y : ZMod P256_p} (h : P256_curve.toAffine.Nonsingular x y) :
    y ≠ 0 := by
  intro hy
  have e := nonsingular_equation h
  rw [hy] at e
  exact cubic_no_root x (by linear_combination -e)

/-- No point of the curve has order two. -/
theorem no_two_torsion (Q : P256_curve.toAffine.Point) (hQ : Q ≠ 0) : Q + Q ≠ 0 := by
  intro h2
  have hneg : Q = -Q := eq_neg_of_add_eq_zero_left h2
  cases Q with
  | zero => exact hQ rfl
  | some h =>
    rename_i x y
    rw [Affine.Point.neg_some] at hneg
    injection hneg with _ ey
    have hy : y = -y := by
      have e2 : P256_curve.toAffine.negY x y = -y := by
        rw [Affine.negY]
        show -y - P256_curve.a₁ * x - P256_curve.a₃ = -y
        rw [curve_a₁, curve_a₃]
        ring
      rw [e2] at ey
      exact ey
    have h2y : 2 * y = 0 := by linear_combination hy
    rcases mul_eq_zero.mp h2y with h0 | h0
    · exact two_ne_zero_p h0
    · exact nonsingular_y_ne_zero h h0

theorem half_bit_neg {y : ZMod P256_p} (hy : y ≠ 0)
    (h : decide (y.val ≤ P256_p / 2) = decide ((-y).val ≤ P256_p / 2)) : False := by
  rw [ZMod.neg_val, if_neg hy] at h
  have hlt := ZMod.val_lt y
  have hpos : 0 < y.val := Nat.pos_of_ne_zero (fun e => hy ((ZMod.val_eq_zero y).mp e))
  have hodd := P256_p_odd
  generalize y.val = v at h hlt hpos
  clear hy y
  generalize P256_p = p at h hlt hodd
  by_cases h1 : v ≤ p / 2
  · have h2 : ¬ (p - v ≤ p / 2) := by omega
    rw [decide_eq_true h1, decide_eq_false h2] at h
    exact Bool.noConfusion h
  · have h2 : p - v ≤ p / 2 := by omega
    rw [decide_eq_false h1, decide_eq_true h2] at h
    exact Bool.noConfusion h

theorem point_code_injective : Function.Injective point_code := by
  intro P Q h
  cases P with
  | zero =>
    cases Q with
    | zero => rfl
    | some hq => exact Option.noConfusion h
  | some hp =>
    cases Q with
    | zero => exact Option.noConfusion h
    | some hq =>
      rename_i x1 y1 x2 y2
      have h2 : (x1, decide (y1.val ≤ P256_p / 2)) = (x2, decide (y2.val ≤ P256_p / 2)) :=
        Option.some.inj h
      have hx : x1 = x2 := (Prod.mk.inj h2).1
      have hb := (Prod.mk.inj h2).2
      subst hx
      have e1 := nonsingular_equation hp
      have e2 := nonsingular_equation hq
      have hsq : y1 ^ 2 = y2 ^ 2 := by rw [e1, e2]
      rcases sq_eq_sq_iff_eq_or_eq_neg.mp hsq with hy | hy
      · subst hy
        rfl
      · exfalso
        rw [hy] at hb
        exact half_bit_neg (nonsingular_y_ne_zero hq) hb.symm

theorem point_finite : Finite P256_curve.toAffine.Point :=
  Finite.of_injective point_code point_code_injective

theorem point_card_le : Nat.card P256_curve.toAffine.Point ≤ 2 * P256_p + 1 := by
  have h := Nat.card_le_card_of_injective point_code point_code_injective
  have hc : Nat.card (Option (ZMod P256_p × Bool)) = 2 * P256_p + 1 := by
    rw [Nat.card_eq_fintype_card, Fintype.card_option, Fintype.card_prod, ZMod.card,
      Fintype.card_bool, mul_comm]
  rw [hc] at h
  exact h

theorem card_bound_fact : 2 * P256_p + 1 < 3 * P256_order := by decide!

/-- The group of the curve has exactly `n` elements. -/
theorem point_card : Nat.card P256_curve.toAffine.Point = P256_order := by
  haveI := point_finite
  obtain ⟨G, hG⟩ := G_exists
  have hdvd : P256_order ∣ Nat.card P256_curve.toAffine.Point := by
    rw [← addOrderOf_G hG]
    exact addOrderOf_dvd_natCard G
  obtain ⟨k, hk⟩ := hdvd
  have hpos : 0 < Nat.card P256_curve.toAffine.Point := Nat.card_pos
  have hle := point_card_le
  have hb := card_bound_fact
  have hn := P256_order_pos
  rw [hk] at hpos hle
  have hk3 : k < 3 := by
    by_contra hc
    have h3 : 3 ≤ k := Nat.le_of_not_lt hc
    have := Nat.mul_le_mul_left P256_order h3
    rw [mul_comm P256_order 3] at this
    omega
  have hk0 : k ≠ 0 := by
    intro h0
    rw [h0, Nat.mul_zero] at hpos
    exact Nat.lt_irrefl 0 hpos
  have hk2 : k ≠ 2 := by
    intro h2
    haveI : Fact (Nat.Prime 2) := ⟨Nat.prime_two⟩
    have hd2 : 2 ∣ Nat.card P256_curve.toAffine.Point := ⟨P256_order, by rw [hk, h2, mul_comm]⟩
    obtain ⟨Q, hQ⟩ := exists_prime_addOrderOf_dvd_card' 2 hd2
    have hne : Q ≠ 0 := by
      intro h0
      rw [h0, addOrderOf_zero] at hQ
      exact absurd hQ (by decide)
    have h2Q : 2 • Q = 0 := by
      rw [← hQ]
      exact addOrderOf_nsmul_eq_zero Q
    rw [two_nsmul] at h2Q
    exact no_two_torsion Q hne h2Q
  have hk1 : k = 1 := by omega
  rw [hk, hk1, Nat.mul_one]

/-- Every point of the curve is annihilated by `n`. -/
theorem order_smul_point (Q : P256_curve.toAffine.Point) : P256_order • Q = 0 := by
  haveI := point_finite
  rw [← point_card]
  exact card_nsmul_eq_zero'

/-- A finite point of the curve multiplied by a scalar in `[1, n)` is not the point at
infinity. -/
theorem smul_point_ne_zero (Q : P256_curve.toAffine.Point) (hQ : Q ≠ 0) (d : Nat)
    (h1 : 1 ≤ d) (h2 : d < P256_order) : d • Q ≠ 0 := by
  haveI : Fact (Nat.Prime P256_order) := ⟨P256_order_prime⟩
  have ho : addOrderOf Q = P256_order := addOrderOf_eq_prime (order_smul_point Q) hQ
  intro h
  have hd := addOrderOf_dvd_of_nsmul_eq_zero h
  rw [ho] at hd
  have := Nat.le_of_dvd (by omega) hd
  omega

end P256

namespace P256

open WeierstrassCurve

/-! ## Scalar multiplication by an arbitrary point -/

theorem no_scalar_check_eq (ox oy d x y : U256) (hx : P256_check_range_p x = true)
    (hy : P256_check_range_p y = true)
    (hc : P256_point_is_on_curve (P256_to_montgomery x) (P256_to_montgomery y) = true) :
    p256_scalarmult_generic_no_scalar_check ox oy d x y =
      (true, (scalarmult_variable_base (P256_to_montgomery x) (P256_to_montgomery y) d).1,
        (scalarmult_variable_base (P256_to_montgomery x) (P256_to_montgomery y) d).2) := by
  unfold p256_scalarmult_generic_no_scalar_check
  rw [hx, hy]
  simp only [Bool.not_true, Bool.or_self, Bool.false_eq_true, if_false, hc]

theorem valid_point_iff (x y : U256) :
    (P256_check_range_p x && P256_check_range_p y &&
      P256_point_is_on_curve (P256_to_montgomery x) (P256_to_montgomery y)) = true ↔
      x.val < P256_p ∧ y.val < P256_p ∧ on_curve x y := by
  rw [Bool.and_eq_true, Bool.and_eq_true, check_range_p_iff, check_range_p_iff,
    ← on_curve_iff_check, and_assoc]

/-- The variable-base ladder on a valid input point: the output is the Montgomery form of the
affine coordinates of `d·P`. -/
theorem variable_base_IsAffine {x y : U256} {P : P256_curve.toAffine.Point}
    (hP : IsAffine x y P) (d : U256) (h1 : 1 ≤ d.val) (h2 : d.val < P256_order) :
    IsAffine
      (P256_from_montgomery
        (scalarmult_variable_base (P256_to_montgomery x) (P256_to_montgomery y) d).1)
      (P256_from_montgomery
        (scalarmult_variable_base (P256_to_montgomery x) (P256_to_montgomery y) d).2)
      (d.val • P) := by
  have hA := ARep_of_IsAffine hP
  exact IsAffine_of_ARep (scalarmult_variable_base_spec hA (order_smul_point P) d h1 h2
    (smul_point_ne_zero P (ARep_ne_zero hA) d.val h1 h2))

theorem p256_scalarmult_generic_fst (rx ry d x y : U256) :
    (p256_scalarmult_generic rx ry d x y).1 =
      (P256_check_range_n d && (P256_check_range_p x && P256_check_range_p y &&
        P256_point_is_on_curve (P256_to_montgomery x) (P256_to_montgomery y))) := by
  rw [← no_scalar_check_fst rx ry d x y]
  unfold p256_scalarmult_generic
  generalize p256_scalarmult_generic_no_scalar_check rx ry d x y = res
  cases P256_check_range_n d <;> cases h : res.1 <;> simp [h]

theorem p256_scalarmult_generic_eq (rx ry d x y : U256) (hd : P256_check_range_n d = true)
    (hx : P256_check_range_p x = true) (hy : P256_check_range_p y = true)
    (hc : P256_point_is_on_curve (P256_to_montgomery x) (P256_to_montgomery y) = true) :
    p256_scalarmult_generic rx ry d x y =
      (true,
        P256_from_montgomery
          (scalarmult_variable_base (P256_to_montgomery x) (P256_to_montgomery y) d).1,
        P256_from_montgomery
          (scalarmult_variable_base (P256_to_montgomery x) (P256_to_montgomery y) d).2) := by
  unfold p256_scalarmult_generic
  rw [no_scalar_check_eq rx ry d x y hx hy hc, hd]
  rfl

theorem p256_ecdh_eq (ss : List Byte) (d x y : U256)
    (hx : P256_check_range_p x = true) (hy : P256_check_range_p y = true)
    (hc : P256_point_is_on_curve (P256_to_montgomery x) (P256_to_montgomery y) = true) :
    p256_ecdh_calc_shared_secret ss d x y =
      (true, p256_convert_endianness ss (P256_from_montgomery
        (scalarmult_variable_base (P256_to_montgomery x) (P256_to_montgomery y) d).1).toBytes
        32) := by
  unfold p256_ecdh_calc_shared_secret
  rw [no_scalar_check_eq default default d x y hx hy hc]
  rfl

/-- C13. `p256_scalarmult_generic` returns true if and only if `1 ≤ d < n`, `in_x < p`,
`in_y < p` and `(in_x, in_y)` is on the curve; and whenever it returns true, the outputs are
the canonical non-Montgomery affine coordinates of `d·P`, where `P` is the input point (for
every such `d`, `d = 2` and `d = n − 2` included). -/
theorem p256_scalarmult_generic_correct (result_x result_y d in_x in_y : U256) :
    ((p256_scalarmult_generic result_x result_y d in_x in_y).1 = true ↔
      (1 ≤ d.val ∧ d.val < P256_order) ∧ in_x.val < P256_p ∧ in_y.val < P256_p ∧
        on_curve in_x in_y) ∧
    ((p256_scalarmult_generic result_x result_y d in_x in_y).1 = true →
      ∃ P : P256_curve.toAffine.Point, IsAffine in_x in_y P ∧
        IsAffine (p256_scalarmult_generic result_x result_y d in_x in_y).2.1
          (p256_scalarmult_generic result_x result_y d in_x in_y).2.2 (d.val • P)) := by
  have hiff : (p256_scalarmult_generic result_x result_y d in_x in_y).1 = true ↔
      (1 ≤ d.val ∧ d.val < P256_order) ∧ in_x.val < P256_p ∧ in_y.val < P256_p ∧
        on_curve in_x in_y := by
    rw [p256_scalarmult_generic_fst, Bool.and_eq_true, check_range_n_iff, valid_point_iff]
  refine ⟨hiff, fun h => ?_⟩
  obtain ⟨⟨h1, h2⟩, hx, hy, hc⟩ := hiff.mp h
  obtain ⟨P, hP⟩ := IsAffine_of_on_curve hx hy hc
  refine ⟨P, hP, ?_⟩
  obtain ⟨pr, hpr⟩ : ∃ r, r = scalarmult_variable_base (P256_to_montgomery in_x)
    (P256_to_montgomery in_y) d := ⟨_, rfl⟩
  have haff := variable_base_IsAffine hP d h1 h2
  have heq := p256_scalarmult_generic_eq result_x result_y d in_x in_y
    (check_range_n_eq_true h1 h2) ((check_range_p_iff _).mpr hx)
    ((check_range_p_iff _).mpr hy) ((on_curve_iff_check _ _).mp hc)
  rw [← hpr] at haff heq
  rw [heq]
  exact haff

/-- C11. For every private key `d` in `[1, n)` and peer point `(Qx, Qy)`,
`p256_ecdh_calc_shared_secret` returns true if and only if `Qx < p`, `Qy < p` and `(Qx, Qy)`
lies on the curve; and when it returns true, `shared_secret` is the 32-byte big-endian
encoding of the (non-Montgomery) affine `x` coordinate of `d·Q`. -/
theorem p256_ecdh_correct (shared_secret : List Byte) (hss : shared_secret.length = 32)
    (d Qx Qy : U256) (h1 : 1 ≤ d.val) (h2 : d.val < P256_order) :
    ((p256_ecdh_calc_shared_secret shared_secret d Qx Qy).1 = true ↔
      Qx.val < P256_p ∧ Qy.val < P256_p ∧ on_curve Qx Qy) ∧
    ((p256_ecdh_calc_shared_secret shared_secret d Qx Qy).1 = true →
      ∃ (Q : P256_curve.toAffine.Point) (X Y : U256), IsAffine Qx Qy Q ∧
        IsAffine X Y (d.val • Q) ∧
        (p256_ecdh_calc_shared_secret shared_secret d Qx Qy).2 = be_encode X) := by
  have hiff : (p256_ecdh_calc_shared_secret shared_secret d Qx Qy).1 = true ↔
      Qx.val < P256_p ∧ Qy.val < P256_p ∧ on_curve Qx Qy := by
    rw [p256_ecdh_fst, valid_point_iff]
  refine ⟨hiff, fun h => ?_⟩
  obtain ⟨hx, hy, hc⟩ := hiff.mp h
  obtain ⟨Q, hQ⟩ := IsAffine_of_on_curve hx hy hc
  obtain ⟨pr, hpr⟩ : ∃ r, r = scalarmult_variable_base (P256_to_montgomery Qx)
    (P256_to_montgomery Qy) d := ⟨_, rfl⟩
  have haff := variable_base_IsAffine hQ d h1 h2
  have heq := p256_ecdh_eq shared_secret d Qx Qy ((check_range_p_iff _).mpr hx)
    ((check_range_p_iff _).mpr hy) ((on_curve_iff_check _ _).mp hc)
  rw [← hpr] at haff heq
  refine ⟨Q, P256_from_montgomery pr.1, P256_from_montgomery pr.2, hQ, haff, ?_⟩
  have hconv : p256_convert_endianness shared_secret (P256_from_montgomery pr.1).toBytes 32 =
      be_encode (P256_from_montgomery pr.1) := by
    rw [convert_endianness_toBytes _ _ (le_of_eq hss.symm),
      List.drop_of_length_le (le_of_eq hss), List.append_nil]
  rw [heq]
  exact Eq.trans (by with_reducible rfl) hconv

/-- Witness for C11: the private key 2 with the base point as the peer's public key. -/
theorem p256_ecdh_correct_witness :
    (p256_ecdh_calc_shared_secret (List.replicate 32 0) (U256.ofNat 2) G_x G_y).1 = true ∧
    ∃ (Q : P256_curve.toAffine.Point) (X Y : U256), IsAffine G_x G_y Q ∧
      IsAffine X Y ((U256.ofNat 2).val • Q) ∧
      (p256_ecdh_calc_shared_secret (List.replicate 32 0) (U256.ofNat 2) G_x G_y).2 =
        be_encode X :=
  ⟨by decide!, (p256_ecdh_correct (List.replicate 32 0) (by decide) (U256.ofNat 2) G_x G_y
    (by decide!) (by decide!)).2 (by decide!)⟩

/-- Witness for C13: the scalar `n − 2` with the base point as input point. -/
theorem p256_scalarmult_generic_correct_witness :
    (p256_scalarmult_generic U256.zero U256.zero (U256.ofNat (P256_order - 2)) G_x G_y).1 =
      true ∧
    ∃ P : P256_curve.toAffine.Point, IsAffine G_x G_y P ∧
      IsAffine
        (p256_scalarmult_generic U256.zero U256.zero (U256.ofNat (P256_order - 2)) G_x G_y).2.1
        (p256_scalarmult_generic U256.zero U256.zero (U256.ofNat (P256_order - 2)) G_x G_y).2.2
        ((U256.ofNat (P256_order - 2)).val • P) :=
  ⟨by decide!, (p256_scalarmult_generic_correct U256.zero U256.zero
    (U256.ofNat (P256_order - 2)) G_x G_y).2 (by decide!)⟩

end P256

namespace P256

open WeierstrassCurve

/-! ## The table of odd multiples of the base point used by the verification -/

set_option maxRecDepth 100000 in
theorem basepoint_precomp_entries_ok : ∀ i, i < 8 → basepoint_precomp_ok i = true := by
  decide!

theorem basepoint_precomp_spec {G : P256_curve.toAffine.Point} (hG : ARep G_mont.x G_mont.y G)
    (i : Nat) (hi : i < 8) :
    ARep (p256_basepoint_precomp.getD i default).x (p256_basepoint_precomp.getD i default).y
      ((2 * i + 1) • G) := by
  have hok := basepoint_precomp_entries_ok i hi
  unfold basepoint_precomp_ok at hok
  simp only [Bool.and_eq_true, decide_eq_true_eq] at hok
  obtain ⟨⟨hx, hy⟩, hsame⟩ := hok
  have hlt : 2 * i + 1 < 2 ^ 256 := by
    have : (16 : Nat) < 2 ^ 256 := by norm_num
    omega
  exact ARep_of_sameAffine (JRep_smulJ (JRep_of_ARep hG) 256 _ hlt) hx hy hsame

theorem val_to_montgomery (a : U256) : (P256_to_montgomery a).val = a.val * 2 ^ 256 % P256_p := by
  unfold P256_to_montgomery
  exact U256.val_ofNat_mod_p _

/-- C30. The verify base table is correct: for every `i` in `0..7`,
`p256_basepoint_precomp[i]` holds `(x·2^256 mod p, y·2^256 mod p)` where `(x, y)` are the
affine coordinates of `(2i+1)·G` for the base point `G = (G_x, G_y)`; every stored
coordinate is below `p`. -/
theorem basepoint_precomp_correct (G : P256_curve.toAffine.Point) (hG : IsAffine G_x G_y G)
    (i : Nat) (hi : i < 8) :
    ∃ x y : U256, IsAffine x y ((2 * i + 1) • G) ∧
      (p256_basepoint_precomp.getD i default).x.val = x.val * 2 ^ 256 % P256_p ∧
      (p256_basepoint_precomp.getD i default).y.val = y.val * 2 ^ 256 % P256_p ∧
      (p256_basepoint_precomp.getD i default).x.val < P256_p ∧
      (p256_basepoint_precomp.getD i default).y.val < P256_p := by
  have h := basepoint_precomp_spec (G_ARep_of_IsAffine hG) i hi
  refine ⟨P256_from_montgomery (p256_basepoint_precomp.getD i default).x,
    P256_from_montgomery (p256_basepoint_precomp.getD i default).y, IsAffine_of_ARep h,
    ?_, ?_, h.1, h.2.1⟩
  · rw [← val_to_montgomery, to_from_montgomery _ h.1]
  · rw [← val_to_montgomery, to_from_montgomery _ h.2.1]

/-- Witness for C30: the last entry of the table, `15·G`. -/
theorem basepoint_precomp_correct_witness :
    ∃ x y : U256, IsAffine x y ((2 * 7 + 1) • (Affine.Point.some G_nonsingular)) ∧
      (p256_basepoint_precomp.getD 7 default).x.val = x.val * 2 ^ 256 % P256_p ∧
      (p256_basepoint_precomp.getD 7 default).y.val = y.val * 2 ^ 256 % P256_p ∧
      (p256_basepoint_precomp.getD 7 default).x.val < P256_p ∧
      (p256_basepoint_precomp.getD 7 default).y.val < P256_p :=
  basepoint_precomp_correct _ G_IsAffine 7 (by decide)

/-! ## The recoding of the variable-base ladder -/

/-- C26. Variable-base recoding: for every scalar in `[1, n)` the odd-making step yields
`scalar2` (the scalar if it is odd, `n - scalar` if it is even) that is odd and in `[1, n)`;
and for every odd 256-bit `scalar2` the 64 digits computed by the recoding loop satisfy
`e[0] + 16·e[1] + ... + 16^63·e[63] = scalar2`, every `e[i]` is odd with
`-15 ≤ e[i] ≤ 15`, and `e[63] ≥ 1`. -/
theorem variable_base_recoding :
    (∀ scalar : U256, 1 ≤ scalar.val → scalar.val < P256_order →
      (P256_negate_mod_n_if scalar ((scalar.limb 0 &&& 1) ^^^ 1)).val =
        (if scalar.val % 2 = 1 then scalar.val else P256_order - scalar.val) ∧
      (P256_negate_mod_n_if scalar ((scalar.limb 0 &&& 1) ^^^ 1)).val % 2 = 1 ∧
      1 ≤ (P256_negate_mod_n_if scalar ((scalar.limb 0 &&& 1) ^^^ 1)).val ∧
      (P256_negate_mod_n_if scalar ((scalar.limb 0 &&& 1) ^^^ 1)).val < P256_order) ∧
    (∀ scalar2 : U256, scalar2.val % 2 = 1 →
      (scalarmult_variable_base_recode scalar2).length = 64 ∧
      digitSum (scalarmult_variable_base_recode scalar2) = (scalar2.val : Int) ∧
      (∀ i, i < 64 → (scalarmult_variable_base_recode scalar2).getD i 0 % 2 = 1 ∧
        -15 ≤ (scalarmult_variable_base_recode scalar2).getD i 0 ∧
        (scalarmult_variable_base_recode scalar2).getD i 0 ≤ 15) ∧
      1 ≤ (scalarmult_variable_base_recode scalar2).getD 63 0) := by
  constructor
  · intro scalar h1 h2
    obtain ⟨ho, hl, hu, hc⟩ := odd_scalar scalar h1 h2
    refine ⟨?_, ho, hl, hu⟩
    have hx : ((scalar.limb 0 &&& 1) ^^^ 1) % 2 = 1 ↔ ¬ scalar.val % 2 = 1 := by
      rw [limb0_and_one]
      rcases Nat.mod_two_eq_zero_or_one scalar.val with h | h <;> rw [h] <;> decide
    rcases hc with ⟨hf, hv⟩ | ⟨hf, hv⟩
    · rw [hv, if_neg (hx.mp hf)]
    · have : scalar.val % 2 = 1 := by
        by_contra hn
        exact hf (hx.mpr hn)
      rw [hv, if_pos this]
  · intro scalar2 hodd
    obtain ⟨hlen, hdig, h63, hsum⟩ := recode_spec scalar2 hodd
    exact ⟨hlen, hsum, hdig, h63⟩

/-- Witness for C26: the scalar 2 becomes `n - 2`, whose lowest digit is `-1`. -/
theorem variable_base_recoding_witness :
    (P256_negate_mod_n_if (U256.ofNat 2) (((U256.ofNat 2).limb 0 &&& 1) ^^^ 1)).val =
      P256_order - 2 ∧
    digitSum (scalarmult_variable_base_recode (U256.ofNat (P256_order - 2))) =
      ((U256.ofNat (P256_order - 2)).val : Int) ∧
    (scalarmult_variable_base_recode (U256.ofNat (P256_order - 2))).getD 0 0 = -1 :=
  ⟨by decide!, (variable_base_recoding.2 (U256.ofNat (P256_order - 2)) (by decide!)).2.1,
    by decide!⟩

end P256

namespace P256

open WeierstrassCurve

/-! ## Multiples of a point of the curve -/

theorem addOrderOf_point {P : P256_curve.toAffine.Point} (hP : P ≠ 0) :
    addOrderOf P = P256_order :=
  haveI : Fact (Nat.Prime P256_order) := ⟨P256_order_prime⟩
  addOrderOf_eq_prime (order_smul_point P) hP

theorem point_zsmul_eq_zero_iff {P : P256_curve.toAffine.Point} (hP : P ≠ 0) (m : Int) :
    m • P = 0 ↔ (P256_order : Int) ∣ m := by
  rw [← addOrderOf_point hP]
  exact addOrderOf_dvd_iff_zsmul_eq_zero.symm

theorem point_zsmul_eq_iff {P : P256_curve.toAffine.Point} (hP : P ≠ 0) (a b : Int) :
    a • P = b • P ↔ (P256_order : Int) ∣ a - b := by
  rw [← point_zsmul_eq_zero_iff hP, sub_zsmul, add_neg_eq_zero]

theorem order_gt_small : (64 : Int) < (P256_order : Int) := by
  have h : 64 < P256_order := by decide!
  exact_mod_cast h

/-- A multiple of the order of absolute value below the order is zero. -/
theorem eq_zero_of_order_dvd (m : Int) (hd : (P256_order : Int) ∣ m)
    (h1 : -(P256_order : Int) < m) (h2 : m < (P256_order : Int)) : m = 0 := by
  apply Int.eq_zero_of_abs_lt_dvd hd
  rw [abs_lt]
  exact ⟨h1, h2⟩

theorem small_zsmul_ne_zero {P : P256_curve.toAffine.Point} (hP : P ≠ 0) (m : Int)
    (h0 : m ≠ 0) (h1 : -64 ≤ m) (h2 : m ≤ 64) : m • P ≠ 0 := by
  intro h
  have hd := (point_zsmul_eq_zero_iff hP m).mp h
  have hn := order_gt_small
  exact h0 (eq_zero_of_order_dvd m hd (by omega) (by omega))

/-! ## The table of odd multiples of the input point -/

/-- The table loop: entry `j` is the sum of `table[7]` (the double of the input point) and
entry `j - 1`. -/
theorem odd_table_fold_eq (x y : U256) :
    ∀ m, m ≤ 7 → ∃ t : List JacobianPoint,
      (List.range' 1 m).foldl odd_multiples_table_step
        (((List.replicate 8 (default : JacobianPoint)).set 0 ⟨x, y, one_montgomery⟩).set 7
          (P256_double_j ⟨x, y, one_montgomery⟩)) = t ∧
      t.length = 8 ∧ t.getD 0 default = ⟨x, y, one_montgomery⟩ ∧
      (∀ j, 1 ≤ j → j ≤ m → t.getD j default =
        P256_add_sub_j (P256_double_j ⟨x, y, one_montgomery⟩) (t.getD (j - 1) default)
          false false) ∧
      (m < 7 → t.getD 7 default = P256_double_j ⟨x, y, one_montgomery⟩) := by
  intro m
  induction m with
  | zero =>
    intro _
    refine ⟨((List.replicate 8 (default : JacobianPoint)).set 0 ⟨x, y, one_montgomery⟩).set 7
      (P256_double_j ⟨x, y, one_montgomery⟩), rfl, by simp, ?_, ?_, ?_⟩
    · rw [getD_set_ne _ _ _ _ _ (by omega), getD_set_eq _ _ _ _ (by simp)]
    · intro j h1 h2
      omega
    · intro _
      rw [getD_set_eq _ _ _ _ (by simp)]
  | succ m ih =>
    intro hm
    obtain ⟨t, ht, hlen, h0, hlow, h7⟩ := ih (by omega)
    refine ⟨odd_multiples_table_step t (m + 1), ?_, ?_, ?_, ?_, ?_⟩
    · rw [List.range'_concat, List.foldl_append, ht]
      show odd_multiples_table_step t (1 + 1 * m) = _
      rw [show 1 + 1 * m = m + 1 by ring]
    · simp [odd_multiples_table_step, hlen]
    · unfold odd_multiples_table_step
      rw [getD_set_ne _ _ _ _ _ (by omega), getD_set_ne _ _ _ _ _ (by omega)]
      exact h0
    · intro j hj1 hj
      unfold odd_multiples_table_step
      simp only [Nat.add_sub_cancel]
      by_cases hjm : j = m + 1
      · subst hjm
        rw [getD_set_eq _ _ _ _ (by simp [hlen]; omega), getD_set_eq _ _ _ _ (by omega),
          getD_set_ne _ _ _ _ _ (by omega), h7 (by omega)]
        simp only [Nat.add_sub_cancel]
        rw [getD_set_ne _ _ _ _ _ (by omega), getD_set_ne _ _ _ _ _ (by omega)]
      · rw [getD_set_ne _ _ _ _ _ (Ne.symm hjm), getD_set_ne _ _ _ _ _ (Ne.symm hjm),
          getD_set_ne _ _ _ _ _ (by omega), getD_set_ne _ _ _ _ _ (by omega)]
        exact hlow j hj1 (by omega)
    · intro hm7
      unfold odd_multiples_table_step
      rw [getD_set_ne _ _ _ _ _ (by omega), getD_set_ne _ _ _ _ _ (by omega)]
      exact h7 (by omega)

theorem odd_table_entry_eq (x y : U256) (j : Nat) (h1 : 1 ≤ j) (h2 : j < 8) :
    (odd_multiples_table x y).getD j default =
      P256_add_sub_j (P256_double_j ⟨x, y, one_montgomery⟩)
        ((odd_multiples_table x y).getD (j - 1) default) false false := by
  obtain ⟨t, ht, _, _, hlow, _⟩ := odd_table_fold_eq x y 7 (le_refl _)
  have hdef : odd_multiples_table x y = t := by
    rw [← ht]
    unfold odd_multiples_table
    simp only
    rw [getD_set_eq _ _ _ _ (by simp)]
  rw [hdef]
  exact hlow j h1 (by omega)

theorem JRep_point {J : JacobianPoint} {P : P256_curve.toAffine.Point} (h : JRep J P) :
    Jacobian.Point.toAffine P256_curve (jval J) = P := h.2.2

/-- An addition whose operands stand for `a·P` and `b·P` is exceptional exactly when `n`
divides `a - b`, `a + b`, `a` or `b`. -/
theorem exceptional_iff {J1 J2 : JacobianPoint} {P : P256_curve.toAffine.Point} (hP : P ≠ 0)
    (a b : Int) (h1 : JRep J1 (a • P)) (h2 : JRep J2 (b • P)) :
    ExceptionalAdd J1 J2 ↔ ((P256_order : Int) ∣ a - b ∨ (P256_order : Int) ∣ a + b ∨
      (P256_order : Int) ∣ a ∨ (P256_order : Int) ∣ b) := by
  unfold ExceptionalAdd
  rw [JRep_point h1, JRep_point h2, point_zsmul_eq_iff hP, ← neg_zsmul,
    point_zsmul_eq_iff hP, sub_neg_eq_add, point_zsmul_eq_zero_iff hP,
    point_zsmul_eq_zero_iff hP]

theorem odd_table_lookup {table : List JacobianPoint} {P : P256_curve.toAffine.Point}
    (htab : ∀ j, j < 8 → JRep (table.getD j default) ((2 * j + 1) • P))
    (d : Int) (hodd : d % 2 = 1) (h1 : -15 ≤ d) (h2 : d ≤ 15) :
    abs_int d >>> 1 < 8 ∧ JRep (table.getD (abs_int d >>> 1) default) (d.natAbs • P) ∧
    (0 < d → d.toNat / 2 < 8 ∧ JRep (table.getD (d.toNat / 2) default) (d.natAbs • P)) ∧
    (d < 0 → (-d).toNat / 2 < 8 ∧
      JRep (table.getD ((-d).toNat / 2) default) (d.natAbs • P)) := by
  obtain ⟨hidx, hval⟩ := abs_int_digit d hodd h1 h2
  refine ⟨hidx, ?_, ?_, ?_⟩
  · have e : d.natAbs = 2 * (abs_int d >>> 1) + 1 := by
      split_ifs at hval <;> omega
    rw [e]
    exact htab _ hidx
  · intro hd
    have hlt : d.toNat / 2 < 8 := by omega
    have e : d.natAbs = 2 * (d.toNat / 2) + 1 := by omega
    rw [e]
    exact ⟨hlt, htab _ hlt⟩
  · intro hd
    have hlt : (-d).toNat / 2 < 8 := by omega
    have e : d.natAbs = 2 * ((-d).toNat / 2) + 1 := by omega
    rw [e]
    exact ⟨hlt, htab _ hlt⟩

/-- C29. Odd-multiples table: with the modelled group law, for every input point `P` of the
curve the table built in `scalarmult_variable_base` and in `p256_verify` (`table[7]`
temporarily `2P`, then `table[i] = 2P + table[i-1]` for `i = 1..7`) ends with
`table[i] = (2i+1)·P` for every `i` in `0..7`, none of the seven additions being an
exceptional case; and for every odd digit `d` with `|d| ≤ 15` the lookup index
`abs_int(d) >> 1` (resp. `d/2` for `d > 0` and `(-d)/2` for `d < 0`) lies in `0..7` and
selects `|d|·P`. -/
theorem odd_multiples_table_correct (x y : U256) (P : P256_curve.toAffine.Point)
    (hP : ARep x y P) :
    (∀ i, i < 8 → JRep ((odd_multiples_table x y).getD i default) ((2 * i + 1) • P)) ∧
    (∀ i, 1 ≤ i → i < 8 →
      (odd_multiples_table x y).getD i default =
        P256_add_sub_j (P256_double_j ⟨x, y, one_montgomery⟩)
          ((odd_multiples_table x y).getD (i - 1) default) false false ∧
      JRep (P256_double_j ⟨x, y, one_montgomery⟩) (2 • P) ∧
      ¬ ExceptionalAdd (P256_double_j ⟨x, y, one_montgomery⟩)
        ((odd_multiples_table x y).getD (i - 1) default)) ∧
    (∀ d : Int, d % 2 = 1 → -15 ≤ d → d ≤ 15 →
      abs_int d >>> 1 < 8 ∧
      JRep ((odd_multiples_table x y).getD (abs_int d >>> 1) default) (d.natAbs • P) ∧
      (0 < d → d.toNat / 2 < 8 ∧
        JRep ((odd_multiples_table x y).getD (d.toNat / 2) default) (d.natAbs • P)) ∧
      (d < 0 → (-d).toNat / 2 < 8 ∧
        JRep ((odd_multiples_table x y).getD ((-d).toNat / 2) default) (d.natAbs • P))) := by
  have htab := odd_table_spec hP
  have hP0 := ARep_ne_zero hP
  have h2 : JRep (P256_double_j ⟨x, y, one_montgomery⟩) (2 • P) := by
    rw [two_nsmul]
    exact JRep_double (JRep_of_ARep hP)
  refine ⟨htab, ?_, fun d ho h1 h2 => odd_table_lookup htab d ho h1 h2⟩
  intro i hi1 hi8
  refine ⟨odd_table_entry_eq x y i hi1 hi8, h2, ?_⟩
  have ht := htab (i - 1) (by omega)
  rw [← natCast_zsmul] at ht
  have h2z : JRep (P256_double_j ⟨x, y, one_montgomery⟩) ((2 : Int) • P) := by
    rw [show ((2 : Int) • P) = 2 • P from by rw [← natCast_zsmul]; rfl]
    exact h2
  rw [exceptional_iff hP0 2 _ h2z ht]
  have hn := order_gt_small
  push_cast
  rintro (h | h | h | h)
  · have := eq_zero_of_order_dvd _ h (by omega) (by omega)
    omega
  · have := eq_zero_of_order_dvd _ h (by omega) (by omega)
    omega
  · have := eq_zero_of_order_dvd _ h (by omega) (by omega)
    omega
  · have := eq_zero_of_order_dvd _ h (by omega) (by omega)
    omega

/-- Witness for C29: the table of the base point holds `15·G` in its last entry. -/
theorem odd_multiples_table_correct_witness :
    JRep ((odd_multiples_table G_mont.x G_mont.y).getD 7 default)
      ((2 * 7 + 1) • (Affine.Point.some G_nonsingular : P256_curve.toAffine.Point)) :=
  (odd_multiples_table_correct G_mont.x G_mont.y _ (G_ARep_of_IsAffine G_IsAffine)).1 7
    (by decide)

end P256

namespace P256

open WeierstrassCurve

/-! ## The signed bits of the fixed-base ladder -/

theorem signed_bit_eq_fb_sign (S j : Nat) (hj : j ≠ 255) : signed_bit S j = fb_sign S j := by
  unfold signed_bit fb_sign
  rw [if_neg hj]
  rcases Nat.mod_two_eq_zero_or_one (S / 2 ^ (j + 1)) with h | h
  · rw [h, if_neg (by decide)]
    rfl
  · rw [h, if_pos rfl]
    rfl

theorem signed_bit_top (S : Nat) : signed_bit S 255 = 1 := by
  unfold signed_bit
  rw [if_pos rfl]

/-- The partial sums of the signed bits: the first `k` of them add up to the bits `1..k` of
the scalar minus `2^k - 1`. -/
theorem signed_bit_sum_low (S : Nat) : ∀ k, k ≤ 255 →
    signed_bit_sum S k = ((S % 2 ^ (k + 1) : Nat) : Int) - ((S % 2 : Nat) : Int) - (2 ^ k - 1)
  | 0, _ => by
    simp [signed_bit_sum]
  | k + 1, hk => by
    have ih := signed_bit_sum_low S k (by omega)
    have hm : S % 2 ^ (k + 1 + 1) = S % 2 ^ (k + 1) + 2 ^ (k + 1) * (S / 2 ^ (k + 1) % 2) :=
      Nat.mod_pow_succ
    rw [signed_bit_sum, ih, signed_bit_eq_fb_sign S k (by omega), hm]
    unfold fb_sign
    push_cast
    ring

/-- The signed bits of an odd 256-bit scalar add up to the scalar. -/
theorem signed_bit_sum_eq (S : Nat) (hodd : S % 2 = 1) (h : S < 2 ^ 256) :
    signed_bit_sum S 256 = (S : Int) := by
  rw [signed_bit_sum, signed_bit_sum_low S 255 (le_refl _), signed_bit_top, hodd,
    Nat.mod_eq_of_lt h]
  push_cast
  ring

/-- The main loop of `scalarmult_fixed_base` on an odd scalar `S` ends with `S·G`. -/
theorem JRep_fixed_base_result {G : P256_curve.toAffine.Point} (hG : ARep G_mont.x G_mont.y G)
    (S : U256) (hodd : S.val % 2 = 1) :
    JRep (((List.range 32).reverse).foldl (scalarmult_fixed_base_step S) default)
      (S.val • G) := by
  have hfirst : JRep (scalarmult_fixed_base_step S default 31) (fb_acc S.val 31 • G) := by
    rw [fb_acc_31 S.val S.isLt, add_zsmul]
    exact JRep_fixed_base_first hG S default
  have hloop := JRep_fixed_base_loop hG S 31 (le_refl _) _ hfirst
  rw [fb_acc_zero S.val hodd S.isLt, natCast_zsmul] at hloop
  rw [List.range_succ, List.reverse_append, List.reverse_singleton, List.singleton_append,
    List.foldl_cons]
  exact hloop

/-- C28. Fixed-base signed-bit decomposition: for every odd 256-bit scalar `S`, with
`s[j] = +1` if bit `j+1` of `S` is set and `-1` otherwise for `j < 255` and `s[255] = +1`,
the sum of `s[j]·2^j` is `S`.  The ladder accumulates this sum: the round `i` doubles the
accumulator (not for `i = 31`, where it is initialised), adds
`2^32·(s[i+224]·2^192 + s[i+160]·2^128 + s[i+96]·2^64 + s[i+32])·G` from table 1 and
`(s[i+192]·2^192 + s[i+128]·2^128 + s[i+64]·2^64 + s[i])·G` from table 0, and after the rounds
`i = 31..0` the accumulated multiple of `G` is `S·G`. -/
theorem fixed_base_signed_bits (G : P256_curve.toAffine.Point) (hG : IsAffine G_x G_y G)
    (S : U256) (hodd : S.val % 2 = 1) :
    signed_bit_sum S.val 256 = (S.val : Int) ∧
    (∀ i, i < 32 → ∀ (cp : JacobianPoint) (Q : P256_curve.toAffine.Point), JRep cp Q →
      JRep (scalarmult_fixed_base_step S cp i)
        ((if i = 31 then 0 else Q + Q) +
          (2 ^ 32 * (signed_bit S.val (i + 224) * 2 ^ 192 + signed_bit S.val (i + 160) * 2 ^ 128
            + signed_bit S.val (i + 96) * 2 ^ 64 + signed_bit S.val (i + 32)) : Int) • G +
          (signed_bit S.val (i + 192) * 2 ^ 192 + signed_bit S.val (i + 128) * 2 ^ 128
            + signed_bit S.val (i + 64) * 2 ^ 64 + signed_bit S.val i : Int) • G)) ∧
    JRep (((List.range 32).reverse).foldl (scalarmult_fixed_base_step S) default)
      (S.val • G) := by
  have hA := G_ARep_of_IsAffine hG
  refine ⟨signed_bit_sum_eq S.val hodd S.isLt, ?_, JRep_fixed_base_result hA S hodd⟩
  intro i hi cp Q hcp
  rw [signed_bit_eq_fb_sign _ (i + 160) (by omega), signed_bit_eq_fb_sign _ (i + 96) (by omega),
    signed_bit_eq_fb_sign _ (i + 32) (by omega), signed_bit_eq_fb_sign _ (i + 192) (by omega),
    signed_bit_eq_fb_sign _ (i + 128) (by omega), signed_bit_eq_fb_sign _ (i + 64) (by omega),
    signed_bit_eq_fb_sign _ i (by omega)]
  by_cases h31 : i = 31
  · subst h31
    rw [if_pos rfl, zero_add, signed_bit_top, one_mul]
    exact JRep_fixed_base_first hA S cp
  · rw [if_neg h31, signed_bit_eq_fb_sign _ (i + 224) (by omega)]
    exact JRep_fixed_base_step hA S i (by omega) hcp

/-- Witness for C28: the odd scalar `n - 2`. -/
theorem fixed_base_signed_bits_witness :
    signed_bit_sum (U256.ofNat (P256_order - 2)).val 256 =
      ((U256.ofNat (P256_order - 2)).val : Int) ∧
    JRep (((List.range 32).reverse).foldl
        (scalarmult_fixed_base_step (U256.ofNat (P256_order - 2))) default)
      ((U256.ofNat (P256_order - 2)).val •
        (Affine.Point.some G_nonsingular : P256_curve.toAffine.Point)) :=
  ⟨(fixed_base_signed_bits _ G_IsAffine (U256.ofNat (P256_order - 2)) (by decide!)).1,
    (fixed_base_signed_bits _ G_IsAffine (U256.ofNat (P256_order - 2)) (by decide!)).2.2⟩

end P256

namespace P256

open WeierstrassCurve

/-! ## Exceptional additions in the variable-base ladder -/

theorem variable_base_state_zero (table : List JacobianPoint) (e : List Int) :
    scalarmult_variable_base_state table e 0 =
      table.getD ((e.getD 63 0).toNat >>> 1) default := by
  rw [scalarmult_variable_base_state]

theorem variable_base_state_succ (table : List JacobianPoint) (e : List Int) (t : Nat) :
    scalarmult_variable_base_state table e (t + 1) =
      scalarmult_variable_base_step table e (scalarmult_variable_base_state table e t)
        (62 - t) := by
  rw [scalarmult_variable_base_state]

theorem variable_base_loop_from_state (table : List JacobianPoint) (e : List Int) :
    ∀ m, m ≤ 63 →
      ((List.range m).reverse).foldl (scalarmult_variable_base_step table e)
        (scalarmult_variable_base_state table e (63 - m)) =
      scalarmult_variable_base_state table e 63 := by
  intro m
  induction m with
  | zero =>
    intro _
    simp only [Nat.sub_zero, List.range_zero, List.reverse_nil, List.foldl_nil]
  | succ m ih =>
    intro hm
    rw [List.range_succ, List.reverse_append, List.reverse_singleton, List.singleton_append,
      List.foldl_cons]
    have h : scalarmult_variable_base_step table e
        (scalarmult_variable_base_state table e (63 - (m + 1))) m =
        scalarmult_variable_base_state table e (63 - m) := by
      have h1 : 63 - m = (62 - m) + 1 := by omega
      have h2 : 63 - (m + 1) = 62 - m := by omega
      have h3 : 62 - (62 - m) = m := by omega
      rw [h1, h2, variable_base_state_succ, h3]
    rw [h]
    exact ih (by omega)

/-- The main loop of `scalarmult_variable_base` run for all its 63 rounds ends in the state
number 63. -/
theorem variable_base_loop_eq_state (table : List JacobianPoint) (e : List Int) :
    ((List.range 63).reverse).foldl (scalarmult_variable_base_step table e)
      (table.getD ((e.getD 63 0).toNat >>> 1) default) =
    scalarmult_variable_base_state table e 63 := by
  have h := variable_base_loop_from_state table e 63 (le_refl _)
  rw [Nat.sub_self, variable_base_state_zero] at h
  exact h

/-- Each round of the main loop is the addition of its two operands. -/
theorem variable_base_step_eq_add (table : List JacobianPoint) (e : List Int)
    (cp : JacobianPoint) (i : Nat) :
    scalarmult_variable_base_step table e cp i =
      P256_add_sub_j (scalarmult_variable_base_operands table e cp i).1
        (scalarmult_variable_base_operands table e cp i).2 false false := rfl

/-- The operands of the addition of a round: `16·Q` and `e[i]·P`. -/
theorem JRep_variable_base_operands {table : List JacobianPoint}
    {P Q : P256_curve.toAffine.Point}
    (htab : ∀ j, j < 8 → JRep (table.getD j default) ((2 * j + 1) • P))
    (e : List Int) (i : Nat) (hodd : e.getD i 0 % 2 = 1) (h1 : -15 ≤ e.getD i 0)
    (h2 : e.getD i 0 ≤ 15) {cp : JacobianPoint} (hcp : JRep cp Q) :
    JRep (scalarmult_variable_base_operands table e cp i).1 ((16 : Int) • Q) ∧
    JRep (scalarmult_variable_base_operands table e cp i).2 (e.getD i 0 • P) := by
  unfold scalarmult_variable_base_operands
  simp only [four_doublings]
  refine ⟨?_, JRep_selected htab _ hodd h1 h2⟩
  have h := JRep_double (JRep_double (JRep_double (JRep_double hcp)))
  have e16 : Q + Q + (Q + Q) + (Q + Q + (Q + Q)) + (Q + Q + (Q + Q) + (Q + Q + (Q + Q))) =
      (16 : Int) • Q := by
    abel
  rw [e16] at h
  exact h

/-- After `t` rounds the accumulator stands for the multiple given by the top `t + 1`
digits. -/
theorem JRep_variable_base_state {table : List JacobianPoint} {P : P256_curve.toAffine.Point}
    (htab : ∀ j, j < 8 → JRep (table.getD j default) ((2 * j + 1) • P))
    (e : List Int) (hlen : e.length = 64)
    (hdig : ∀ j, j < 64 → e.getD j 0 % 2 = 1 ∧ -15 ≤ e.getD j 0 ∧ e.getD j 0 ≤ 15)
    (h63 : 1 ≤ e.getD 63 0) :
    ∀ t, t ≤ 63 →
      JRep (scalarmult_variable_base_state table e t) (digitSum (e.drop (63 - t)) • P) := by
  intro t
  induction t with
  | zero =>
    intro _
    obtain ⟨ho, hl, hu⟩ := hdig 63 (by norm_num)
    have hd : digitSum (e.drop 63) = e.getD 63 0 := by
      rw [digitSum_drop e 63 (by rw [hlen]; norm_num)]
      have : digitSum (List.drop (63 + 1) e) = 0 := by
        have := digitSum_drop_length e
        rw [hlen] at this
        exact this
      rw [this]
      ring
    show JRep (table.getD ((e.getD 63 0).toNat >>> 1) default) (digitSum (e.drop (63 - 0)) • P)
    rw [Nat.sub_zero, hd]
    obtain ⟨hidx, hv⟩ := top_digit_index _ ho h63 hu
    have h := htab _ hidx
    have hpt : e.getD 63 0 • P = (2 * ((e.getD 63 0).toNat >>> 1) + 1) • P := by
      rw [← natCast_zsmul, hv]
    rw [hpt]
    exact h
  | succ t ih =>
    intro ht
    have hprev := ih (by omega)
    obtain ⟨ho, hl, hu⟩ := hdig (62 - t) (by omega)
    have h := JRep_variable_base_step htab e (62 - t) ho hl hu hprev
    have hidx : 63 - t = (62 - t) + 1 := by omega
    have e2 : (16 : Int) • digitSum (List.drop (63 - t) e) • P + e.getD (62 - t) 0 • P =
        digitSum (List.drop (63 - (t + 1)) e) • P := by
      rw [show 63 - (t + 1) = 62 - t by omega, digitSum_drop e (62 - t) (by rw [hlen]; omega),
        add_zsmul, mul_zsmul, add_comm, hidx]
    rw [e2] at h
    exact h

/-- Every tail of the digit string has a positive value. -/
theorem drop_sum_pos (e : List Int) (hlen : e.length = 64)
    (hdig : ∀ j, j < 64 → e.getD j 0 % 2 = 1 ∧ -15 ≤ e.getD j 0 ∧ e.getD j 0 ≤ 15)
    (h63 : 1 ≤ e.getD 63 0) :
    ∀ t, t ≤ 63 → 1 ≤ digitSum (e.drop (63 - t)) := by
  intro t
  induction t with
  | zero =>
    intro _
    rw [Nat.sub_zero, digitSum_drop e 63 (by rw [hlen]; norm_num)]
    have : digitSum (List.drop (63 + 1) e) = 0 := by
      have := digitSum_drop_length e
      rw [hlen] at this
      exact this
    rw [this]
    omega
  | succ t ih =>
    intro ht
    have hprev := ih (by omega)
    obtain ⟨_, hl, _⟩ := hdig (62 - t) (by omega)
    rw [show 63 - (t + 1) = 62 - t by omega, digitSum_drop e (62 - t) (by rw [hlen]; omega),
      show 62 - t + 1 = 63 - t by omega]
    omega

/-- The tail of the digit string from position `k` is at most `(s - 1) / 16^k + 1`. -/
theorem drop_sum_bound (e : List Int) (hlen : e.length = 64)
    (hdig : ∀ j, j < 64 → e.getD j 0 % 2 = 1 ∧ -15 ≤ e.getD j 0 ∧ e.getD j 0 ≤ 15) :
    ∀ k, k ≤ 63 → (16 : Int) ^ k * (digitSum (e.drop k) - 1) ≤ digitSum e - 1 := by
  intro k
  induction k with
  | zero =>
    intro _
    simp
  | succ k ih =>
    intro hk
    have hprev := ih (by omega)
    obtain ⟨_, hl, _⟩ := hdig k (by omega)
    rw [digitSum_drop e k (by rw [hlen]; omega)] at hprev
    have hpow : (0 : Int) ≤ 16 ^ k := by positivity
    have hstep : (16 : Int) ^ (k + 1) * (digitSum (List.drop (k + 1) e) - 1) ≤
        16 ^ k * (e.getD k 0 + 16 * digitSum (List.drop (k + 1) e) - 1) := by
      rw [pow_succ, mul_assoc]
      apply mul_le_mul_of_nonneg_left _ hpow
      omega
    exact le_trans hstep hprev

theorem eq_of_dvd_of_lt_two_mul (N x : Int) (h1 : 0 < x) (h2 : x < 2 * N) (hd : N ∣ x) :
    x = N := by
  obtain ⟨c, rfl⟩ := hd
  have hN : 0 < N := by nlinarith
  have hc1 : 0 < c := by
    by_contra hc
    have : c ≤ 0 := by omega
    nlinarith
  have hc2 : c < 2 := by
    by_contra hc
    have : 2 ≤ c := by omega
    nlinarith
  have : c = 1 := by omega
  rw [this, mul_one]

theorem not_dvd_of_pos_of_lt (N x : Int) (h1 : 0 < x) (h2 : x < N) : ¬ N ∣ x := by
  intro hd
  have := eq_of_dvd_of_lt_two_mul N x h1 (by omega) hd
  omega

/-- The arithmetic of the exceptional cases: with `N ≡ 1 (mod 16)`, an odd `s` in `[1, N)`
whose tail from position `i + 1` is `D`, and the digit `d` at position `i`, the numbers
`16·D - d`, `16·D + d`, `16·D`, `d` are multiples of `N` only for `s = N - 2`, `i = 0`
(where the digit is `-1`). -/
theorem exceptional_arith (N s D d : Int) (i : Nat) (hN16 : N % 16 = 1) (hNbig : 64 < N)
    (hs1 : 1 ≤ s) (hs2 : s < N) (hd1 : -15 ≤ d) (hd2 : d ≤ 15) (hodd : d % 2 = 1)
    (hD : 1 ≤ D) (hbound : (16 : Int) ^ (i + 1) * (D - 1) ≤ s - 1)
    (hzero : i = 0 → s = d + 16 * D) (hlast : s = N - 2 → i = 0 → d = -1) :
    (N ∣ 16 * D - d ∨ N ∣ 16 * D + d ∨ N ∣ 16 * D ∨ N ∣ d) ↔ (s = N - 2 ∧ i = 0) := by
  constructor
  · intro h
    have hnd : ¬ N ∣ d := by
      intro hd
      obtain ⟨c, hc⟩ := hd
      have hc0 : c = 0 := by
        by_contra hne
        rcases lt_or_gt_of_ne hne with hlt | hgt
        · have : c ≤ -1 := by omega
          nlinarith
        · have : 1 ≤ c := by omega
          nlinarith
      rw [hc0, mul_zero] at hc
      omega
    by_cases hi : i = 0
    · subst hi
      have hs := hzero rfl
      simp only [zero_add, pow_one] at hbound
      rcases h with h | h | h | h
      · have := eq_of_dvd_of_lt_two_mul N _ (by omega) (by omega) h
        refine ⟨?_, rfl⟩
        omega
      · exact absurd h (not_dvd_of_pos_of_lt N _ (by omega) (by omega))
      · have := eq_of_dvd_of_lt_two_mul N _ (by omega) (by omega) h
        omega
      · exact absurd h hnd
    · exfalso
      have h256 : (256 : Int) * (D - 1) ≤ s - 1 := by
        have hp : (256 : Int) ≤ 16 ^ (i + 1) := by
          have : (16 : Int) ^ 2 ≤ 16 ^ (i + 1) :=
            pow_le_pow_right₀ (by norm_num) (by omega)
          norm_num at this
          exact this
        have : (256 : Int) * (D - 1) ≤ 16 ^ (i + 1) * (D - 1) :=
          mul_le_mul_of_nonneg_right hp (by omega)
        omega
      rcases h with h | h | h | h
      · exact not_dvd_of_pos_of_lt N _ (by omega) (by omega) h
      · exact not_dvd_of_pos_of_lt N _ (by omega) (by omega) h
      · exact not_dvd_of_pos_of_lt N _ (by omega) (by omega) h
      · exact hnd h
  · rintro ⟨hs, hi⟩
    have hz := hzero hi
    left
    have hdv : d = -1 := hlast hs hi
    refine ⟨1, ?_⟩
    omega

theorem order_mod_16 : (P256_order : Int) % 16 = 1 := by decide!

theorem order_sub_two_lt : P256_order - 2 < 2 ^ 256 := by decide!

theorem variable_base_addition_eq (x y scalar2 : U256) (i : Nat) :
    scalarmult_variable_base_addition x y scalar2 i =
      scalarmult_variable_base_operands (odd_multiples_table x y)
        (scalarmult_variable_base_recode scalar2)
        (scalarmult_variable_base_state (odd_multiples_table x y)
          (scalarmult_variable_base_recode scalar2) (62 - i)) i := by
  rw [scalarmult_variable_base_addition]

/-- The lowest digit of the recoding of `n - 2` is `-1`. -/
theorem recode_order_sub_two :
    (scalarmult_variable_base_recode (U256.ofNat (P256_order - 2))).getD 0 0 = -1 := by
  decide!

theorem neg_one_zsmul_of_order (P : P256_curve.toAffine.Point) (m : Int)
    (hm : m = (P256_order : Int) - 1) : m • P = -P := by
  rw [hm, sub_zsmul, natCast_zsmul, order_smul_point, one_zsmul, zero_add]

/-- C27. Exceptional additions in the variable-base ladder. For an input point `P` (every
finite point of the curve has the prime order `n`) and an odd recoded scalar `scalar2` in
`[1, n)`, the round `i` of the main loop (`i = 62, ..., 0`) replaces the accumulator by the
sum of the two operands `scalarmult_variable_base_addition x y scalar2 i`. That addition is
exceptional (operands standing for equal or opposite points, or one of them for the point at
infinity) exactly when `scalar2 = n - 2` and `i = 0`; there `e[0] = -1` and both operands
stand for `-P`. The input scalars in `[1, n)` that reach `scalar2 = n - 2` are exactly `2`
and `n - 2`. -/
theorem variable_base_exceptional_additions (x y : U256) (P : P256_curve.toAffine.Point)
    (hP : ARep x y P) :
    (∀ scalar2 : U256, scalar2.val % 2 = 1 → 1 ≤ scalar2.val → scalar2.val < P256_order →
      (∀ i, i < 63 →
        scalarmult_variable_base_state (odd_multiples_table x y)
            (scalarmult_variable_base_recode scalar2) (63 - i) =
          P256_add_sub_j (scalarmult_variable_base_addition x y scalar2 i).1
            (scalarmult_variable_base_addition x y scalar2 i).2 false false) ∧
      (∀ i, i < 63 →
        (ExceptionalAdd (scalarmult_variable_base_addition x y scalar2 i).1
            (scalarmult_variable_base_addition x y scalar2 i).2 ↔
          (scalar2.val = P256_order - 2 ∧ i = 0))) ∧
      (scalar2.val = P256_order - 2 →
        (scalarmult_variable_base_recode scalar2).getD 0 0 = -1 ∧
        JRep (scalarmult_variable_base_addition x y scalar2 0).1 (-P) ∧
        JRep (scalarmult_variable_base_addition x y scalar2 0).2 (-P))) ∧
    (∀ k : U256, 1 ≤ k.val → k.val < P256_order →
      ((P256_negate_mod_n_if k ((k.limb 0 &&& 1) ^^^ 1)).val = P256_order - 2 ↔
        (k.val = 2 ∨ k.val = P256_order - 2))) := by
  have htab := odd_table_spec hP
  have hP0 := ARep_ne_zero hP
  have hnbig := order_gt_small
  have hn16 := order_mod_16
  constructor
  · intro s hodd hs1 hs2
    obtain ⟨hlen, hdig, h63, hsum⟩ := recode_spec s hodd
    have hlast : s.val = P256_order - 2 → (scalarmult_variable_base_recode s).getD 0 0 = -1 := by
      intro hv
      have hs : s = U256.ofNat (P256_order - 2) := by
        apply U256.ext
        rw [U256.val_ofNat_of_lt order_sub_two_lt, hv]
      rw [hs]
      exact recode_order_sub_two
    simp only [variable_base_addition_eq]
    generalize scalarmult_variable_base_recode s = e at hlen hdig h63 hsum hlast ⊢
    generalize odd_multiples_table x y = table at htab ⊢
    -- the representation of the operands of every round
    have hops : ∀ i, i < 63 →
        JRep (scalarmult_variable_base_operands table e
          (scalarmult_variable_base_state table e (62 - i)) i).1
          ((16 * digitSum (e.drop (i + 1))) • P) ∧
        JRep (scalarmult_variable_base_operands table e
          (scalarmult_variable_base_state table e (62 - i)) i).2 (e.getD i 0 • P) := by
      intro i hi
      have hst := JRep_variable_base_state htab e hlen hdig h63 (62 - i) (by omega)
      rw [show 63 - (62 - i) = i + 1 by omega] at hst
      obtain ⟨ho, hl, hu⟩ := hdig i (by omega)
      have h := JRep_variable_base_operands htab e i ho hl hu hst
      rw [← mul_zsmul] at h
      exact h
    have hzero : (s.val : Int) = e.getD 0 0 + 16 * digitSum (e.drop 1) := by
      rw [← hsum]
      have := digitSum_drop e 0 (by rw [hlen]; norm_num)
      rw [List.drop_zero] at this
      exact this
    refine ⟨?_, ?_, ?_⟩
    · intro i hi
      have h1 : 63 - i = (62 - i) + 1 := by omega
      have h3 : 62 - (62 - i) = i := by omega
      rw [h1, variable_base_state_succ, h3, variable_base_step_eq_add]
    · intro i hi
      obtain ⟨hop1, hop2⟩ := hops i hi
      obtain ⟨ho, hl, hu⟩ := hdig i (by omega)
      rw [exceptional_iff hP0 _ _ hop1 hop2]
      have hD := drop_sum_pos e hlen hdig h63 (62 - i) (by omega)
      rw [show 63 - (62 - i) = i + 1 by omega] at hD
      have hb := drop_sum_bound e hlen hdig (i + 1) (by omega)
      rw [hsum] at hb
      have har := exceptional_arith (P256_order : Int) (s.val : Int)
        (digitSum (e.drop (i + 1))) (e.getD i 0) i hn16 hnbig (by omega) (by omega) hl hu ho
        hD hb
        (by
          intro h0
          subst h0
          exact hzero)
        (by
          intro h1 h0
          subst h0
          apply hlast
          omega)
      rw [har]
      constructor
      · rintro ⟨h1, h0⟩
        exact ⟨by omega, h0⟩
      · rintro ⟨h1, h0⟩
        exact ⟨by omega, h0⟩
    · intro hv
      have he0 := hlast hv
      obtain ⟨hop1, hop2⟩ := hops 0 (by norm_num)
      rw [Nat.zero_add] at hop1
      refine ⟨he0, ?_, ?_⟩
      · rw [neg_one_zsmul_of_order P _ (by omega)] at hop1
        exact hop1
      · rw [he0, neg_one_zsmul] at hop2
        exact hop2
  · intro k hk1 hk2
    obtain ⟨hs_odd, _, _, hcase⟩ := odd_scalar k hk1 hk2
    have hn := P256_order_odd
    rcases hcase with ⟨_, hv⟩ | ⟨_, hv⟩
    · rw [hv] at hs_odd ⊢
      omega
    · rw [hv] at hs_odd ⊢
      omega

/-- Witness for C27: with the base point as input and `scalar2 = n - 2`, the addition of the
last round is exceptional. -/
theorem variable_base_exceptional_additions_witness :
    ExceptionalAdd
      (scalarmult_variable_base_addition G_mont.x G_mont.y (U256.ofNat (P256_order - 2)) 0).1
      (scalarmult_variable_base_addition G_mont.x G_mont.y (U256.ofNat (P256_order - 2)) 0).2 :=
  ((((variable_base_exceptional_additions G_mont.x G_mont.y _
    (G_ARep_of_IsAffine G_IsAffine)).1 (U256.ofNat (P256_order - 2)) (by decide!) (by decide!)
    (by decide!)).2.1 0 (by decide)).mpr ⟨by decide!, rfl⟩)

end P256

namespace P256

/-! ## The signed sliding-window recoding `slide_257` -/

theorem slideSum_set (l : List Int) : ∀ (i : Nat) (v : Int), i < l.length →
    slideSum (l.set i v) = slideSum l + (v - l.getD i 0) * 2 ^ i := by
  induction l with
  | nil => intro i v h; simp at h
  | cons a l ih =>
    intro i v h
    cases i with
    | zero =>
      simp only [List.set_cons_zero, slideSum, List.getD_cons_zero, pow_zero]
      ring
    | succ i =>
      have h2 : i < l.length := by simpa using h
      simp only [List.set_cons_succ, slideSum, ih i v h2, List.getD_cons_succ]
      ring

theorem slideSum_append (l1 l2 : List Int) :
    slideSum (l1 ++ l2) = slideSum l1 + 2 ^ l1.length * slideSum l2 := by
  induction l1 with
  | nil => simp [slideSum]
  | cons a l ih =>
    show a + 2 * slideSum (l ++ l2) = (a + 2 * slideSum l) + 2 ^ (l.length + 1) * slideSum l2
    rw [ih]
    ring

/-- The value of the binary digits of `v` from position `s` on. -/
theorem slideSum_bits (v : Nat) : ∀ n s : Nat,
    slideSum ((List.range' s n).map fun i => ((v / 2 ^ i % 2 : Nat) : Int)) =
      ((v / 2 ^ s % 2 ^ n : Nat) : Int)
  | 0, s => by simp [Nat.mod_one, slideSum]
  | n + 1, s => by
    rw [List.range'_succ, List.map_cons, slideSum, slideSum_bits v n (s + 1)]
    rw [pow_succ' 2 n, Nat.mod_mul, pow_succ, Nat.div_div_eq_div_mul]
    push_cast
    ring

/-- The byte `k` of a little-endian byte string, from its value. -/
theorem le_fold_byte (l : List Byte) : ∀ k : Nat,
    l.foldr (fun w acc => w.val + 256 * acc) 0 / 256 ^ k % 256 = (l.getD k 0).val := by
  induction l with
  | nil =>
    intro k
    simp
  | cons b tl ih =>
    intro k
    have hb := b.isLt
    cases k with
    | zero =>
      rw [List.foldr_cons, pow_zero, Nat.div_one, List.getD_cons_zero]
      omega
    | succ k =>
      rw [List.foldr_cons, List.getD_cons_succ, ← ih k, pow_succ', ← Nat.div_div_eq_div_mul]
      congr 2
      omega

/-- The bit that the first loop of `slide_257` stores in `r[i]`. -/
theorem slide_bit_eq (a : List Byte) (i : Nat) :
    1 &&& ((a.getD (i >>> 3) 0).val >>> (i &&& 7)) =
      a.foldr (fun w acc => w.val + 256 * acc) 0 / 2 ^ i % 2 := by
  rw [Nat.one_and_eq_mod_two, Nat.shiftRight_eq_div_pow, Nat.shiftRight_eq_div_pow,
    show (7 : Nat) = 2 ^ 3 - 1 by norm_num, Nat.and_pow_two_sub_one_eq_mod, ← le_fold_byte]
  have h256 : (256 : Nat) ^ (i / 2 ^ 3) = 2 ^ (8 * (i / 8)) := by
    rw [show (256 : Nat) = 2 ^ 8 by norm_num, ← pow_mul]
    norm_num
  have hi : (2 : Nat) ^ i = 2 ^ (8 * (i / 8)) * 2 ^ (i % 8) := by
    rw [← pow_add]
    congr 1
    omega
  rw [h256, hi, ← Nat.div_div_eq_div_mul, show (2 : Nat) ^ 3 = 8 by norm_num]
  have := mod_pow_div_pow_mod
    (a.foldr (fun w acc => w.val + 256 * acc) 0 / 2 ^ (8 * (i / 8))) 8 (i % 8) 1 (by omega)
  rw [show (2 : Nat) ^ 8 = 256 by norm_num, pow_one] at this
  exact this

/-- The carry loop: entered at a digit 1 below the top digit, it clears the run of ones and
sets the next digit; the value grows by `2^(i + b)`. -/
theorem slide_257_carry_spec (i : Nat) : ∀ (fuel : Nat) (r : List Int) (b : Nat),
    r.length = 257 → i + b ≤ 255 → 256 ≤ fuel + (i + b) →
    (∀ j, i + b < j → j ≤ 255 → r.getD j 0 = 0 ∨ r.getD j 0 = 1) →
    r.getD 256 0 = 0 →
    ∃ r2 b2, slide_257_carry fuel r i b = some (r2, b2) ∧ b ≤ b2 ∧ i + b2 ≤ 255 ∧
      r2.length = 257 ∧
      slideSum r2 = slideSum r + (2 - r.getD (i + b) 0) * 2 ^ (i + b) ∧
      (∀ j, j < i + b → r2.getD j 0 = r.getD j 0) ∧
      (∀ j, i + b ≤ j → j ≤ i + b2 → r2.getD j 0 = 0) ∧
      r2.getD (i + b2 + 1) 0 = 1 ∧
      (∀ j, i + b2 + 1 < j → r2.getD j 0 = r.getD j 0) := by
  intro fuel
  induction fuel with
  | zero =>
    intro r b _ h1 h2
    omega
  | succ fuel ih =>
    intro r b hlen hb hfuel hbits h256
    rw [slide_257_carry]
    have hg1 : ¬ 256 < i + b := by omega
    have hg2 : ¬ 256 < i + (b + 1) := by omega
    simp only [hg1, hg2, if_false]
    have hlen1 : (r.set (i + b) 0).length = 257 := by rw [List.length_set, hlen]
    have hnext : (r.set (i + b) 0).getD (i + (b + 1)) 0 = r.getD (i + (b + 1)) 0 :=
      getD_set_ne r _ _ 0 0 (by omega)
    have hsum1 : slideSum (r.set (i + b) 0) = slideSum r - r.getD (i + b) 0 * 2 ^ (i + b) := by
      rw [slideSum_set r (i + b) 0 (by omega)]
      ring
    by_cases hz : r.getD (i + (b + 1)) 0 = 0
    · rw [if_pos (by rw [hnext]; exact hz)]
      refine ⟨(r.set (i + b) 0).set (i + (b + 1)) 1, b + 1 - 1, rfl, by omega, by omega,
        by rw [List.length_set, hlen1], ?_, ?_, ?_, ?_, ?_⟩
      · rw [slideSum_set _ (i + (b + 1)) 1 (by omega), hnext, hz, hsum1,
          show i + (b + 1) = (i + b) + 1 by ring, pow_succ]
        ring
      · intro j hj
        rw [getD_set_ne _ _ _ 1 0 (by omega), getD_set_ne _ _ _ 0 0 (by omega)]
      · intro j hj1 hj2
        have hj : j = i + b := by omega
        rw [hj, getD_set_ne _ _ _ 1 0 (by omega), getD_set_eq _ _ 0 0 (by omega)]
      · rw [show i + (b + 1 - 1) + 1 = i + (b + 1) by omega,
          getD_set_eq _ _ 1 0 (by omega)]
      · intro j hj
        rw [getD_set_ne _ _ _ 1 0 (by omega), getD_set_ne _ _ _ 0 0 (by omega)]
    · rw [if_neg (by rw [hnext]; exact hz)]
      have hle : i + (b + 1) ≤ 255 := by
        by_contra hc
        have h : i + (b + 1) = 256 := by omega
        rw [h] at hz
        exact hz h256
      have hone : r.getD (i + (b + 1)) 0 = 1 := by
        rcases hbits (i + (b + 1)) (by omega) hle with h | h
        · exact absurd h hz
        · exact h
      obtain ⟨r2, b2, hrun, hb2, hb2le, hlen2, hsum2, hlow, hzero, htop, hhigh⟩ :=
        ih (r.set (i + b) 0) (b + 1) hlen1 hle (by omega)
          (by
            intro j hj1 hj2
            rw [getD_set_ne r _ _ 0 0 (by omega)]
            exact hbits j (by omega) hj2)
          (by rw [getD_set_ne r _ _ 0 0 (by omega)]; exact h256)
      refine ⟨r2, b2, hrun, by omega, hb2le, hlen2, ?_, ?_, ?_, htop, ?_⟩
      · rw [hsum2, hnext, hone, hsum1, show i + (b + 1) = (i + b) + 1 by ring, pow_succ]
        ring
      · intro j hj
        rw [hlow j (by omega), getD_set_ne r _ _ 0 0 (by omega)]
      · intro j hj1 hj2
        by_cases hj : j = i + b
        · rw [hj, hlow (i + b) (by omega), getD_set_eq r _ 0 0 (by omega)]
        · exact hzero j (by omega) hj2
      · intro j hj
        rw [hhigh j hj, getD_set_ne r _ _ 0 0 (by omega)]

end P256

namespace P256

/-- Once `b` has passed 4 the loop on `b` ends. -/
theorem slide_257_inner_done (fuel : Nat) (r : List Int) (i b : Nat) (hb : 5 ≤ b) :
    slide_257_inner (fuel + 1) r i b = some r := by
  rw [slide_257_inner, if_neg (by omega)]

theorem two_pow_facts (b : Nat) (h1 : 1 ≤ b) (h4 : b ≤ 4) :
    (2 : Int) ≤ 2 ^ b ∧ (2 : Int) ^ b ≤ 16 ∧ (2 : Int) ^ b % 2 = 0 ∧
    (2 : Int) ^ (b + 1) = 2 * 2 ^ b ∧ (b ≤ 3 → (2 : Int) ^ b ≤ 8) := by
  have hb : b = 1 ∨ b = 2 ∨ b = 3 ∨ b = 4 := by omega
  rcases hb with h | h | h | h <;> subst h <;> norm_num

/-- The loop on `b` left at its head. -/
theorem slide_257_inner_exit (i : Nat) (fuel : Nat) (r : List Int) (b : Nat)
    (hlen : r.length = 257)
    (hodd : r.getD i 0 % 2 = 1) (hpos : 1 ≤ r.getD i 0) (hle : r.getD i 0 ≤ 15)
    (hzeros : ∀ t, 1 ≤ t → t < b → r.getD (i + t) 0 = 0)
    (hbits : ∀ j, i < j → j ≤ 255 → r.getD j 0 = 0 ∨ r.getD j 0 = 1)
    (h256 : r.getD 256 0 = 0) (hc : ¬ (b ≤ 4 ∧ i + b < 256)) :
    ∃ r2, slide_257_inner (fuel + 1) r i b = some r2 ∧ r2.length = 257 ∧
      slideSum r2 = slideSum r ∧
      (∀ j, j < i → r2.getD j 0 = r.getD j 0) ∧
      r2.getD i 0 % 2 = 1 ∧ -15 ≤ r2.getD i 0 ∧ r2.getD i 0 ≤ 15 ∧
      (∀ t, 1 ≤ t → t ≤ 4 → r2.getD (i + t) 0 = 0) ∧
      (∀ j, i < j → j ≤ 256 → r2.getD j 0 = 0 ∨ r2.getD j 0 = 1) ∧
      (r2.getD 256 0 = 1 → ∀ j, i < j → j ≤ 255 → r2.getD j 0 = 0) := by
  rw [slide_257_inner, if_neg hc]
  refine ⟨r, rfl, hlen, rfl, fun _ _ => rfl, hodd, by omega, hle, ?_, ?_, ?_⟩
  · intro t ht1 ht4
    by_cases htb : t < b
    · exact hzeros t ht1 htb
    · by_cases h : i + t = 256
      · rw [h]
        exact h256
      · exact List.getD_eq_default _ _ (by omega)
  · intro j hj1 hj2
    by_cases h : j = 256
    · rw [h]
      exact Or.inl h256
    · exact hbits j hj1 (by omega)
  · intro h
    rw [h256] at h
    exact absurd h (by norm_num)

/-- The loop on `b` of `slide_257` for a digit `r[i]` that is odd, positive and below `2^b`,
with zeros between `r[i]` and `r[i + b]` and bits above: it ends, keeps the value and the
digits below `i`, leaves an odd digit of absolute value at most 15 followed by four zeros,
and bits above. -/
theorem slide_257_inner_spec (i : Nat) : ∀ (fuel : Nat) (r : List Int) (b : Nat),
    1 ≤ b → 5 ≤ fuel + b → r.length = 257 →
    r.getD i 0 % 2 = 1 → 1 ≤ r.getD i 0 → r.getD i 0 ≤ 15 → r.getD i 0 < 2 ^ b →
    (∀ t, 1 ≤ t → t < b → r.getD (i + t) 0 = 0) →
    (∀ j, i < j → j ≤ 255 → r.getD j 0 = 0 ∨ r.getD j 0 = 1) →
    r.getD 256 0 = 0 →
    ∃ r2, slide_257_inner (fuel + 1) r i b = some r2 ∧ r2.length = 257 ∧
      slideSum r2 = slideSum r ∧
      (∀ j, j < i → r2.getD j 0 = r.getD j 0) ∧
      r2.getD i 0 % 2 = 1 ∧ -15 ≤ r2.getD i 0 ∧ r2.getD i 0 ≤ 15 ∧
      (∀ t, 1 ≤ t → t ≤ 4 → r2.getD (i + t) 0 = 0) ∧
      (∀ j, i < j → j ≤ 256 → r2.getD j 0 = 0 ∨ r2.getD j 0 = 1) ∧
      (r2.getD 256 0 = 1 → ∀ j, i < j → j ≤ 255 → r2.getD j 0 = 0) := by
  intro fuel
  induction fuel with
  | zero =>
    intro r b hb1 hfuel hlen hodd hpos hle hlt hzeros hbits h256
    exact slide_257_inner_exit i 0 r b hlen hodd hpos hle hzeros hbits h256 (by omega)
  | succ fuel ih =>
    intro r b hb1 hfuel hlen hodd hpos hle hlt hzeros hbits h256
    by_cases hc : b ≤ 4 ∧ i + b < 256
    · obtain ⟨hb4, hib⟩ := hc
      obtain ⟨hp2, hp16, hpe, hps, hp8⟩ := two_pow_facts b hb1 hb4
      rw [slide_257_inner, if_pos ⟨hb4, hib⟩]
      by_cases hnz : r.getD (i + b) 0 = 0
      · rw [if_neg (fun h => h hnz)]
        exact ih r (b + 1) (by omega) (by omega) hlen hodd hpos hle (by omega)
          (by
            intro t ht1 ht2
            by_cases h : t = b
            · rw [h]
              exact hnz
            · exact hzeros t ht1 (by omega))
          hbits h256
      · have hone : r.getD (i + b) 0 = 1 := by
          rcases hbits (i + b) (by omega) (by omega) with h | h
          · exact absurd h hnz
          · exact h
        rw [if_pos hnz, hone, one_mul]
        by_cases hadd : r.getD i 0 + 2 ^ b ≤ 15
        · rw [if_pos hadd, int8_of_int_eq _ (by omega) (by omega)]
          have hlen0 : (r.set i (r.getD i 0 + 2 ^ b)).length = 257 := by
            rw [List.length_set, hlen]
          have hlen1 : ((r.set i (r.getD i 0 + 2 ^ b)).set (i + b) 0).length = 257 := by
            rw [List.length_set, hlen0]
          have hget_i : ((r.set i (r.getD i 0 + 2 ^ b)).set (i + b) 0).getD i 0 =
              r.getD i 0 + 2 ^ b := by
            rw [getD_set_ne _ _ _ 0 0 (by omega), getD_set_eq _ _ _ 0 (by omega)]
          have hget_o : ∀ j, j ≠ i → j ≠ i + b →
              ((r.set i (r.getD i 0 + 2 ^ b)).set (i + b) 0).getD j 0 = r.getD j 0 := by
            intro j h1 h2
            rw [getD_set_ne _ _ _ 0 0 (by omega), getD_set_ne _ _ _ _ 0 (by omega)]
          have hget_b : ((r.set i (r.getD i 0 + 2 ^ b)).set (i + b) 0).getD (i + b) 0 = 0 :=
            getD_set_eq _ _ _ 0 (by omega)
          have hsum1 : slideSum ((r.set i (r.getD i 0 + 2 ^ b)).set (i + b) 0) =
              slideSum r := by
            rw [slideSum_set _ (i + b) 0 (by omega), getD_set_ne _ _ _ _ 0 (by omega), hone,
              slideSum_set r i _ (by omega), pow_add]
            ring
          obtain ⟨r2, hrun, hlen2, hsum2, hframe, hrest⟩ :=
            ih ((r.set i (r.getD i 0 + 2 ^ b)).set (i + b) 0) (b + 1) (by omega) (by omega)
              hlen1 (by rw [hget_i]; omega) (by rw [hget_i]; omega) (by rw [hget_i]; omega)
              (by rw [hget_i]; omega)
              (by
                intro t ht1 ht2
                by_cases h : t = b
                · rw [h]
                  exact hget_b
                · rw [hget_o _ (by omega) (by omega)]
                  exact hzeros t ht1 (by omega))
              (by
                intro j hj1 hj2
                by_cases h : j = i + b
                · rw [h]
                  exact Or.inl hget_b
                · rw [hget_o _ (by omega) h]
                  exact hbits j hj1 hj2)
              (by rw [hget_o _ (by omega) (by omega)]; exact h256)
          refine ⟨r2, hrun, hlen2, hsum2.trans hsum1, ?_, hrest⟩
          intro j hj
          rw [hframe j hj, hget_o _ (by omega) (by omega)]
        · have hb4e : b = 4 := by
            by_contra hne
            have := hp8 (by omega)
            omega
          subst hb4e
          have h16 : (2 : Int) ^ 4 = 16 := by norm_num
          rw [h16] at hadd hlt
          rw [h16]
          rw [if_neg (by omega), if_pos (by omega), int8_of_int_eq _ (by omega) (by omega)]
          have hlen1 : (r.set i (r.getD i 0 - 16)).length = 257 := by
            rw [List.length_set, hlen]
          have hget_i : (r.set i (r.getD i 0 - 16)).getD i 0 = r.getD i 0 - 16 :=
            getD_set_eq _ _ _ 0 (by omega)
          have hget_o : ∀ j, j ≠ i → (r.set i (r.getD i 0 - 16)).getD j 0 = r.getD j 0 := by
            intro j h1
            rw [getD_set_ne _ _ _ _ 0 (by omega)]
          have hsum1 : slideSum (r.set i (r.getD i 0 - 16)) = slideSum r - 16 * 2 ^ i := by
            rw [slideSum_set r i _ (by omega)]
            ring
          obtain ⟨r2, b2, hrun, hb2, hb2le, hlen2, hsum2, hlow, hzero, htop, hhigh⟩ :=
            slide_257_carry_spec i 257 (r.set i (r.getD i 0 - 16)) 4 hlen1 (by omega)
              (by omega)
              (by
                intro j hj1 hj2
                rw [hget_o _ (by omega)]
                exact hbits j (by omega) hj2)
              (by rw [hget_o _ (by omega)]; exact h256)
          simp only [hrun]
          rw [slide_257_inner_done fuel r2 i (b2 + 1) (by omega)]
          rw [hget_o _ (by omega), hone] at hsum2
          refine ⟨r2, rfl, hlen2, ?_, ?_, ?_, ?_, ?_, ?_, ?_, ?_⟩
          · rw [hsum2, hsum1, pow_add]
            ring
          · intro j hj
            rw [hlow j (by omega), hget_o _ (by omega)]
          · rw [hlow i (by omega), hget_i]
            omega
          · rw [hlow i (by omega), hget_i]
            omega
          · rw [hlow i (by omega), hget_i]
            omega
          · intro t ht1 ht4
            by_cases h : t = 4
            · rw [h]
              exact hzero (i + 4) (le_refl _) (by omega)
            · rw [hlow (i + t) (by omega), hget_o _ (by omega)]
              exact hzeros t ht1 (by omega)
          · intro j hj1 hj2
            by_cases h1 : j < i + 4
            · rw [hlow j h1, hget_o _ (by omega)]
              exact hbits j hj1 (by omega)
            · by_cases h2 : j ≤ i + b2
              · exact Or.inl (hzero j (by omega) h2)
              · by_cases h3 : j = i + b2 + 1
                · rw [h3]
                  exact Or.inr htop
                · rw [hhigh j (by omega), hget_o _ (by omega)]
                  by_cases h4 : j = 256
                  · rw [h4]
                    exact Or.inl h256
                  · exact hbits j hj1 (by omega)
          · intro htop1 j hj1 hj2
            have hk : i + b2 + 1 = 256 := by
              by_contra hne
              rw [hhigh 256 (by omega), hget_o _ (by omega), h256] at htop1
              exact absurd htop1 (by norm_num)
            by_cases h1 : j < i + 4
            · rw [hlow j h1, hget_o _ (by omega)]
              have hz := hzeros (j - i) (by omega) (by omega)
              rw [show i + (j - i) = j by omega] at hz
              exact hz
            · exact hzero j (by omega) (by omega)
    · exact slide_257_inner_exit i (fuel + 1) r b hlen hodd hpos hle hzeros hbits h256 hc

end P256

namespace P256

theorem getD_map_range_append (f : Nat → Int) (n j : Nat) (hj : j < n) :
    ((List.range n).map f ++ [0]).getD j 0 = f j := by
  rw [List.getD_eq_getElem?_getD, List.getElem?_append_left (by simpa using hj)]
  simp [hj]

theorem getD_map_range_append_last (f : Nat → Int) (n : Nat) :
    ((List.range n).map f ++ [0]).getD n 0 = 0 := by
  rw [List.getD_eq_getElem?_getD, List.getElem?_append_right (by simp)]
  simp

/-- The second loop of `slide_257`, run up to the index `n` on digits that start as bits: it
ends; the value is kept; below `n` every digit is zero or odd with absolute value at most 15,
and a non-zero digit is followed by four zeros; from `n` on the digits are bits, all zero
below the top digit if that one is set. -/
theorem slide_257_fold_spec (r0 : List Int) (hlen0 : r0.length = 257)
    (hbits0 : ∀ j, j ≤ 255 → r0.getD j 0 = 0 ∨ r0.getD j 0 = 1)
    (htop0 : r0.getD 256 0 = 0) :
    ∀ n, n ≤ 256 →
      ∃ r, (List.range n).foldl slide_257_step (some r0) = some r ∧ r.length = 257 ∧
        slideSum r = slideSum r0 ∧
        (∀ j, j < n → r.getD j 0 = 0 ∨
          (r.getD j 0 % 2 = 1 ∧ -15 ≤ r.getD j 0 ∧ r.getD j 0 ≤ 15)) ∧
        (∀ j, j < n → r.getD j 0 ≠ 0 → ∀ t, 1 ≤ t → t ≤ 4 → r.getD (j + t) 0 = 0) ∧
        (∀ j, n ≤ j → j ≤ 256 → r.getD j 0 = 0 ∨ r.getD j 0 = 1) ∧
        (r.getD 256 0 = 1 → ∀ j, n ≤ j → j ≤ 255 → r.getD j 0 = 0) := by
  intro n
  induction n with
  | zero =>
    intro _
    refine ⟨r0, rfl, hlen0, rfl, ?_, ?_, ?_, ?_⟩
    · intro j hj
      omega
    · intro j hj
      omega
    · intro j _ hj
      by_cases h : j = 256
      · rw [h]
        exact Or.inl htop0
      · exact hbits0 j (by omega)
    · intro h
      rw [htop0] at h
      exact absurd h (by norm_num)
  | succ n ih =>
    intro hn
    obtain ⟨r, hfold, hlen, hsum, hD, hG, hU, hH⟩ := ih (by omega)
    rw [List.range_succ, List.foldl_append, hfold, List.foldl_cons, List.foldl_nil]
    by_cases hz : r.getD n 0 = 0
    · have hstep : slide_257_step (some r) n = some r := by
        simp only [slide_257_step, hz, ne_eq, not_true_eq_false, if_false]
      rw [hstep]
      refine ⟨r, rfl, hlen, hsum, ?_, ?_, ?_, ?_⟩
      · intro j hj
        by_cases h : j = n
        · rw [h]
          exact Or.inl hz
        · exact hD j (by omega)
      · intro j hj hne
        by_cases h : j = n
        · rw [h] at hne
          exact absurd hz hne
        · exact hG j (by omega) hne
      · intro j hj1 hj2
        exact hU j (by omega) hj2
      · intro h j hj1 hj2
        exact hH h j (by omega) hj2
    · have hstep : slide_257_step (some r) n = slide_257_inner 5 r n 1 := by
        simp only [slide_257_step, ne_eq, hz, not_false_eq_true, if_true]
      rw [hstep]
      have hone : r.getD n 0 = 1 := by
        rcases hU n (le_refl _) (by omega) with h | h
        · exact absurd h hz
        · exact h
      have h256 : r.getD 256 0 = 0 := by
        rcases hU 256 (by omega) (le_refl _) with h | h
        · exact h
        · exact absurd (hH h n (le_refl _) (by omega)) hz
      obtain ⟨r2, hrun, hlen2, hsum2, hframe, hodd, hlo, hhi, hzeros, hbits, htop⟩ :=
        slide_257_inner_spec n 4 r 1 (le_refl _) (by omega) hlen (by rw [hone]; norm_num)
          (by rw [hone]) (by rw [hone]; norm_num) (by rw [hone]; norm_num)
          (by
            intro t ht1 ht2
            omega)
          (by
            intro j hj1 hj2
            exact hU j (by omega) (by omega))
          h256
      refine ⟨r2, hrun, hlen2, hsum2.trans hsum, ?_, ?_, ?_, ?_⟩
      · intro j hj
        by_cases h : j = n
        · rw [h]
          exact Or.inr ⟨hodd, hlo, hhi⟩
        · rw [hframe j (by omega)]
          exact hD j (by omega)
      · intro j hj hne t ht1 ht4
        by_cases h : j = n
        · rw [h]
          exact hzeros t ht1 ht4
        · have hjn : j < n := by omega
          rw [hframe j hjn] at hne
          have hz4 := hG j hjn hne
          have hlt : j + t < n := by
            by_contra hc
            have hznb := hz4 (n - j) (by omega) (by omega)
            rw [show j + (n - j) = n by omega] at hznb
            exact hz hznb
          rw [hframe (j + t) hlt]
          exact hz4 t ht1 ht4
      · intro j hj1 hj2
        exact hbits j (by omega) hj2
      · intro h j hj1 hj2
        exact htop h j (by omega) hj2

/-- The digits after the first loop of `slide_257` are the bits of the input. -/
theorem slide_257_init (a : List Byte) :
    ((List.range 256).map (fun i =>
        ((1 &&& ((a.getD (i >>> 3) 0).val >>> (i &&& 7)) : Nat) : Int)) ++ [0]).length = 257 ∧
    (∀ j, j ≤ 255 →
      ((List.range 256).map (fun i =>
        ((1 &&& ((a.getD (i >>> 3) 0).val >>> (i &&& 7)) : Nat) : Int)) ++ [0]).getD j 0 = 0 ∨
      ((List.range 256).map (fun i =>
        ((1 &&& ((a.getD (i >>> 3) 0).val >>> (i &&& 7)) : Nat) : Int)) ++ [0]).getD j 0 = 1) ∧
    ((List.range 256).map (fun i =>
        ((1 &&& ((a.getD (i >>> 3) 0).val >>> (i &&& 7)) : Nat) : Int)) ++ [0]).getD 256 0 = 0 ∧
    slideSum ((List.range 256).map (fun i =>
        ((1 &&& ((a.getD (i >>> 3) 0).val >>> (i &&& 7)) : Nat) : Int)) ++ [0]) =
      ((a.foldr (fun w acc => w.val + 256 * acc) 0 % 2 ^ 256 : Nat) : Int) := by
  refine ⟨by simp, ?_, getD_map_range_append_last _ 256, ?_⟩
  · intro j hj
    rw [getD_map_range_append _ 256 j (by omega), slide_bit_eq]
    have h := Nat.mod_two_eq_zero_or_one (a.foldr (fun w acc => w.val + 256 * acc) 0 / 2 ^ j)
    rcases h with h | h
    · left
      rw [h]
      rfl
    · right
      rw [h]
      rfl
  · have hf : (fun i => ((1 &&& ((a.getD (i >>> 3) 0).val >>> (i &&& 7)) : Nat) : Int)) =
        fun i => ((a.foldr (fun w acc => w.val + 256 * acc) 0 / 2 ^ i % 2 : Nat) : Int) := by
      funext i
      rw [slide_bit_eq]
    rw [hf, slideSum_append, List.range_eq_range', slideSum_bits _ 256 0]
    simp [slideSum]

/-- The full statement about `slide_257`: it returns 257 digits whose value is the input
modulo `2^256`; every digit is zero or odd with absolute value at most 15, and a non-zero
digit is followed by four zeros. -/
theorem slide_257_spec (a : List Byte) :
    ∃ r, slide_257 a = some r ∧ r.length = 257 ∧
      slideSum r = ((a.foldr (fun w acc => w.val + 256 * acc) 0 % 2 ^ 256 : Nat) : Int) ∧
      (∀ j, j ≤ 256 → r.getD j 0 = 0 ∨
        (r.getD j 0 % 2 = 1 ∧ -15 ≤ r.getD j 0 ∧ r.getD j 0 ≤ 15)) ∧
      (∀ j, j ≤ 255 → r.getD j 0 ≠ 0 → ∀ t, 1 ≤ t → t ≤ 4 → r.getD (j + t) 0 = 0) := by
  obtain ⟨hlen0, hbits0, htop0, hsum0⟩ := slide_257_init a
  obtain ⟨r, hfold, hlen, hsum, hD, hG, hU, _⟩ :=
    slide_257_fold_spec _ hlen0 hbits0 htop0 256 (le_refl _)
  refine ⟨r, hfold, hlen, hsum.trans hsum0, ?_, ?_⟩
  · intro j hj
    by_cases h : j = 256
    · rw [h]
      rcases hU 256 (le_refl _) (le_refl _) with h0 | h1
      · exact Or.inl h0
      · right
        rw [h1]
        norm_num
    · exact hD j (by omega)
  · intro j hj
    exact hG j (by omega)

/-- The recoding `slide_257` always returns its digits. -/
theorem slide_257_total (a : List Byte) : ∃ r, slide_257 a = some r := by
  obtain ⟨r, h, _⟩ := slide_257_spec a
  exact ⟨r, h⟩

theorem ofBytes_val_of_length (a : List Byte) (ha : a.length = 32) :
    (U256.ofBytes a).val = a.foldr (fun w acc => w.val + 256 * acc) 0 % 2 ^ 256 := by
  unfold U256.ofBytes
  rw [List.take_of_length_le (le_of_eq ha), U256.val_ofNat]

/-- C24. `slide_257` preserves the value: for every input `a` of 32 bytes, the function
returns 257 digits `r` with `r[0] + 2*r[1] + 4*r[2] + ... + 2^256*r[256]` equal to the
little-endian value of `a`. -/
theorem slide_257_preserves_value (a : List Byte) (ha : a.length = 32) :
    ∃ r, slide_257 a = some r ∧ r.length = 257 ∧
      slideSum r = ((U256.ofBytes a).val : Int) := by
  obtain ⟨r, h, hlen, hsum, _⟩ := slide_257_spec a
  refine ⟨r, h, hlen, ?_⟩
  rw [hsum, ofBytes_val_of_length a ha]

/-- Witness for C24: the input with all bits set. -/
theorem slide_257_preserves_value_witness :
    ∃ r, slide_257 (List.replicate 32 (255 : Byte)) = some r ∧ r.length = 257 ∧
      slideSum r = ((U256.ofBytes (List.replicate 32 (255 : Byte))).val : Int) :=
  slide_257_preserves_value (List.replicate 32 (255 : Byte)) (List.length_replicate _ _)

/-- C25. The digit shape of `slide_257`: for every input of 32 bytes, every output digit
`r[i]` (`0 ≤ i ≤ 256`) is 0 or an odd integer with `-15 ≤ r[i] ≤ 15`, and two non-zero digits
are at least 5 positions apart. -/
theorem slide_257_digit_shape (a : List Byte) (ha : a.length = 32) :
    ∃ r, slide_257 a = some r ∧ r.length = 257 ∧
      (∀ i, i ≤ 256 → r.getD i 0 = 0 ∨
        (r.getD i 0 % 2 = 1 ∧ -15 ≤ r.getD i 0 ∧ r.getD i 0 ≤ 15)) ∧
      (∀ i j, i < j → j ≤ 256 → r.getD i 0 ≠ 0 → r.getD j 0 ≠ 0 → 5 ≤ j - i) := by
  obtain ⟨r, h, hlen, _, hD, hG⟩ := slide_257_spec a
  refine ⟨r, h, hlen, hD, ?_⟩
  intro i j hij hj hi0 hj0
  by_contra hc
  have hz := hG i (by omega) hi0 (j - i) (by omega) (by omega)
  rw [show i + (j - i) = j by omega] at hz
  exact hj0 hz

/-- Witness for C25: the input `01 02 03 ... 20` (hexadecimal). -/
theorem slide_257_digit_shape_witness :
    ∃ r, slide_257 ((List.range 32).map fun i => (Fin.ofNat (i + 1) : Byte)) = some r ∧
      r.length = 257 ∧
      (∀ i, i ≤ 256 → r.getD i 0 = 0 ∨
        (r.getD i 0 % 2 = 1 ∧ -15 ≤ r.getD i 0 ∧ r.getD i 0 ≤ 15)) ∧
      (∀ i j, i < j → j ≤ 256 → r.getD i 0 ≠ 0 → r.getD j 0 ≠ 0 → 5 ≤ j - i) :=
  slide_257_digit_shape ((List.range 32).map fun i => (Fin.ofNat (i + 1) : Byte))
    (by simp)

end P256

namespace P256

/-! ## The record of calls of the secret-handling routines -/

end P256

namespace P256

open WeierstrassCurve

/-! ## The tables of the fixed-base ladder and the constant `one_montgomery` -/

theorem precomp_entry_x (t mask : Nat) :
    (precomp_entry t mask).x = ((p256_basepoint_precomp2.getD t []).getD mask default).x := rfl

theorem precomp_entry_y (t mask : Nat) :
    (precomp_entry t mask).y = ((p256_basepoint_precomp2.getD t []).getD mask default).y := rfl

/-- An entry of `p256_basepoint_precomp2` in plain coordinates. -/
theorem precomp2_entry_affine {G : P256_curve.toAffine.Point} (hG : IsAffine G_x G_y G)
    (t m : Nat) (ht : t < 2) (hm : m < 8) :
    ∃ x y : U256, IsAffine x y ((2 ^ (32 * t) * precomp_scalar m) • G) ∧
      ((p256_basepoint_precomp2.getD t []).getD m default).x.val = x.val * 2 ^ 256 % P256_p ∧
      ((p256_basepoint_precomp2.getD t []).getD m default).y.val = y.val * 2 ^ 256 % P256_p ∧
      ((p256_basepoint_precomp2.getD t []).getD m default).x.val < P256_p ∧
      ((p256_basepoint_precomp2.getD t []).getD m default).y.val < P256_p := by
  have h := precomp_entry_spec (G_ARep_of_IsAffine hG) t m ht hm
  rw [precomp_entry_x, precomp_entry_y] at h
  refine ⟨P256_from_montgomery ((p256_basepoint_precomp2.getD t []).getD m default).x,
    P256_from_montgomery ((p256_basepoint_precomp2.getD t []).getD m default).y,
    IsAffine_of_ARep h, ?_, ?_, h.1, h.2.1⟩
  · rw [← val_to_montgomery, to_from_montgomery _ h.1]
  · rw [← val_to_montgomery, to_from_montgomery _ h.2.1]

/-- C31. The fixed-base tables are correct: for every index `m` in `0..7` with the bits
`b0 = m % 2`, `b1 = m / 2 % 2`, `b2 = m / 4 % 2`, the entry `p256_basepoint_precomp2[0][m]` holds
`(x·2^256 mod p, y·2^256 mod p)` for the affine coordinates `(x, y)` of
`(2^192 + (2·b2 - 1)·2^128 + (2·b1 - 1)·2^64 + (2·b0 - 1))·G`, and `p256_basepoint_precomp2[1][m]`
holds the same for `2^32` times that point; `G = (G_x, G_y)` is the base point and every stored
coordinate is below `p`. -/
theorem fixed_base_tables_correct (G : P256_curve.toAffine.Point) (hG : IsAffine G_x G_y G)
    (m : Nat) (hm : m < 8) :
    (∃ x y : U256,
      IsAffine x y
        ((2 ^ 192 + (2 * (m / 4 % 2 : Nat) - 1) * 2 ^ 128 + (2 * (m / 2 % 2 : Nat) - 1) * 2 ^ 64
          + (2 * (m % 2 : Nat) - 1) : Int) • G) ∧
      ((p256_basepoint_precomp2.getD 0 []).getD m default).x.val = x.val * 2 ^ 256 % P256_p ∧
      ((p256_basepoint_precomp2.getD 0 []).getD m default).y.val = y.val * 2 ^ 256 % P256_p ∧
      ((p256_basepoint_precomp2.getD 0 []).getD m default).x.val < P256_p ∧
      ((p256_basepoint_precomp2.getD 0 []).getD m default).y.val < P256_p) ∧
    (∃ x y : U256,
      IsAffine x y
        ((2 ^ 32 : Int) •
          ((2 ^ 192 + (2 * (m / 4 % 2 : Nat) - 1) * 2 ^ 128 + (2 * (m / 2 % 2 : Nat) - 1) * 2 ^ 64
            + (2 * (m % 2 : Nat) - 1) : Int) • G)) ∧
      ((p256_basepoint_precomp2.getD 1 []).getD m default).x.val = x.val * 2 ^ 256 % P256_p ∧
      ((p256_basepoint_precomp2.getD 1 []).getD m default).y.val = y.val * 2 ^ 256 % P256_p ∧
      ((p256_basepoint_precomp2.getD 1 []).getD m default).x.val < P256_p ∧
      ((p256_basepoint_precomp2.getD 1 []).getD m default).y.val < P256_p) := by
  have hs : (2 ^ 192 + (2 * (m / 4 % 2 : Nat) - 1) * 2 ^ 128 + (2 * (m / 2 % 2 : Nat) - 1) * 2 ^ 64
      + (2 * (m % 2 : Nat) - 1) : Int) = precomp_scalar m := rfl
  rw [hs]
  constructor
  · have h := precomp2_entry_affine hG 0 m (by decide) hm
    rw [Nat.mul_zero, pow_zero, one_mul] at h
    exact h
  · have h := precomp2_entry_affine hG 1 m (by decide) hm
    rw [Nat.mul_one, mul_zsmul] at h
    exact h

/-- Witness for C31: the entry `m = 7` of both tables, the multiples `2^192 + 2^128 + 2^64 + 1`
and `2^32` times it of the base point. -/
theorem fixed_base_tables_correct_witness :
    (∃ x y : U256,
      IsAffine x y
        ((2 ^ 192 + (2 * (7 / 4 % 2 : Nat) - 1) * 2 ^ 128 + (2 * (7 / 2 % 2 : Nat) - 1) * 2 ^ 64
          + (2 * (7 % 2 : Nat) - 1) : Int) •
          (Affine.Point.some G_nonsingular : P256_curve.toAffine.Point)) ∧
      ((p256_basepoint_precomp2.getD 0 []).getD 7 default).x.val = x.val * 2 ^ 256 % P256_p ∧
      ((p256_basepoint_precomp2.getD 0 []).getD 7 default).y.val = y.val * 2 ^ 256 % P256_p ∧
      ((p256_basepoint_precomp2.getD 0 []).getD 7 default).x.val < P256_p ∧
      ((p256_basepoint_precomp2.getD 0 []).getD 7 default).y.val < P256_p) ∧
    (∃ x y : U256,
      IsAffine x y
        ((2 ^ 32 : Int) •
          ((2 ^ 192 + (2 * (7 / 4 % 2 : Nat) - 1) * 2 ^ 128 + (2 * (7 / 2 % 2 : Nat) - 1) * 2 ^ 64
            + (2 * (7 % 2 : Nat) - 1) : Int) •
            (Affine.Point.some G_nonsingular : P256_curve.toAffine.Point))) ∧
      ((p256_basepoint_precomp2.getD 1 []).getD 7 default).x.val = x.val * 2 ^ 256 % P256_p ∧
      ((p256_basepoint_precomp2.getD 1 []).getD 7 default).y.val = y.val * 2 ^ 256 % P256_p ∧
      ((p256_basepoint_precomp2.getD 1 []).getD 7 default).x.val < P256_p ∧
      ((p256_basepoint_precomp2.getD 1 []).getD 7 default).y.val < P256_p) :=
  fixed_base_tables_correct _ G_IsAffine 7 (by decide)

/-- C32. The constant `one_montgomery`, whose limbs are
`{1, 0, 0, 0xffffffff, 0xffffffff, 0xffffffff, 0xfffffffe, 0}` (least significant first), is
`2^256 mod p` for `p = 2^256 - 2^224 + 2^192 + 2^96 - 1`, the Montgomery form of 1, and is
below `p`. -/
theorem one_montgomery_eq_R_mod_p :
    (List.range 8).map one_montgomery.limb =
      [1, 0, 0, 0xffffffff, 0xffffffff, 0xffffffff, 0xfffffffe, 0] ∧
    P256_p = 2 ^ 256 - 2 ^ 224 + 2 ^ 192 + 2 ^ 96 - 1 ∧
    one_montgomery.val = 2 ^ 256 % P256_p ∧
    one_montgomery = P256_to_montgomery (U256.ofNat 1) ∧
    one_montgomery.val < P256_p := by
  refine ⟨by decide!, rfl, by decide!, ?_, by decide!⟩
  apply U256.ext
  rw [val_to_montgomery]
  decide!

/-! ## Bit positions and table indices of the fixed-base ladder -/

theorem fixed_base_step_idx_fst (scalar2 : U256) (cp : JacobianPoint) (i : Nat) :
    (scalarmult_fixed_base_step_idx scalar2 cp i).1 = scalarmult_fixed_base_step scalar2 cp i := by
  unfold scalarmult_fixed_base_step_idx scalarmult_fixed_base_step
  by_cases h : i = 31
  · simp only [h, if_true]
  · simp only [h, if_false]

theorem fixed_base_step_idx_bits (scalar2 : U256) (cp : JacobianPoint) (i : Nat) :
    (scalarmult_fixed_base_step_idx scalar2 cp i).2.1 =
      [i + 33, i + 97, i + 161] ++ (if i = 31 then [] else [i + 225]) ++
        [i + 1, i + 65, i + 129, i + 193] := by
  unfold scalarmult_fixed_base_step_idx
  by_cases h : i = 31
  · simp only [h, if_true, List.append_assoc, List.cons_append, List.nil_append]
  · simp only [h, if_false, List.append_assoc, List.cons_append, List.nil_append]

theorem fixed_base_step_idx_tables (scalar2 : U256) (cp : JacobianPoint) (i : Nat) :
    (scalarmult_fixed_base_step_idx scalar2 cp i).2.2 =
      [(if i = 31 then
          get_bit scalar2 (i + 32 + 1) ||| (get_bit scalar2 (i + 64 + 32 + 1) <<< 1)
            ||| (get_bit scalar2 (i + 2 * 64 + 32 + 1) <<< 2)
        else
          ((get_bit scalar2 (i + 32 + 1) ||| (get_bit scalar2 (i + 64 + 32 + 1) <<< 1)
            ||| (get_bit scalar2 (i + 2 * 64 + 32 + 1) <<< 2)) ^^^
            ((get_bit scalar2 (i + 3 * 64 + 32 + 1) + 2 ^ 32 - 1) % 2 ^ 32)) &&& 7),
        ((get_bit scalar2 (i + 1) ||| (get_bit scalar2 (i + 64 + 1) <<< 1)
            ||| (get_bit scalar2 (i + 2 * 64 + 1) <<< 2)) ^^^
            ((get_bit scalar2 (i + 3 * 64 + 1) + 2 ^ 32 - 1) % 2 ^ 32)) &&& 7] := by
  unfold scalarmult_fixed_base_step_idx
  by_cases h : i = 31
  · simp only [h, if_true, List.cons_append, List.nil_append]
  · simp only [h, if_false, List.cons_append, List.nil_append]

theorem and_seven_lt (a : Nat) : a &&& 7 < 8 :=
  Nat.lt_succ_of_le Nat.and_le_right

/-- C34. Bit indexing in `scalarmult_fixed_base` stays inside the 8-limb scalar. For every
loop index `i` in `0..31`, the round evaluates `get_bit(scalar2, .)` at the positions
`i + 33`, `i + 97`, `i + 161`, then `i + 225` unless `i = 31` (the initialisation branch does
not read the sign bit, whose position would be 256), then `i + 1`, `i + 65`, `i + 129`,
`i + 193`; all of them are at most 255, so the limb index is at most 7; and the two table
indices of the round are in `0..7`.  The recorded round computes what the plain round does. -/
theorem fixed_base_bit_indexing (scalar2 : U256) (cp : JacobianPoint) (i : Nat) (hi : i < 32) :
    (scalarmult_fixed_base_step_idx scalar2 cp i).1 = scalarmult_fixed_base_step scalar2 cp i ∧
    (scalarmult_fixed_base_step_idx scalar2 cp i).2.1 =
      [i + 33, i + 97, i + 161] ++ (if i = 31 then [] else [i + 225]) ++
        [i + 1, i + 65, i + 129, i + 193] ∧
    (∀ p, p ∈ (scalarmult_fixed_base_step_idx scalar2 cp i).2.1 → p ≤ 255 ∧ p / 32 < 8) ∧
    (i = 31 → i + 3 * 64 + 32 + 1 = 256 ∧
      ¬ (i + 3 * 64 + 32 + 1) ∈ (scalarmult_fixed_base_step_idx scalar2 cp i).2.1) ∧
    (scalarmult_fixed_base_step_idx scalar2 cp i).2.2.length = 2 ∧
    (∀ m, m ∈ (scalarmult_fixed_base_step_idx scalar2 cp i).2.2 → m < 8) := by
  have hbits : ∀ p, p ∈ (scalarmult_fixed_base_step_idx scalar2 cp i).2.1 → p ≤ 255 := by
    intro p hp
    rw [fixed_base_step_idx_bits] at hp
    by_cases h : i = 31
    · simp only [h, if_true, List.append_nil, List.mem_append, List.mem_cons,
        List.mem_singleton, List.not_mem_nil, or_false] at hp
      omega
    · simp only [h, if_false, List.mem_append, List.mem_cons, List.mem_singleton,
        List.not_mem_nil, or_false] at hp
      omega
  refine ⟨fixed_base_step_idx_fst scalar2 cp i, fixed_base_step_idx_bits scalar2 cp i, ?_, ?_,
    ?_, ?_⟩
  · intro p hp
    have := hbits p hp
    exact ⟨this, by omega⟩
  · intro h
    refine ⟨by omega, ?_⟩
    intro hmem
    have := hbits _ hmem
    omega
  · rw [fixed_base_step_idx_tables]
    rfl
  · intro m hm
    rw [fixed_base_step_idx_tables] at hm
    simp only [List.mem_cons, List.mem_singleton, List.not_mem_nil, or_false] at hm
    rcases hm with hm | hm
    · rw [hm]
      by_cases h : i = 31
      · rw [if_pos h]
        exact (fixed_select_first _ (get_bit_lt _ _) _ (get_bit_lt _ _) _ (get_bit_lt _ _)).1
      · rw [if_neg h]
        exact and_seven_lt _
    · rw [hm]
      exact and_seven_lt _

/-- Witness for C34: the first round, `i = 31`, for the scalar 1. -/
theorem fixed_base_bit_indexing_witness :
    (scalarmult_fixed_base_step_idx (U256.ofNat 1) default 31).2.1 =
      [31 + 33, 31 + 97, 31 + 161] ++ (if 31 = 31 then [] else [31 + 225]) ++
        [31 + 1, 31 + 65, 31 + 129, 31 + 193] ∧
    (∀ p, p ∈ (scalarmult_fixed_base_step_idx (U256.ofNat 1) default 31).2.1 →
      p ≤ 255 ∧ p / 32 < 8) ∧
    (∀ m, m ∈ (scalarmult_fixed_base_step_idx (U256.ofNat 1) default 31).2.2 → m < 8) :=
  ⟨(fixed_base_bit_indexing (U256.ofNat 1) default 31 (by decide)).2.1,
    (fixed_base_bit_indexing (U256.ofNat 1) default 31 (by decide)).2.2.1,
    (fixed_base_bit_indexing (U256.ofNat 1) default 31 (by decide)).2.2.2.2.2⟩

end P256

namespace P256

/-! ## The indices of `r` that `slide_257` reads or writes -/

theorem all_le_append {l1 l2 : List Nat} {n : Nat} (h1 : ∀ j, j ∈ l1 → j ≤ n)
    (h2 : ∀ j, j ∈ l2 → j ≤ n) : ∀ j, j ∈ l1 ++ l2 → j ≤ n := by
  intro j hj
  rcases List.mem_append.mp hj with h | h
  · exact h1 j h
  · exact h2 j h

/-- A run of the carry loop that passes the checks of the index is a run of the loop without
the checks, and every index it uses is at most 256. -/
theorem slide_257_carry_idx_of (i : Nat) : ∀ (fuel : Nat) (r : List Int) (b : Nat)
    (r2 : List Int) (b2 : Nat), slide_257_carry fuel r i b = some (r2, b2) →
    ∃ t, slide_257_carry_idx fuel r i b = some (r2, b2, t) ∧ ∀ j, j ∈ t → j ≤ 256 := by
  intro fuel
  induction fuel with
  | zero =>
    intro r b r2 b2 h
    rw [slide_257_carry] at h
    cases h
  | succ fuel ih =>
    intro r b r2 b2 h
    rw [slide_257_carry] at h
    rw [slide_257_carry_idx]
    by_cases hg1 : 256 < i + b
    · rw [if_pos hg1] at h
      cases h
    by_cases hg2 : 256 < i + (b + 1)
    · simp only [hg1, hg2, if_false, if_true] at h
      cases h
    by_cases hz : (r.set (i + b) 0).getD (i + (b + 1)) 0 = 0
    · simp only [hg1, hg2, hz, if_false, if_true] at h
      obtain ⟨h1, h2⟩ := Prod.mk.inj (Option.some.inj h)
      simp only [hz, if_true]
      refine ⟨_, by rw [h1, h2], ?_⟩
      intro j hj
      simp only [List.mem_append, List.mem_cons, List.mem_singleton, List.not_mem_nil,
        or_false] at hj
      omega
    · simp only [hg1, hg2, hz, if_false] at h
      obtain ⟨t, ht, hb⟩ := ih _ _ _ _ h
      simp only [hz, if_false, ht]
      refine ⟨_, rfl, ?_⟩
      apply all_le_append _ hb
      intro j hj
      simp only [List.mem_append, List.mem_cons, List.mem_singleton, List.not_mem_nil,
        or_false] at hj
      omega

/-- A run of the loop on `b` is a run of the recorded loop, and every index it uses is at most
256. -/
theorem slide_257_inner_idx_of (i : Nat) (hi : i ≤ 255) : ∀ (fuel : Nat) (r : List Int)
    (b : Nat) (r2 : List Int), slide_257_inner fuel r i b = some r2 →
    ∃ t, slide_257_inner_idx fuel r i b = some (r2, t) ∧ ∀ j, j ∈ t → j ≤ 256 := by
  intro fuel
  induction fuel with
  | zero =>
    intro r b r2 h
    rw [slide_257_inner] at h
    cases h
  | succ fuel ih =>
    intro r b r2 h
    rw [slide_257_inner] at h
    rw [slide_257_inner_idx]
    by_cases hc : b ≤ 4 ∧ i + b < 256
    · rw [if_pos hc] at h
      rw [if_pos hc]
      have hsmall : ∀ l : List Nat, (∀ j, j ∈ l → j = i ∨ j = i + b) → ∀ j, j ∈ l → j ≤ 256 := by
        intro l hl j hj
        rcases hl j hj with e | e <;> omega
      by_cases hnz : r.getD (i + b) 0 ≠ 0
      · rw [if_pos hnz] at h
        simp only [hnz, ne_eq, not_false_eq_true, if_true]
        by_cases hadd : r.getD i 0 + r.getD (i + b) 0 * 2 ^ b ≤ 15
        · rw [if_pos hadd] at h
          obtain ⟨t, ht, hb⟩ := ih _ _ _ h
          simp only [hadd, if_true, ht]
          refine ⟨_, rfl, all_le_append (hsmall _ ?_) hb⟩
          intro j hj
          simp only [List.mem_append, List.mem_cons, List.mem_singleton, List.not_mem_nil,
            or_false] at hj
          omega
        · rw [if_neg hadd] at h
          simp only [hadd, if_false]
          by_cases hsub : r.getD i 0 - r.getD (i + b) 0 * 2 ^ b ≥ -15
          · rw [if_pos hsub] at h
            simp only [hsub, if_true]
            cases hcr : slide_257_carry 257
                (r.set i (int8_of_int (r.getD i 0 - r.getD (i + b) 0 * 2 ^ b))) i b with
            | none =>
              simp only [hcr] at h
              cases h
            | some rb =>
              obtain ⟨r1, b1⟩ := rb
              simp only [hcr] at h
              obtain ⟨t1, ht1, hb1⟩ := slide_257_carry_idx_of i 257 _ _ _ _ hcr
              obtain ⟨t, ht, hb⟩ := ih _ _ _ h
              simp only [ht1, ht]
              refine ⟨_, rfl, all_le_append (all_le_append (hsmall _ ?_) hb1) hb⟩
              intro j hj
              simp only [List.mem_append, List.mem_cons, List.mem_singleton, List.not_mem_nil,
                or_false] at hj
              omega
          · rw [if_neg hsub] at h
            simp only [hsub, if_false]
            refine ⟨_, by rw [Option.some.inj h], hsmall _ ?_⟩
            intro j hj
            simp only [List.mem_append, List.mem_cons, List.mem_singleton, List.not_mem_nil,
              or_false] at hj
            omega
      · rw [if_neg hnz] at h
        simp only [hnz, if_false]
        obtain ⟨t, ht, hb⟩ := ih _ _ _ h
        simp only [ht]
        refine ⟨_, rfl, all_le_append (hsmall _ ?_) hb⟩
        intro j hj
        simp only [List.mem_cons, List.mem_singleton, List.not_mem_nil, or_false] at hj
        omega
    · rw [if_neg hc] at h
      rw [if_neg hc]
      refine ⟨[], by rw [Option.some.inj h], ?_⟩
      intro j hj
      cases hj

theorem slide_257_step_idx_of (i : Nat) (hi : i ≤ 255) (r r2 : List Int) (t0 : List Nat)
    (h0 : ∀ j, j ∈ t0 → j ≤ 256) (h : slide_257_step (some r) i = some r2) :
    ∃ t, slide_257_step_idx (some (r, t0)) i = some (r2, t) ∧ ∀ j, j ∈ t → j ≤ 256 := by
  have hi1 : ∀ j, j ∈ [i] → j ≤ 256 := by
    intro j hj
    simp only [List.mem_singleton] at hj
    omega
  by_cases hz : r.getD i 0 ≠ 0
  · have hs : slide_257_step (some r) i = slide_257_inner 5 r i 1 := by
      simp only [slide_257_step, hz, ne_eq, not_false_eq_true, if_true]
    rw [hs] at h
    obtain ⟨t, ht, hb⟩ := slide_257_inner_idx_of i hi 5 r 1 r2 h
    refine ⟨t0 ++ [i] ++ t, ?_, all_le_append (all_le_append h0 hi1) hb⟩
    simp only [slide_257_step_idx, hz, ne_eq, not_false_eq_true, if_true, ht]
  · have hs : slide_257_step (some r) i = some r := by
      simp only [slide_257_step, hz, if_false]
    rw [hs] at h
    refine ⟨t0 ++ [i], ?_, all_le_append h0 hi1⟩
    rw [← Option.some.inj h]
    simp only [slide_257_step_idx, hz, if_false]

theorem slide_257_step_none (i : Nat) : slide_257_step none i = none := rfl

theorem slide_257_fold_idx_of (r0 : List Int) (t0 : List Nat) (h0 : ∀ j, j ∈ t0 → j ≤ 256) :
    ∀ (n : Nat) (r : List Int), n ≤ 256 →
      (List.range n).foldl slide_257_step (some r0) = some r →
      ∃ t, (List.range n).foldl slide_257_step_idx (some (r0, t0)) = some (r, t) ∧
        ∀ j, j ∈ t → j ≤ 256 := by
  intro n
  induction n with
  | zero =>
    intro r _ h
    exact ⟨t0, by rw [← Option.some.inj h]; rfl, h0⟩
  | succ n ih =>
    intro r hn h
    rw [List.range_succ, List.foldl_append, List.foldl_cons, List.foldl_nil] at h
    rw [List.range_succ, List.foldl_append, List.foldl_cons, List.foldl_nil]
    cases hm : (List.range n).foldl slide_257_step (some r0) with
    | none =>
      rw [hm, slide_257_step_none] at h
      cases h
    | some rm =>
      rw [hm] at h
      obtain ⟨tm, htm, hbm⟩ := ih rm (by omega) hm
      rw [htm]
      exact slide_257_step_idx_of n (by omega) rm r tm hbm h

/-- C33. `slide_257` is memory-safe and terminates for every input of 32 bytes: the function
returns (no loop, the carry loop `for (;;)` included, runs out), every index of `r` that is
read or written, in the carry loop as elsewhere, is in `0..256` (so the carry loop finds its
zero digit at an index of at most 256), and `r[256]` ends as 0 or 1.  The run with the recorded
indices returns the digits of `slide_257`. -/
theorem slide_257_memory_safe (a : List Byte) (ha : a.length = 32) :
    ∃ (r : List Int) (t : List Nat), slide_257_idx a = some (r, t) ∧
      slide_257 a = some r ∧ r.length = 257 ∧
      (∀ j, j ∈ t → j ≤ 256) ∧
      (∀ i, i < 256 → i >>> 3 < a.length) ∧
      (r.getD 256 0 = 0 ∨ r.getD 256 0 = 1) := by
  obtain ⟨hlen0, hbits0, htop0, _⟩ := slide_257_init a
  obtain ⟨r, hfold, hlen, _, _, _, hU, _⟩ :=
    slide_257_fold_spec _ hlen0 hbits0 htop0 256 (le_refl _)
  have h0 : ∀ j, j ∈ List.range 256 ++ [256] → j ≤ 256 := by
    intro j hj
    rcases List.mem_append.mp hj with h | h
    · have := List.mem_range.mp h
      omega
    · simp only [List.mem_singleton] at h
      omega
  obtain ⟨t, ht, hb⟩ := slide_257_fold_idx_of _ _ h0 256 r (le_refl _) hfold
  refine ⟨r, t, ht, hfold, hlen, hb, ?_, hU 256 (le_refl _) (le_refl _)⟩
  intro i hi
  rw [ha, Nat.shiftRight_eq_div_pow]
  omega

/-- Witness for C33: the input with all bits set, for which the carry runs up to `r[256]`. -/
theorem slide_257_memory_safe_witness :
    ∃ (r : List Int) (t : List Nat),
      slide_257_idx (List.replicate 32 (255 : Byte)) = some (r, t) ∧
      slide_257 (List.replicate 32 (255 : Byte)) = some r ∧ r.length = 257 ∧
      (∀ j, j ∈ t → j ≤ 256) ∧
      (∀ i, i < 256 → i >>> 3 < (List.replicate 32 (255 : Byte)).length) ∧
      (r.getD 256 0 = 0 ∨ r.getD 256 0 = 1) :=
  slide_257_memory_safe (List.replicate 32 (255 : Byte)) (List.length_replicate _ _)

end P256

namespace P256

open WeierstrassCurve

/-! ## The case of `P256_add_sub_j` that handles an addition -/

end P256

namespace P256

open WeierstrassCurve

/-! ## The additions of the fixed-base ladder -/

end P256

namespace P256

open WeierstrassCurve

/-! ## Secret scalars and the sequence of operations -/

end P256
